import Mathlib

/-!
# Heap allocator: embedding of `explicit.c` (explicit free list) and `implicit.c`

Memory is a map from byte addresses to 64-bit words.  Every access the
allocator makes is an `unsigned long` or pointer access at `segment_start`
plus a multiple of 8, so words never partially overlap.  `NULL` is address 0.
Pointer arithmetic is plain addition on `Nat`; `size_t` arithmetic wraps
modulo `2 ^ 64`.  Loops that follow links stored in memory take a fuel
argument and return `none` when it runs out.
-/

namespace Explicit

/-- The global variables of `explicit.c` together with the memory they point into. -/
structure Heap where
  segment_start : Nat
  segment_end : Nat
  segment_size : Nat
  size_used : Nat
  head_of_free_list : Nat
  mem : Nat → Nat

/-- Number of values of a `size_t` / `unsigned long`. -/
def WORD : Nat := 2 ^ 64

def HEADER_SIZE : Nat := 8

def MIN_PAYLOAD_SIZE : Nat := 24

/-- Modelled from the spec: `allocator.h` is not among the sources; the spec fixes block
sizes to multiples of 8 with the low 3 header bits free for flags, so the single
alignment constant is 8. -/
def ALIGNMENT : Nat := 8

/-- The C constant `sizeof(Node)`: two 8-byte pointers. -/
def SIZEOF_NODE : Nat := 16

/-- The mask `~0x7` converted to `unsigned long`. -/
def SIZE_MASK : Nat := 0xFFFFFFFFFFFFFFF8

def GET_HEADER (bp : Nat) : Nat := bp - HEADER_SIZE

def GET_SIZE (m : Nat → Nat) (p : Nat) : Nat := m p &&& SIZE_MASK

def GET_ALLOC (m : Nat → Nat) (p : Nat) : Nat := m p &&& 1

def IS_FREE (m : Nat → Nat) (p : Nat) : Bool := GET_ALLOC m p == 0

def SET_ALLOC (size alloc : Nat) : Nat := size ||| alloc

def ASSIGN (m : Nat → Nat) (p val : Nat) : Nat → Nat :=
  fun a => if a = p then val else m a

def NEXT_BLOCK (m : Nat → Nat) (bp : Nat) : Nat := bp + GET_SIZE m (GET_HEADER bp)

/-- Field `prev` of a `Node` is at offset 0. -/
def get_prev_free (s : Heap) (node : Nat) : Nat := s.mem node

/-- Field `next` of a `Node` is at offset 8. -/
def get_next_free (s : Heap) (node : Nat) : Nat := s.mem (node + 8)

def set_prev_free (s : Heap) (ptr prev_block : Nat) : Heap :=
  { s with mem := ASSIGN s.mem ptr prev_block }

def set_next_free (s : Heap) (ptr next_block : Nat) : Heap :=
  { s with mem := ASSIGN s.mem (ptr + 8) next_block }

/-- The `while (node)` loop of `find_free_block`. -/
def find_free_block_loop (s : Heap) (size_required : Nat) : Nat → Nat → Option Nat
  | 0, _ => none
  | fuel + 1, node =>
    if node = 0 then some 0
    else if GET_SIZE s.mem (GET_HEADER node) ≥ size_required then some node
    else find_free_block_loop s size_required fuel (get_next_free s node)

def find_free_block (fuel : Nat) (s : Heap) (size_required : Nat) : Option Nat :=
  find_free_block_loop s size_required fuel s.head_of_free_list

/-- The `while (node)` loop of `find_match_in_free_list`. -/
def find_match_loop (s : Heap) (segment : Nat) : Nat → Nat → Option Nat
  | 0, _ => none
  | fuel + 1, node =>
    if node = 0 then some 0
    else if node = segment then some node
    else find_match_loop s segment fuel (get_next_free s node)

def find_match_in_free_list (fuel : Nat) (s : Heap) (segment : Nat) : Option Nat :=
  find_match_loop s segment fuel s.head_of_free_list

def remove_free_block (fuel : Nat) (s : Heap) (segment : Nat) : Option Heap :=
  (find_match_in_free_list fuel s segment).bind fun node =>
    if node = 0 then some s
    else if node = s.head_of_free_list then
      some { s with head_of_free_list := get_next_free s node }
    else
      let s1 := set_next_free s (get_prev_free s node) (get_next_free s node)
      if get_next_free s1 node ≠ 0 then
        some (set_prev_free s1 (get_next_free s1 node) (get_prev_free s1 node))
      else some s1

/-- The `while (node)` loop of `find_prev_in_free_list`. -/
def find_prev_loop (s : Heap) (segment : Nat) : Nat → Nat → Option Nat
  | 0, _ => none
  | fuel + 1, node =>
    if node = 0 then some 0
    else if (get_next_free s node = 0 ∧ node < segment) ∨ get_next_free s node > segment then
      some node
    else find_prev_loop s segment fuel (s.mem (node + 8))

def find_prev_in_free_list (fuel : Nat) (s : Heap) (segment : Nat) : Option Nat :=
  find_prev_loop s segment fuel s.head_of_free_list

/-- The `while (node)` loop in the `else` branch of `find_next_in_free_list`. -/
def find_next_loop (s : Heap) (segment : Nat) : Nat → Nat → Option Nat
  | 0, _ => none
  | fuel + 1, node =>
    if node = 0 then some 0
    else if node > segment then some node
    else find_next_loop s segment fuel (s.mem (node + 8))

def find_next_in_free_list (fuel : Nat) (s : Heap) (prev segment : Nat) : Option Nat :=
  if s.head_of_free_list ≠ 0 ∧ s.head_of_free_list > segment then some s.head_of_free_list
  else if prev ≠ 0 then some (get_next_free s prev)
  else find_next_loop s segment fuel s.head_of_free_list

def insert_in_list (s : Heap) (prev next segment : Nat) : Heap :=
  let s1 := if next ≠ 0 then set_prev_free s next segment else s
  if prev ≠ 0 then set_next_free s1 prev segment else s1

def update_head (s : Heap) (node : Nat) : Heap :=
  let s1 := set_next_free s node s.head_of_free_list
  let s2 := set_prev_free s1 s1.head_of_free_list node
  { s2 with head_of_free_list := node }

def update_free_list (s : Heap) (prev next segment : Nat) : Heap :=
  if s.head_of_free_list = 0 then { s with head_of_free_list := segment }
  else if next = s.head_of_free_list then update_head s segment
  else insert_in_list s prev next segment

def next_block_in_memory_free (s : Heap) (segment next_node : Nat) : Bool :=
  if next_node = NEXT_BLOCK s.mem segment then true else false

def mycoalesce (s : Heap) (segment next_node : Nat) : Heap :=
  if next_block_in_memory_free s segment next_node then
    let merged_size :=
      (GET_SIZE s.mem (GET_HEADER segment) + GET_SIZE s.mem (GET_HEADER next_node)) % WORD
    let s1 := { s with mem := ASSIGN s.mem (GET_HEADER segment) (SET_ALLOC merged_size 0) }
    let curr_node := segment
    let next_next_node := get_next_free s1 next_node
    let s2 :=
      if next_next_node ≠ 0 then
        set_prev_free (set_next_free s1 curr_node next_next_node) next_next_node curr_node
      else set_next_free s1 curr_node 0
    if s2.head_of_free_list = next_node then
      { set_prev_free s2 segment 0 with head_of_free_list := segment }
    else s2
  else s

/-- The parameter `size` is unused in the source as well. -/
def assign_free_block (fuel : Nat) (s : Heap) (block _size : Nat) : Option Heap :=
  (find_prev_in_free_list fuel s block).bind fun prev_node =>
  (find_next_in_free_list fuel s prev_node block).bind fun next_node =>
    let s1 := set_prev_free s block prev_node
    let s2 := set_next_free s1 block next_node
    let s3 := update_free_list s2 prev_node next_node block
    if next_node ≠ 0 then some (mycoalesce s3 block next_node) else some s3

def allocate_segment (fuel : Nat) (s : Heap) (segment size : Nat) : Option Heap :=
  let size_left := (GET_SIZE s.mem (GET_HEADER segment) + WORD - size % WORD) % WORD
  let s1 := { s with mem := ASSIGN s.mem (GET_HEADER segment) (SET_ALLOC size 1) }
  (remove_free_block fuel s1 segment).bind fun s2 =>
    if size_left > SIZEOF_NODE + HEADER_SIZE ∧ NEXT_BLOCK s2.mem segment ≠ 0 then
      let m3 := ASSIGN s2.mem (GET_HEADER (NEXT_BLOCK s2.mem segment)) (SET_ALLOC size_left 0)
      let s3 := { s2 with mem := m3 }
      assign_free_block fuel s3 (NEXT_BLOCK s3.mem segment) size_left
    else
      let m3 := ASSIGN s2.mem (GET_HEADER segment) (SET_ALLOC ((size + size_left) % WORD) 1)
      some { s2 with mem := m3 }

def free_segment (fuel : Nat) (s : Heap) (segment size : Nat) : Option Heap :=
  let s1 := { s with mem := ASSIGN s.mem (GET_HEADER segment) (SET_ALLOC size 0) }
  assign_free_block fuel s1 segment size

/-- The argument `s` is the state before the call; only its memory contents survive. -/
def myinit (fuel : Nat) (s : Heap) (heap_start heap_size : Nat) : Option (Heap × Bool) :=
  let s1 : Heap :=
    { segment_start := heap_start
      segment_size := heap_size
      segment_end := heap_start + heap_size
      size_used := 0
      head_of_free_list := 0
      mem := s.mem }
  (free_segment fuel s1 (s1.segment_start + HEADER_SIZE) s1.segment_size).map fun s2 =>
    (s2, true)

def roundup (sz mult : Nat) : Nat :=
  ((sz + mult + WORD - 1) % WORD) &&& (WORD - 1 - (mult + WORD - 1) % WORD)

/-- Lines 273 to 277 of `mymalloc` (the same lines open `myrealloc`). -/
def size_needed_for (requested_size : Nat) : Nat :=
  let size_needed := (roundup requested_size ALIGNMENT + HEADER_SIZE) % WORD
  if size_needed < MIN_PAYLOAD_SIZE then MIN_PAYLOAD_SIZE else size_needed

/-- The constant `MAX_REQUEST_SIZE` comes from `allocator.h`, which is not among the
sources; it is a parameter here. -/
def mymalloc (fuel MAX_REQUEST_SIZE : Nat) (s : Heap) (requested_size : Nat) :
    Option (Heap × Nat) :=
  if requested_size > MAX_REQUEST_SIZE then some (s, 0)
  else
    let size_needed := size_needed_for requested_size
    if (size_needed + s.size_used) % WORD > s.segment_size then some (s, 0)
    else
      (find_free_block fuel s size_needed).bind fun ptr =>
        if ptr ≠ 0 then
          (allocate_segment fuel s ptr size_needed).map fun s1 =>
            ({ s1 with size_used := (s1.size_used + size_needed) % WORD }, ptr)
        else some (s, 0)

def myfree (fuel : Nat) (s : Heap) (ptr : Nat) : Option Heap :=
  let m1 := ASSIGN s.mem (GET_HEADER ptr) (SET_ALLOC (GET_SIZE s.mem (GET_HEADER ptr)) 0)
  let s1 := { s with mem := m1 }
  assign_free_block fuel s1 ptr (GET_SIZE s1.mem (GET_HEADER ptr))

/-- Copy `n` bytes (a multiple of 8 at every call site) from `src` to `dst`, word by word,
reading the source from the memory as it was before the call. -/
def memcpy (m : Nat → Nat) (dst src n : Nat) : Nat → Nat :=
  fun a => if dst ≤ a ∧ a < dst + n ∧ (a - dst) % 8 = 0 then m (src + (a - dst)) else m a

def myrealloc (fuel MAX_REQUEST_SIZE : Nat) (s : Heap) (old_ptr new_size : Nat) :
    Option (Heap × Nat) :=
  if new_size > MAX_REQUEST_SIZE then some (s, 0)
  else
    let size_needed := size_needed_for new_size
    if (size_needed + s.size_used) % WORD > s.segment_size then some (s, 0)
    else
      (mymalloc fuel MAX_REQUEST_SIZE s new_size).bind fun (s1, new_ptr) =>
        if new_ptr ≠ 0 then
          let s2 := { s1 with mem := memcpy s1.mem new_ptr old_ptr (roundup new_size ALIGNMENT) }
          (myfree fuel s2 old_ptr).map fun s3 => (s3, new_ptr)
        else some (s1, new_ptr)

def validate_heap (s : Heap) : Bool :=
  if s.size_used > s.segment_size then false else true

/-! ## Observations on a state: the block walk and the free-list walk -/

/-- Walk the block headers from `a`, advancing by the size stored in each header, until
exactly `e` is reached; `none` when the walk overshoots `e` or the fuel runs out.
The result lists the header addresses visited. -/
def walk_blocks (m : Nat → Nat) (e : Nat) : Nat → Nat → Option (List Nat)
  | 0, a => if a = e then some [] else none
  | fuel + 1, a =>
    if a = e then some []
    else if e < a then none
    else (walk_blocks m e fuel (a + GET_SIZE m a)).map fun hs => a :: hs

/-- Follow `next` links from `node` until `NULL`; lists the nodes visited. -/
def walk_free (m : Nat → Nat) : Nat → Nat → Option (List Nat)
  | 0, node => if node = 0 then some [] else none
  | fuel + 1, node =>
    if node = 0 then some []
    else (walk_free m fuel (m (node + 8))).map fun ns => node :: ns

/-! ## Abstract view of the segment used to state the representation invariant -/

/-- Header word of a block given as (total size, allocated). -/
def hdr_word (b : Nat × Bool) : Nat := SET_ALLOC b.1 (if b.2 then 1 else 0)

def total : List (Nat × Bool) → Nat
  | [] => 0
  | b :: bs => b.1 + total bs

/-- Every block has room for a header and a free-list node and is 8-aligned in size. -/
def Sizes (bs : List (Nat × Bool)) : Prop := ∀ b ∈ bs, 24 ≤ b.1 ∧ b.1 % 8 = 0

/-- The headers of the blocks `bs` are stored back to back starting at address `a`. -/
def Layout (m : Nat → Nat) : Nat → List (Nat × Bool) → Prop
  | _, [] => True
  | a, b :: bs => m a = hdr_word b ∧ Layout m (a + b.1) bs

/-- Header addresses of the blocks laid out from `a`. -/
def hdrs : Nat → List (Nat × Bool) → List Nat
  | _, [] => []
  | a, b :: bs => a :: hdrs (a + b.1) bs

/-- Payload addresses of the free blocks, in address order. -/
def frees : Nat → List (Nat × Bool) → List Nat
  | _, [] => []
  | a, b :: bs => if b.2 then frees (a + b.1) bs else (a + 8) :: frees (a + b.1) bs

/-- Payload addresses of the allocated blocks, in address order. -/
def useds : Nat → List (Nat × Bool) → List Nat
  | _, [] => []
  | a, b :: bs => if b.2 then (a + 8) :: useds (a + b.1) bs else useds (a + b.1) bs

/-- Forward coalescing on the abstract block list: the free block of size `S` that
follows `l1` absorbs the first block of `l2` when that block is free. -/
def coalesced (l1 : List (Nat × Bool)) (S : Nat) (l2 : List (Nat × Bool)) :
    List (Nat × Bool) :=
  match l2 with
  | (T, false) :: l3 => l1 ++ (S + T, false) :: l3
  | _ => l1 ++ (S, false) :: l2

/-- Block list after `allocate_segment` carves `need` bytes out of the free block of size
`S` that sits between `l1` and `l2`: the remainder becomes a free block (merged with a
free successor) when it exceeds 24 bytes, and is absorbed otherwise. -/
def allocated (l1 : List (Nat × Bool)) (S need : Nat) (l2 : List (Nat × Bool)) :
    List (Nat × Bool) :=
  if S - need > SIZEOF_NODE + HEADER_SIZE then coalesced (l1 ++ [(need, true)]) (S - need) l2
  else l1 ++ (S, true) :: l2

/-- List segment: following `next` links from `h` visits exactly `L` and then reaches `t`. -/
def Seg (m : Nat → Nat) : Nat → List Nat → Nat → Prop
  | h, [], t => h = t
  | h, x :: xs, t => h = x ∧ Seg m (m (x + 8)) xs t

/-- Every node but the first has its `prev` field pointing at its predecessor in `L`. -/
def Back (m : Nat → Nat) (L : List Nat) : Prop := List.Chain' (fun a b => m b = a) L

/-- Representation invariant relating a state to the list of live pointers and to an
abstract list of blocks. -/
structure Inv (s : Heap) (live : List Nat) (bs : List (Nat × Bool)) : Prop where
  hend : s.segment_end = s.segment_start + s.segment_size
  hlt : s.segment_start + s.segment_size < WORD
  sizes : Sizes bs
  layout : Layout s.mem s.segment_start bs
  htotal : total bs = s.segment_size
  seg : Seg s.mem s.head_of_free_list (frees s.segment_start bs) 0
  back : Back s.mem (frees s.segment_start bs)
  hlive : ∀ p, p ∈ live ↔ p ∈ useds s.segment_start bs
  hnodup : live.Nodup
  used : s.size_used ≤ s.segment_size
  hpos : 24 ≤ s.segment_size

/-- States reachable from `myinit heap_start heap_size` by calls that return, each
`myfree` / `myrealloc` being applied to a live allocation.  The list holds the live
allocations. -/
inductive Reach (MAX_REQUEST_SIZE heap_start heap_size : Nat) : Heap → List Nat → Prop
  | init (fuel : Nat) (s0 s : Heap) :
      myinit fuel s0 heap_start heap_size = some (s, true) →
      Reach MAX_REQUEST_SIZE heap_start heap_size s []
  | malloc (fuel n : Nat) (s s1 : Heap) (live : List Nat) (p : Nat) :
      Reach MAX_REQUEST_SIZE heap_start heap_size s live →
      mymalloc fuel MAX_REQUEST_SIZE s n = some (s1, p) →
      Reach MAX_REQUEST_SIZE heap_start heap_size s1 (if p = 0 then live else p :: live)
  | free (fuel : Nat) (s s1 : Heap) (live : List Nat) (p : Nat) :
      Reach MAX_REQUEST_SIZE heap_start heap_size s live →
      p ∈ live →
      myfree fuel s p = some s1 →
      Reach MAX_REQUEST_SIZE heap_start heap_size s1 (live.erase p)
  | realloc (fuel n : Nat) (s s1 : Heap) (live : List Nat) (p q : Nat) :
      Reach MAX_REQUEST_SIZE heap_start heap_size s live →
      p ∈ live →
      myrealloc fuel MAX_REQUEST_SIZE s p n = some (s1, q) →
      Reach MAX_REQUEST_SIZE heap_start heap_size s1
        (if q = 0 then live else q :: live.erase p)

/-! ## Concrete states used to instantiate the theorems -/

/-- The state before the first `myinit`: zero-initialised globals over zeroed memory. -/
def heap0 : Heap :=
  { segment_start := 0, segment_end := 0, segment_size := 0, size_used := 0,
    head_of_free_list := 0, mem := fun _ => 0 }

/-- The state in which an operation that ran out of fuel would leave a scenario. -/
def stuck : Heap × Nat := (heap0, 0)

/-- The state after `myinit(4096, size)`. -/
def fresh (size : Nat) : Heap := ((myinit 2 heap0 4096 size).getD (heap0, false)).1

/-- The value `1 << 30` that the course header gives `MAX_REQUEST_SIZE`; used only to
instantiate theorems at concrete inputs. -/
def MAX_REQ : Nat := 1073741824

/-- The state after `mymalloc(n)` in state `s`. -/
def after_malloc (s : Heap) (n : Nat) : Heap := ((mymalloc 64 MAX_REQ s n).getD stuck).1

/-- The state after `myfree(p)` in state `s`. -/
def after_free (s : Heap) (p : Nat) : Heap := (myfree 64 s p).getD heap0

/-- Two 16-byte allocations on a fresh 128-byte heap: blocks at 4096 and 4120. -/
def two_allocs : Heap := after_malloc (after_malloc (fresh 128) 16) 16

/-- The first of the two allocations released again. -/
def first_released : Heap := after_free two_allocs 4104

/-- Both allocations released, the lower one first. -/
def both_released : Heap := after_free first_released 4128

/-- Three 16-byte allocations on a fresh 1024-byte heap: blocks A, B, C at 4096, 4120 and
4144 (payloads 4104, 4128, 4152), followed by a free block of 952 bytes at 4168. -/
def three_allocs : Heap := after_malloc (after_malloc (after_malloc (fresh 1024) 16) 16) 16

/-- Block B released: the free list is B (4128) followed by the remainder (4176). -/
def b_released : Heap := after_free three_allocs 4128

/-- Block B and then block C released. -/
def bc_released : Heap := after_free b_released 4152

/-- Block B, then C, then A released. -/
def bca_released : Heap := after_free bc_released 4104

/-- The state after `remove_free_block(p)` in state `s`. -/
def after_remove (s : Heap) (p : Nat) : Heap := (remove_free_block 64 s p).getD heap0

/-! ## Client call sequences used to state the batch scenarios -/

/-- A client that calls `mymalloc` once per request size in `ns`, in order; the result is
the final state and the returned pointers in call order. -/
def malloc_all (fuel MAX_REQUEST_SIZE : Nat) : Heap → List Nat → Option (Heap × List Nat)
  | s, [] => some (s, [])
  | s, n :: ns =>
    (mymalloc fuel MAX_REQUEST_SIZE s n).bind fun r =>
      (malloc_all fuel MAX_REQUEST_SIZE r.1 ns).map fun r2 => (r2.1, r.2 :: r2.2)

/-- A client that calls `myfree` on each pointer of the list, in order. -/
def free_all (fuel : Nat) : Heap → List Nat → Option Heap
  | s, [] => some s
  | s, p :: ps => (myfree fuel s p).bind fun s1 => free_all fuel s1 ps

/-- Block list made of allocated blocks of the given sizes. -/
def used_blocks (sizes : List Nat) : List (Nat × Bool) := sizes.map fun x => (x, true)

end Explicit

namespace Implicit

/-! ## Implicit free list: embedding of `implicit.c`

Lines 7 to 21 of `implicit.c` define the same macros as `explicit.c`, and `roundup` has the
same body, so the definitions of `Explicit` are used for them.  Bytes are stored
little-endian inside the 64-bit words, as on the x86-64 target of the sources. -/

open Explicit (WORD HEADER_SIZE ALIGNMENT GET_HEADER GET_SIZE GET_ALLOC IS_FREE SET_ALLOC
  ASSIGN NEXT_BLOCK roundup)

/-- The global variables of `implicit.c` together with the memory they point into. -/
structure Heap where
  segment_start : Nat
  segment_end : Nat
  segment_size : Nat
  size_used : Nat
  mem : Nat → Nat

/-- First enumerator of `enum header_type`. -/
def FREE_HEADER : Nat := 0

/-- Second enumerator of `enum header_type`. -/
def SET_HEADER : Nat := 1

/-- The subtraction is on `unsigned long`; `size_left` is only read when
`header_type == 1`, and `NEXT_BLOCK` reads the header just written. -/
def set_header_block (m : Nat → Nat) (segment header_type size : Nat) : Nat → Nat :=
  let size_left := (GET_SIZE m (GET_HEADER segment) + WORD - size) % WORD
  let m1 := ASSIGN m (GET_HEADER segment) (SET_ALLOC size header_type)
  if header_type = 1 ∧ size_left > 0 then
    ASSIGN m1 (GET_HEADER (NEXT_BLOCK m1 segment)) (SET_ALLOC size_left FREE_HEADER)
  else m1

/-- The argument `s` is the state before the call; only its memory contents survive. -/
def myinit (s : Heap) (heap_start heap_size : Nat) : Heap × Bool :=
  let s1 : Heap :=
    { segment_start := heap_start
      segment_size := heap_size
      segment_end := heap_start + heap_size
      size_used := 0
      mem := s.mem }
  ({ s1 with mem := set_header_block s1.mem (s1.segment_start + HEADER_SIZE) FREE_HEADER
                      s1.segment_size }, true)

/-- The `while` loop of `find_next_block`; `none` when the fuel runs out. -/
def find_next_block_loop (s : Heap) (size_needed : Nat) : Nat → Nat → Option Nat
  | 0, _ => none
  | fuel + 1, base_ptr =>
    if base_ptr + size_needed ≤ s.segment_end then
      if IS_FREE s.mem (GET_HEADER base_ptr) ∧
          GET_SIZE s.mem (GET_HEADER base_ptr) ≥ size_needed then some base_ptr
      else find_next_block_loop s size_needed fuel (NEXT_BLOCK s.mem base_ptr)
    else some 0

def find_next_block (fuel : Nat) (s : Heap) (size_needed : Nat) : Option Nat :=
  find_next_block_loop s size_needed fuel (s.segment_start + HEADER_SIZE)

/-- The constant `MAX_REQUEST_SIZE` comes from `allocator.h`, which is not among the
sources; it is a parameter here. -/
def mymalloc (fuel MAX_REQUEST_SIZE : Nat) (s : Heap) (requested_size : Nat) :
    Option (Heap × Nat) :=
  if requested_size > MAX_REQUEST_SIZE then some (s, 0)
  else
    let size_needed := (roundup requested_size ALIGNMENT + HEADER_SIZE) % WORD
    if (size_needed + s.size_used) % WORD > s.segment_size then some (s, 0)
    else
      (find_next_block fuel s size_needed).map fun ptr =>
        if ptr ≠ 0 then
          ({ s with mem := set_header_block s.mem ptr SET_HEADER size_needed
                    size_used := (s.size_used + size_needed) % WORD }, ptr)
        else (s, 0)

def myfree (s : Heap) (ptr : Nat) : Heap :=
  { s with mem := set_header_block s.mem ptr FREE_HEADER (GET_SIZE s.mem (GET_HEADER ptr)) }

/-- Copy `n` bytes from `src` to `dst`, reading the source from the memory as it was before
the call.  Both addresses are on the word grid of the segment; a word that is only partly
inside the copied range gets its low bytes from the source and keeps its high bytes. -/
def memcpy (m : Nat → Nat) (dst src n : Nat) : Nat → Nat :=
  fun a =>
    if dst ≤ a ∧ a < dst + n ∧ (a - dst) % 8 = 0 then
      if a + 8 ≤ dst + n then m (src + (a - dst))
      else
        m (src + (a - dst)) % 2 ^ (8 * (dst + n - a)) +
          m a / 2 ^ (8 * (dst + n - a)) * 2 ^ (8 * (dst + n - a))
    else m a

/-- The copy and the release are made whatever `mymalloc` returned. -/
def myrealloc (fuel MAX_REQUEST_SIZE : Nat) (s : Heap) (old_ptr new_size : Nat) :
    Option (Heap × Nat) :=
  (mymalloc fuel MAX_REQUEST_SIZE s new_size).map fun r =>
    let s2 : Heap := { r.1 with mem := memcpy r.1.mem r.2 old_ptr new_size }
    (myfree s2 old_ptr, r.2)

/-- The printing and the breakpoint trap of the failing branch are not modelled. -/
def validate_heap (s : Heap) : Bool :=
  if s.size_used > s.segment_size then false else true

/-- Block sizes of the implicit strategy: at least a header, 8-aligned. -/
def Sizes (bs : List (Nat × Bool)) : Prop := ∀ b ∈ bs, 8 ≤ b.1 ∧ b.1 % 8 = 0

/-- Representation invariant of the implicit strategy: the headers of the abstract block
list tile the segment and every live pointer is the payload of an allocated block. -/
structure Inv (s : Heap) (live : List Nat) (bs : List (Nat × Bool)) : Prop where
  hend : s.segment_end = s.segment_start + s.segment_size
  hlt : s.segment_start + s.segment_size < WORD
  sizes : Sizes bs
  layout : Explicit.Layout s.mem s.segment_start bs
  htotal : Explicit.total bs = s.segment_size
  hlive : ∀ p ∈ live, p ∈ Explicit.useds s.segment_start bs
  hnodup : live.Nodup
  used : s.size_used ≤ s.segment_size

/-- States reachable from `myinit heap_start heap_size` by calls that return, each
`myfree` / `myrealloc` being applied to a live allocation.  A `myrealloc` whose inner
`mymalloc` fails copies `new_size` bytes to the null address, which has no defined
behaviour in C unless `new_size` is 0, so such a call is a step only for `new_size = 0`;
it releases the old block.  The list holds the live allocations. -/
inductive Reach (MAX_REQUEST_SIZE heap_start heap_size : Nat) : Heap → List Nat → Prop
  | init (s0 s : Heap) :
      myinit s0 heap_start heap_size = (s, true) →
      Reach MAX_REQUEST_SIZE heap_start heap_size s []
  | malloc (fuel n : Nat) (s s1 : Heap) (live : List Nat) (p : Nat) :
      Reach MAX_REQUEST_SIZE heap_start heap_size s live →
      mymalloc fuel MAX_REQUEST_SIZE s n = some (s1, p) →
      Reach MAX_REQUEST_SIZE heap_start heap_size s1 (if p = 0 then live else p :: live)
  | free (s : Heap) (live : List Nat) (p : Nat) :
      Reach MAX_REQUEST_SIZE heap_start heap_size s live →
      p ∈ live →
      Reach MAX_REQUEST_SIZE heap_start heap_size (myfree s p) (live.erase p)
  | realloc (fuel n : Nat) (s s1 : Heap) (live : List Nat) (p q : Nat) :
      Reach MAX_REQUEST_SIZE heap_start heap_size s live →
      p ∈ live →
      myrealloc fuel MAX_REQUEST_SIZE s p n = some (s1, q) →
      (q = 0 → n = 0) →
      Reach MAX_REQUEST_SIZE heap_start heap_size s1
        (if q = 0 then live.erase p else q :: live.erase p)

/-- Memory holding zero everywhere, with no segment set up. -/
def heap0 : Heap :=
  { segment_start := 0, segment_end := 0, segment_size := 0, size_used := 0,
    mem := fun _ => 0 }

def fresh (size : Nat) : Heap := (myinit heap0 4096 size).1

def after_malloc (s : Heap) (n : Nat) : Heap :=
  ((mymalloc 256 Explicit.MAX_REQ s n).getD (heap0, 0)).1

def after_realloc (s : Heap) (p n : Nat) : Heap :=
  ((myrealloc 256 Explicit.MAX_REQ s p n).getD (heap0, 0)).1

/-- Memory holding at every address the address plus 1, with no segment set up: initial
contents that differ from word to word. -/
def heap_pat : Heap :=
  { segment_start := 0, segment_end := 0, segment_size := 0, size_used := 0,
    mem := fun a => a + 1 }

end Implicit

namespace Explicit

/-- States reachable from `myinit heap_start heap_size` by `mymalloc` / `myfree` calls that
return, each `myfree` being applied to a live allocation.  The list holds every live
allocation together with the size that was requested for it. -/
inductive ReachSized (MAX_REQUEST_SIZE heap_start heap_size : Nat) :
    Heap → List (Nat × Nat) → Prop
  | init (fuel : Nat) (s0 s : Heap) :
      myinit fuel s0 heap_start heap_size = some (s, true) →
      ReachSized MAX_REQUEST_SIZE heap_start heap_size s []
  | malloc (fuel n : Nat) (s s1 : Heap) (live : List (Nat × Nat)) (p : Nat) :
      ReachSized MAX_REQUEST_SIZE heap_start heap_size s live →
      mymalloc fuel MAX_REQUEST_SIZE s n = some (s1, p) →
      ReachSized MAX_REQUEST_SIZE heap_start heap_size s1
        (if p = 0 then live else (p, n) :: live)
  | free (fuel : Nat) (s s1 : Heap) (live : List (Nat × Nat)) (p n : Nat) :
      ReachSized MAX_REQUEST_SIZE heap_start heap_size s live →
      (p, n) ∈ live →
      myfree fuel s p = some s1 →
      ReachSized MAX_REQUEST_SIZE heap_start heap_size s1 (live.erase (p, n))

/-- Memory holding at every address the address plus 1, with no segment set up: initial
contents that differ from word to word. -/
def heap_pat : Heap :=
  { segment_start := 0, segment_end := 0, segment_size := 0, size_used := 0,
    head_of_free_list := 0, mem := fun a => a + 1 }

/-- The state after `myinit(4096, size)` over the memory of `heap_pat`. -/
def pat_fresh (size : Nat) : Heap := ((myinit 2 heap_pat 4096 size).getD (heap0, false)).1

/-- One 24-byte allocation on a 128-byte heap over the memory of `heap_pat`: the third
payload word, at 4120, still holds its initial contents 4121. -/
def pat_alloc : Heap := ((mymalloc 64 MAX_REQ (pat_fresh 128) 24).getD stuck).1

/-- Two 16-byte allocations on a fresh 72-byte heap: blocks of 24 and 48 bytes, no free
block left, `size_used` = 48. -/
def full_heap : Heap := after_malloc (after_malloc (fresh 72) 16) 16

/-! ## Word arithmetic -/

theorem and_size_mask (x : Nat) (hx : x < 2 ^ 64) : x &&& SIZE_MASK = x - x % 8 := by
  have h1 : x - x % 8 = 2 ^ 3 * (x / 2 ^ 3) := by omega
  rw [h1]
  apply Nat.eq_of_testBit_eq
  intro i
  have hm : SIZE_MASK = 2 ^ 3 * (2 ^ 61 - 1) := by decide
  rw [Nat.testBit_and, hm, Nat.testBit_mul_pow_two, Nat.testBit_mul_pow_two,
    Nat.testBit_two_pow_sub_one, ← Nat.shiftRight_eq_div_pow, Nat.testBit_shiftRight]
  by_cases h3 : 3 ≤ i
  · by_cases h64 : i < 64
    · have : i - 3 < 61 := by omega
      simp [h3, this]
    · have hlt : x < 2 ^ i :=
        lt_of_lt_of_le hx (Nat.pow_le_pow_right (by decide) (by omega))
      have e : 3 + (i - 3) = i := by omega
      simp [Nat.testBit_lt_two_pow hlt, e]
  · simp [h3]

theorem or_small (sz b : Nat) (hsz : sz % 8 = 0) (hb : b < 8) : sz ||| b = sz + b := by
  have h := Nat.mul_add_lt_is_or (show b < 2 ^ 3 from hb) (sz / 8)
  have h2 : 2 ^ 3 * (sz / 8) = sz := by omega
  rw [h2] at h
  exact h.symm

theorem hdr_word_eq (b : Nat × Bool) (hs : b.1 % 8 = 0) :
    hdr_word b = b.1 + (if b.2 then 1 else 0) := by
  unfold hdr_word SET_ALLOC
  apply or_small _ _ hs
  split <;> decide

theorem get_size_hdr (m : Nat → Nat) (a : Nat) (b : Nat × Bool) (h : m a = hdr_word b)
    (hs : b.1 % 8 = 0) (hlt : b.1 < WORD) : GET_SIZE m a = b.1 := by
  unfold GET_SIZE
  unfold WORD at hlt
  rw [h, hdr_word_eq b hs]
  have hb : (if b.2 then 1 else 0) < 2 := by split <;> decide
  rw [and_size_mask _ (by omega)]
  omega

theorem get_alloc_hdr (m : Nat → Nat) (a : Nat) (b : Nat × Bool) (h : m a = hdr_word b)
    (hs : b.1 % 8 = 0) : GET_ALLOC m a = if b.2 then 1 else 0 := by
  unfold GET_ALLOC
  rw [h, hdr_word_eq b hs, Nat.and_one_is_mod]
  split <;> omega

theorem is_free_hdr (m : Nat → Nat) (a : Nat) (b : Nat × Bool) (h : m a = hdr_word b)
    (hs : b.1 % 8 = 0) : IS_FREE m a = !b.2 := by
  unfold IS_FREE
  rw [get_alloc_hdr m a b h hs]
  cases b.2 <;> simp

theorem assign_same (m : Nat → Nat) (p v : Nat) : ASSIGN m p v p = v := by
  simp [ASSIGN]

theorem assign_other (m : Nat → Nat) (p v a : Nat) (h : a ≠ p) : ASSIGN m p v a = m a := by
  simp [ASSIGN, h]

/-! ## Lists of blocks -/

theorem total_append (l1 l2 : List (Nat × Bool)) : total (l1 ++ l2) = total l1 + total l2 := by
  induction l1 with
  | nil => simp [total]
  | cons b l ih => simp [total, ih, Nat.add_assoc]

theorem sizes_cons (b : Nat × Bool) (bs : List (Nat × Bool)) :
    Sizes (b :: bs) ↔ (24 ≤ b.1 ∧ b.1 % 8 = 0) ∧ Sizes bs := by
  simp [Sizes]

theorem sizes_append (l1 l2 : List (Nat × Bool)) : Sizes (l1 ++ l2) ↔ Sizes l1 ∧ Sizes l2 := by
  simp only [Sizes, List.mem_append]
  constructor
  · intro h
    exact ⟨fun b hb => h b (Or.inl hb), fun b hb => h b (Or.inr hb)⟩
  · rintro ⟨h1, h2⟩ b (hb | hb)
    · exact h1 b hb
    · exact h2 b hb

theorem layout_append (m : Nat → Nat) (l1 l2 : List (Nat × Bool)) (a : Nat) :
    Layout m a (l1 ++ l2) ↔ Layout m a l1 ∧ Layout m (a + total l1) l2 := by
  induction l1 generalizing a with
  | nil => simp [Layout, total]
  | cons b l ih => simp [Layout, total, ih, Nat.add_assoc, and_assoc]

theorem frees_append (l1 l2 : List (Nat × Bool)) (a : Nat) :
    frees a (l1 ++ l2) = frees a l1 ++ frees (a + total l1) l2 := by
  induction l1 generalizing a with
  | nil => simp [frees, total]
  | cons b l ih =>
    cases hb : b.2 <;> simp [frees, total, ih, hb, Nat.add_assoc]

theorem useds_append (l1 l2 : List (Nat × Bool)) (a : Nat) :
    useds a (l1 ++ l2) = useds a l1 ++ useds (a + total l1) l2 := by
  induction l1 generalizing a with
  | nil => simp [useds, total]
  | cons b l ih =>
    cases hb : b.2 <;> simp [useds, total, ih, hb, Nat.add_assoc]

theorem hdrs_append (l1 l2 : List (Nat × Bool)) (a : Nat) :
    hdrs a (l1 ++ l2) = hdrs a l1 ++ hdrs (a + total l1) l2 := by
  induction l1 generalizing a with
  | nil => simp [hdrs, total]
  | cons b l ih => simp [hdrs, total, ih, Nat.add_assoc]

theorem mem_hdrs_bounds (bs : List (Nat × Bool)) (a h : Nat) (hs : Sizes bs)
    (hh : h ∈ hdrs a bs) : a ≤ h ∧ h + 24 ≤ a + total bs := by
  induction bs generalizing a with
  | nil => simp [hdrs] at hh
  | cons b l ih =>
    rw [sizes_cons] at hs
    simp only [hdrs, List.mem_cons] at hh
    simp only [total]
    rcases hh with rfl | hh
    · omega
    · have := ih (a + b.1) hs.2 hh
      omega

theorem mem_frees_bounds (bs : List (Nat × Bool)) (a x : Nat) (hs : Sizes bs)
    (hx : x ∈ frees a bs) : a + 8 ≤ x ∧ x + 16 ≤ a + total bs := by
  induction bs generalizing a with
  | nil => simp [frees] at hx
  | cons b l ih =>
    rw [sizes_cons] at hs
    simp only [total]
    simp only [frees] at hx
    split at hx
    · have := ih (a + b.1) hs.2 hx
      omega
    · simp only [List.mem_cons] at hx
      rcases hx with rfl | hx
      · have : 0 ≤ total l := Nat.zero_le _
        omega
      · have := ih (a + b.1) hs.2 hx
        omega

theorem mem_useds_bounds (bs : List (Nat × Bool)) (a x : Nat) (hs : Sizes bs)
    (hx : x ∈ useds a bs) : a + 8 ≤ x ∧ x + 16 ≤ a + total bs := by
  induction bs generalizing a with
  | nil => simp [useds] at hx
  | cons b l ih =>
    rw [sizes_cons] at hs
    simp only [total]
    simp only [useds] at hx
    split at hx
    · simp only [List.mem_cons] at hx
      rcases hx with rfl | hx
      · have : 0 ≤ total l := Nat.zero_le _
        omega
      · have := ih (a + b.1) hs.2 hx
        omega
    · have := ih (a + b.1) hs.2 hx
      omega

theorem frees_sub_hdrs (bs : List (Nat × Bool)) (a x : Nat) (hx : x ∈ frees a bs) :
    x - 8 ∈ hdrs a bs ∧ 8 ≤ x := by
  induction bs generalizing a with
  | nil => simp [frees] at hx
  | cons b l ih =>
    simp only [frees] at hx
    simp only [hdrs, List.mem_cons]
    split at hx
    · exact ⟨Or.inr (ih _ hx).1, (ih _ hx).2⟩
    · simp only [List.mem_cons] at hx
      rcases hx with rfl | hx
      · exact ⟨Or.inl (by omega), by omega⟩
      · exact ⟨Or.inr (ih _ hx).1, (ih _ hx).2⟩

theorem layout_frame (m m1 : Nat → Nat) (bs : List (Nat × Bool)) (a : Nat)
    (h : Layout m a bs) (hf : ∀ x ∈ hdrs a bs, m1 x = m x) : Layout m1 a bs := by
  induction bs generalizing a with
  | nil => trivial
  | cons b l ih =>
    simp only [hdrs, List.mem_cons] at hf
    exact ⟨(hf a (Or.inl rfl)).trans h.1, ih _ h.2 (fun x hx => hf x (Or.inr hx))⟩

/-- A payload word of a free block is not a header. -/
theorem frees_not_hdr (bs : List (Nat × Bool)) (a x : Nat) (hs : Sizes bs)
    (hx : x ∈ frees a bs) : x ∉ hdrs a bs ∧ x + 8 ∉ hdrs a bs := by
  induction bs generalizing a with
  | nil => simp [frees] at hx
  | cons b l ih =>
    have hs2 := (sizes_cons b l).1 hs
    simp only [frees] at hx
    simp only [hdrs, List.mem_cons, not_or]
    have key : x = a + 8 ∨ x ∈ frees (a + b.1) l := by
      split at hx
      · exact Or.inr hx
      · simpa using hx
    rcases key with rfl | hx
    · refine ⟨⟨by omega, fun hm => ?_⟩, ⟨by omega, fun hm => ?_⟩⟩
      · have := mem_hdrs_bounds l _ _ hs2.2 hm
        omega
      · have := mem_hdrs_bounds l _ _ hs2.2 hm
        omega
    · have hb := mem_frees_bounds l _ _ hs2.2 hx
      have := ih _ hs2.2 hx
      exact ⟨⟨by omega, this.1⟩, ⟨by omega, this.2⟩⟩

theorem frees_spaced (bs : List (Nat × Bool)) (a : Nat) (hs : Sizes bs) :
    (frees a bs).Pairwise (fun x y => x + 24 ≤ y) := by
  induction bs generalizing a with
  | nil => simp [frees]
  | cons b l ih =>
    have hs2 := (sizes_cons b l).1 hs
    simp only [frees]
    split
    · exact ih _ hs2.2
    · rw [List.pairwise_cons]
      refine ⟨fun y hy => ?_, ih _ hs2.2⟩
      have := mem_frees_bounds l _ _ hs2.2 hy
      omega

theorem frees_length_le (bs : List (Nat × Bool)) (a : Nat) (hs : Sizes bs) :
    24 * (frees a bs).length ≤ total bs := by
  induction bs generalizing a with
  | nil => simp [frees, total]
  | cons b l ih =>
    have hs2 := (sizes_cons b l).1 hs
    have := ih (a + b.1) hs2.2
    simp only [frees, total]
    split
    · omega
    · simp only [List.length_cons]
      omega

/-! ## List segments in memory -/

theorem seg_append (m : Nat → Nat) (L1 L2 : List Nat) (h t : Nat) :
    Seg m h (L1 ++ L2) t ↔ ∃ mid, Seg m h L1 mid ∧ Seg m mid L2 t := by
  induction L1 generalizing h with
  | nil => simp [Seg]
  | cons x xs ih =>
    show (h = x ∧ Seg m (m (x + 8)) (xs ++ L2) t) ↔ _
    rw [ih]
    constructor
    · rintro ⟨hx, mid, h1, h2⟩
      exact ⟨mid, ⟨hx, h1⟩, h2⟩
    · rintro ⟨mid, ⟨hx, h1⟩, h2⟩
      exact ⟨hx, mid, h1, h2⟩

theorem seg_frame (m m1 : Nat → Nat) (L : List Nat) (h t : Nat) (hs : Seg m h L t)
    (hf : ∀ x ∈ L, m1 (x + 8) = m (x + 8)) : Seg m1 h L t := by
  induction L generalizing h with
  | nil => exact hs
  | cons x xs ih =>
    refine ⟨hs.1, ?_⟩
    rw [hf x (List.mem_cons_self _ _)]
    exact ih _ hs.2 (fun y hy => hf y (List.mem_cons_of_mem _ hy))

/-- The pointer at which a segment over `L` ending in `t` starts. -/
theorem seg_head (m : Nat → Nat) (L : List Nat) (h t : Nat) (hs : Seg m h L t) :
    h = L.headD t := by
  cases L with
  | nil => exact hs
  | cons x xs => exact hs.1

theorem seg_snoc (m : Nat → Nat) (L : List Nat) (h q t : Nat) :
    Seg m h (L ++ [q]) t ↔ Seg m h L q ∧ m (q + 8) = t := by
  rw [seg_append]
  simp only [Seg]
  constructor
  · rintro ⟨mid, h1, rfl, h2⟩
    exact ⟨h1, h2⟩
  · rintro ⟨h1, h2⟩
    exact ⟨q, h1, rfl, h2⟩

theorem back_frame (m m1 : Nat → Nat) (L : List Nat) (hb : Back m L)
    (hf : ∀ y ∈ L.tail, m1 y = m y) : Back m1 L := by
  unfold Back at *
  induction L with
  | nil => exact List.chain'_nil
  | cons x xs ih =>
    cases xs with
    | nil => exact List.chain'_singleton _
    | cons y ys =>
      rw [List.chain'_cons] at hb ⊢
      refine ⟨?_, ih hb.2 (fun z hz => hf z ?_)⟩
      · rw [hf y (by simp)]
        exact hb.1
      · simp only [List.tail_cons] at hz ⊢
        exact List.mem_cons_of_mem _ hz

theorem back_cons (m : Nat → Nat) (x : Nat) (L : List Nat) :
    Back m (x :: L) ↔ (∀ y ∈ L.head?, m y = x) ∧ Back m L := by
  unfold Back
  cases L with
  | nil => simp
  | cons y ys => simp [List.chain'_cons]

theorem back_append (m : Nat → Nat) (L1 L2 : List Nat) :
    Back m (L1 ++ L2) ↔
      Back m L1 ∧ Back m L2 ∧ ∀ x ∈ L1.getLast?, ∀ y ∈ L2.head?, m y = x := by
  unfold Back
  exact List.chain'_append

/-! ## The loops over the free list -/

theorem find_free_block_loop_spec (s : Heap) (need : Nat) (L : List Nat) (h fuel : Nat)
    (hs : Seg s.mem h L 0) (hnz : ∀ x ∈ L, x ≠ 0) (hf : L.length < fuel) :
    find_free_block_loop s need fuel h =
      some ((L.find? (fun x => decide (need ≤ GET_SIZE s.mem (GET_HEADER x)))).getD 0) := by
  induction L generalizing h fuel with
  | nil =>
    cases fuel with
    | zero => simp at hf
    | succ f =>
      simp only [Seg] at hs
      simp [find_free_block_loop, hs]
  | cons x xs ih =>
    cases fuel with
    | zero => simp at hf
    | succ f =>
      obtain ⟨rfl, hs2⟩ := hs
      have hx : h ≠ 0 := hnz h (List.mem_cons_self _ _)
      simp only [find_free_block_loop, hx, if_false, ge_iff_le]
      by_cases hfit : need ≤ GET_SIZE s.mem (GET_HEADER h)
      · simp [hfit, List.find?]
      · simp only [hfit, if_false, List.find?, decide_False]
        exact ih _ _ hs2 (fun y hy => hnz y (List.mem_cons_of_mem _ hy))
          (by simpa using hf)

theorem find_match_loop_spec (s : Heap) (seg : Nat) (L1 L2 : List Nat) (h fuel : Nat)
    (hs : Seg s.mem h (L1 ++ seg :: L2) 0) (hnz : ∀ x ∈ L1 ++ seg :: L2, x ≠ 0)
    (hf : L1.length < fuel) :
    find_match_loop s seg fuel h = some seg := by
  induction L1 generalizing h fuel with
  | nil =>
    cases fuel with
    | zero => simp at hf
    | succ f =>
      obtain ⟨rfl, -⟩ := hs
      have hx : h ≠ 0 := hnz h (by simp)
      simp [find_match_loop, hx]
  | cons x xs ih =>
    cases fuel with
    | zero => simp at hf
    | succ f =>
      obtain ⟨rfl, hs2⟩ := hs
      have hx : h ≠ 0 := hnz h (by simp)
      simp only [find_match_loop, hx, if_false]
      by_cases he : h = seg
      · simp [he]
      · simp only [he, if_false]
        exact ih _ _ hs2 (fun y hy => hnz y (List.mem_cons_of_mem _ hy)) (by simpa using hf)

/-- Search for the predecessor when some list node lies below the target. -/
theorem find_prev_loop_mid (s : Heap) (t : Nat) (G : List Nat) (q : Nat) (F2 : List Nat)
    (h fuel : Nat) (hs : Seg s.mem h (G ++ q :: F2) 0)
    (hnz : ∀ x ∈ G ++ q :: F2, x ≠ 0)
    (hlo : ∀ x ∈ G ++ [q], x < t) (hhi : ∀ y ∈ F2, t < y) (hf : G.length < fuel) :
    find_prev_loop s t fuel h = some q := by
  induction G generalizing h fuel with
  | nil =>
    cases fuel with
    | zero => simp at hf
    | succ f =>
      obtain ⟨rfl, hs2⟩ := hs
      have hx : h ≠ 0 := hnz h (by simp)
      have hq : h < t := hlo h (by simp)
      have hn := seg_head _ _ _ _ hs2
      simp only [find_prev_loop, hx, if_false, get_next_free]
      cases F2 with
      | nil =>
        simp only [List.headD_nil] at hn
        simp [hn, hq]
      | cons y ys =>
        simp only [List.headD_cons] at hn
        have : t < y := hhi y (by simp)
        simp [hn, this]
  | cons x xs ih =>
    cases fuel with
    | zero => simp at hf
    | succ f =>
      obtain ⟨rfl, hs2⟩ := hs
      have hx : h ≠ 0 := hnz h (by simp)
      have hn := seg_head _ _ _ _ hs2
      have hn2 : s.mem (h + 8) = (xs ++ [q]).head (by simp) := by
        rw [hn]
        cases xs <;> simp
      have hmem : s.mem (h + 8) ∈ xs ++ [q] := by
        rw [hn2]
        exact List.head_mem _
      have h1 : s.mem (h + 8) < t := hlo _ (by
        simp only [List.cons_append, List.mem_cons]
        exact Or.inr hmem)
      have h2 : s.mem (h + 8) ≠ 0 := hnz _ (by
        rcases List.mem_append.1 hmem with hm | hm
        · simp [hm]
        · simp only [List.mem_singleton] at hm
          simp [hm])
      have h3 : ¬ (t < s.mem (h + 8)) := by omega
      simp only [find_prev_loop, hx, if_false, get_next_free, h2, h3, false_and, or_self]
      exact ih _ _ hs2 (fun y hy => hnz y (List.mem_cons_of_mem _ hy))
        (fun y hy => hlo y (List.mem_cons_of_mem _ hy)) (by simpa using hf)

/-- Search for the predecessor when every list node lies above the target: the head is
returned when it has a successor, `NULL` otherwise. -/
theorem find_prev_loop_low (s : Heap) (t : Nat) (F2 : List Nat) (h fuel : Nat)
    (hs : Seg s.mem h F2 0) (hnz : ∀ x ∈ F2, x ≠ 0) (hhi : ∀ y ∈ F2, t < y)
    (hf : 2 ≤ fuel) :
    find_prev_loop s t fuel h = some (if 2 ≤ F2.length then h else 0) := by
  obtain ⟨f, rfl⟩ : ∃ f, fuel = f + 2 := ⟨fuel - 2, by omega⟩
  cases F2 with
  | nil =>
    simp only [Seg] at hs
    simp [find_prev_loop, hs]
  | cons y ys =>
    obtain ⟨rfl, hs2⟩ := hs
    have hx : h ≠ 0 := hnz h (by simp)
    have hq : ¬ (h < t) := by
      have := hhi h (by simp)
      omega
    have hn := seg_head _ _ _ _ hs2
    cases ys with
    | nil =>
      simp only [List.headD_nil] at hn
      simp [find_prev_loop, hx, get_next_free, hn]
      omega
    | cons z zs =>
      simp only [List.headD_cons] at hn
      have : t < z := hhi z (by simp)
      simp [find_prev_loop, hx, get_next_free, hn, this]

theorem find_next_loop_null (s : Heap) (t fuel : Nat) (hf : 1 ≤ fuel) :
    find_next_loop s t fuel 0 = some 0 := by
  obtain ⟨f, rfl⟩ : ∃ f, fuel = f + 1 := ⟨fuel - 1, by omega⟩
  simp [find_next_loop]

theorem headD_zero_ne (L : List Nat) (y : Nat) (hy : y ∈ L.head?) : L.headD 0 = y := by
  cases L with
  | nil => simp at hy
  | cons z zs =>
    simp only [List.head?_cons, Option.mem_def, Option.some.injEq] at hy
    simp [hy]

/-- Removing a node of a well-formed free list unlinks exactly that node. -/
theorem remove_free_block_spec (s : Heap) (p : Nat) (F1 F2 : List Nat) (fuel : Nat)
    (hs : Seg s.mem s.head_of_free_list (F1 ++ p :: F2) 0)
    (hb : Back s.mem (F1 ++ p :: F2))
    (hsp : (F1 ++ p :: F2).Pairwise (fun x y => x + 24 ≤ y))
    (hnz : ∀ x ∈ F1 ++ p :: F2, x ≠ 0) (hf : F1.length < fuel) :
    ∃ h1 m1, remove_free_block fuel s p = some { s with head_of_free_list := h1, mem := m1 } ∧
      Seg m1 h1 (F1 ++ F2) 0 ∧ Back m1 (F1 ++ F2) ∧
      ∀ w, (∀ x ∈ F1 ++ F2, w ≠ x ∧ w ≠ x + 8) → m1 w = s.mem w := by
  have hfind : find_match_in_free_list fuel s p = some p :=
    find_match_loop_spec s p F1 F2 _ fuel hs hnz hf
  have hp0 : p ≠ 0 := hnz p (by simp)
  rw [List.pairwise_append, List.pairwise_cons] at hsp
  obtain ⟨hsp1, ⟨hpF2, hsp2⟩, hF1⟩ := hsp
  rcases List.eq_nil_or_concat F1 with rfl | ⟨G, q, rfl⟩
  · -- the node is the head
    obtain ⟨hh, hs2⟩ := hs
    refine ⟨s.mem (p + 8), s.mem, ?_, hs2, ?_, fun w _ => rfl⟩
    · simp [remove_free_block, hfind, hp0, hh, get_next_free]
    · exact ((back_cons _ _ _).1 hb).2
  · -- the node has a predecessor `q`
    simp only [List.concat_eq_append] at hs hb hnz hf hsp1 hF1 ⊢
    simp only [List.append_assoc, List.singleton_append] at hs hb hnz ⊢
    rw [seg_append] at hs
    obtain ⟨mid, hsG, hq, hp, hsF2⟩ := hs
    subst hq
    have hqp : mid + 24 ≤ p := hF1 mid (by simp) p (by simp)
    have hGq : ∀ x ∈ G, x + 24 ≤ mid := by
      intro x hx
      rw [List.pairwise_append] at hsp1
      exact hsp1.2.2 x hx mid (by simp)
    have hGp : ∀ x ∈ G, x + 24 ≤ p := fun x hx => hF1 x (by simp [hx]) p (by simp)
    have hhead : s.head_of_free_list ≠ p := by
      have := seg_head _ _ _ _ hsG
      rcases G with _ | ⟨g, G1⟩
      · simp only [List.headD_nil] at this
        omega
      · simp only [List.headD_cons] at this
        have := hGp g (by simp)
        omega
    rw [back_append] at hb
    obtain ⟨hbG, hbq, hlink⟩ := hb
    have hbq2 := (back_cons _ _ _).1 hbq
    have hprev : s.mem p = mid := hbq2.1 p (by simp)
    have hbp := (back_cons _ _ _).1 hbq2.2
    have hnext := seg_head _ _ _ _ hsF2
    have hGtail : ∀ z ∈ G.tail, z + 24 ≤ mid := fun z hz => hGq z (List.mem_of_mem_tail hz)
    by_cases hn : s.mem (p + 8) = 0
    · -- no successor
      have hF2 : F2 = [] := by
        cases F2 with
        | nil => rfl
        | cons y ys =>
          simp only [List.headD_cons] at hnext
          exact absurd (hnext ▸ hn) (hnz y (by simp))
      subst hF2
      refine ⟨s.head_of_free_list, ASSIGN s.mem (mid + 8) (s.mem (p + 8)), ?_, ?_, ?_, ?_⟩
      · have e1 : ASSIGN s.mem (mid + 8) (s.mem (p + 8)) (p + 8) = 0 := by
          rw [assign_other _ _ _ _ (by omega), hn]
        simp [remove_free_block, hfind, hp0, Ne.symm hhead, get_next_free, get_prev_free,
          set_next_free, hprev, e1]
      · rw [seg_append]
        refine ⟨mid, seg_frame _ _ _ _ _ hsG (fun x hx => assign_other _ _ _ _ ?_), rfl, ?_⟩
        · have := hGq x hx
          omega
        · show ASSIGN s.mem (mid + 8) (s.mem (p + 8)) (mid + 8) = 0
          rw [assign_same, hn]
      · rw [back_append]
        refine ⟨back_frame _ _ _ hbG (fun y hy => assign_other _ _ _ _ ?_),
          List.chain'_singleton _, ?_⟩
        · have := hGtail y hy
          omega
        · intro x hx z hz
          simp only [List.head?_cons, Option.mem_def, Option.some.injEq] at hz
          subst hz
          rw [assign_other _ _ _ _ (by omega)]
          exact hlink x hx mid (by simp)
      · intro w hw
        have := (hw mid (by simp)).2
        exact assign_other _ _ _ _ this
    · -- successor `y`
      obtain ⟨y, ys, rfl⟩ : ∃ y ys, F2 = y :: ys := by
        cases F2 with
        | nil => exact absurd hnext hn
        | cons y ys => exact ⟨y, ys, rfl⟩
      simp only [List.headD_cons] at hnext
      have hpy : p + 24 ≤ y := hpF2 y (by simp)
      have hys : ∀ z ∈ ys, y + 24 ≤ z := by
        rw [List.pairwise_cons] at hsp2
        exact hsp2.1
      obtain ⟨hy1, hsys⟩ := hsF2
      refine ⟨s.head_of_free_list,
        ASSIGN (ASSIGN s.mem (mid + 8) (s.mem (p + 8))) y mid, ?_, ?_, ?_, ?_⟩
      · have e1 : ASSIGN s.mem (mid + 8) (s.mem (p + 8)) (p + 8) = y := by
          rw [assign_other _ _ _ _ (by omega), hnext]
        have e2 : ASSIGN s.mem (mid + 8) (s.mem (p + 8)) p = mid := by
          rw [assign_other _ _ _ _ (by omega), hprev]
        have hy0 : y ≠ 0 := hnz y (by simp)
        simp [remove_free_block, hfind, hp0, Ne.symm hhead, get_next_free, get_prev_free,
          set_next_free, set_prev_free, hprev, e1, e2, hy0]
      · rw [seg_append]
        refine ⟨mid, seg_frame _ _ _ _ _ hsG (fun x hx => ?_), rfl, ?_⟩
        · have := hGq x hx
          rw [assign_other _ _ _ _ (by omega), assign_other _ _ _ _ (by omega)]
        · have e : ASSIGN (ASSIGN s.mem (mid + 8) (s.mem (p + 8))) y mid (mid + 8) = y := by
            rw [assign_other _ _ _ _ (by omega), assign_same, hnext]
          have e3 : ASSIGN (ASSIGN s.mem (mid + 8) (s.mem (p + 8))) y mid (y + 8) =
              s.mem (y + 8) := by
            rw [assign_other _ _ _ _ (by omega), assign_other _ _ _ _ (by omega)]
          rw [e]
          refine ⟨rfl, ?_⟩
          rw [e3]
          refine seg_frame _ _ _ _ _ hsys (fun x hx => ?_)
          have := hys x hx
          rw [assign_other _ _ _ _ (by omega), assign_other _ _ _ _ (by omega)]
      · rw [back_append]
        refine ⟨back_frame _ _ _ hbG (fun z hz => ?_), ?_, ?_⟩
        · have := hGtail z hz
          rw [assign_other _ _ _ _ (by omega), assign_other _ _ _ _ (by omega)]
        · rw [back_cons]
          refine ⟨?_, back_frame _ _ _ hbp.2 (fun z hz => ?_)⟩
          · intro z hz
            simp only [List.head?_cons, Option.mem_def, Option.some.injEq] at hz
            subst hz
            rw [assign_same]
          · simp only [List.tail_cons] at hz
            have := hys z hz
            rw [assign_other _ _ _ _ (by omega), assign_other _ _ _ _ (by omega)]
        · intro x hx z hz
          simp only [List.head?_cons, Option.mem_def, Option.some.injEq] at hz
          subst hz
          rw [assign_other _ _ _ _ (by omega), assign_other _ _ _ _ (by omega)]
          exact hlink x hx mid (by simp)
      · intro w hw
        have h1 := (hw mid (by simp)).2
        have h2 := (hw y (by simp)).1
        rw [assign_other _ _ _ _ h2, assign_other _ _ _ _ h1]

/-- First half of `assign_free_block`: the block is linked into the free list at its
address-ordered position. -/
theorem assign_insert_spec (s : Heap) (b sz : Nat) (F1 F2 : List Nat) (fuel : Nat)
    (hs : Seg s.mem s.head_of_free_list (F1 ++ F2) 0)
    (hb : Back s.mem (F1 ++ F2))
    (hsp : (F1 ++ b :: F2).Pairwise (fun x y => x + 24 ≤ y))
    (hnz : ∀ x ∈ F1 ++ b :: F2, x ≠ 0) (hf : F1.length + 2 ≤ fuel) :
    ∃ h3 m3,
      assign_free_block fuel s b sz =
        some (if F2.headD 0 ≠ 0 then
            mycoalesce { s with head_of_free_list := h3, mem := m3 } b (F2.headD 0)
          else { s with head_of_free_list := h3, mem := m3 }) ∧
      Seg m3 h3 (F1 ++ b :: F2) 0 ∧ Back m3 (F1 ++ b :: F2) ∧
      ∀ w, (∀ x ∈ F1 ++ b :: F2, w ≠ x ∧ w ≠ x + 8) → m3 w = s.mem w := by
  have hb0 : b ≠ 0 := hnz b (by simp)
  rw [List.pairwise_append, List.pairwise_cons] at hsp
  obtain ⟨hsp1, ⟨hbF2, hsp2⟩, hF1⟩ := hsp
  have hhi : ∀ y ∈ F2, b < y := fun y hy => by
    have := hbF2 y hy
    omega
  have hnz2 : ∀ x ∈ F2, x ≠ 0 := fun x hx => hnz x (by simp [hx])
  rcases List.eq_nil_or_concat F1 with rfl | ⟨G, q, rfl⟩
  · -- no free node below the block
    simp only [List.nil_append] at hs hb hnz ⊢
    have hprev : find_prev_in_free_list fuel s b =
        some (if 2 ≤ F2.length then s.head_of_free_list else 0) :=
      find_prev_loop_low s b F2 _ fuel hs hnz2 hhi (by omega)
    cases F2 with
    | nil =>
      have hh : s.head_of_free_list = 0 := hs
      have hnext : find_next_in_free_list fuel s 0 b = some 0 := by
        unfold find_next_in_free_list
        rw [hh, find_next_loop_null s b fuel (by omega)]
        simp
      have hprev : find_prev_in_free_list fuel s b = some 0 := by simpa using hprev
      refine ⟨b, ASSIGN (ASSIGN s.mem b 0) (b + 8) 0, ?_, ⟨rfl, ?_⟩, List.chain'_singleton _, ?_⟩
      · simp [assign_free_block, hprev, hnext, set_prev_free, set_next_free, update_free_list, hh]
      · show ASSIGN (ASSIGN s.mem b 0) (b + 8) 0 (b + 8) = 0
        rw [assign_same]
      · intro w hw
        have := hw b (by simp)
        rw [assign_other _ _ _ _ this.2, assign_other _ _ _ _ this.1]
    | cons y ys =>
      obtain ⟨hh, hsy⟩ := hs
      have hby : b + 24 ≤ y := hbF2 y (by simp)
      have hys : ∀ z ∈ ys, y + 24 ≤ z := by
        rw [List.pairwise_cons] at hsp2
        exact hsp2.1
      have hy0 : y ≠ 0 := hnz2 y (by simp)
      have hnext : ∀ pv, find_next_in_free_list fuel s pv b = some y := by
        intro pv
        unfold find_next_in_free_list
        rw [hh]
        have : y > b := by omega
        simp [hy0, this]
      simp only [List.headD_cons, ne_eq, hy0, not_false_eq_true, if_true]
      generalize hpv : (if 2 ≤ (y :: ys).length then s.head_of_free_list else 0) = pv at hprev
      refine ⟨b, ASSIGN (ASSIGN (ASSIGN (ASSIGN s.mem b pv) (b + 8) y) (b + 8) y) y b,
        ?_, ⟨rfl, ?_⟩, ?_, ?_⟩
      · simp [assign_free_block, hprev, hnext, set_prev_free, set_next_free, update_free_list,
          update_head, hh, hy0]
      · have e : ASSIGN (ASSIGN (ASSIGN (ASSIGN s.mem b pv) (b + 8) y) (b + 8) y) y b (b + 8)
            = y := by
          rw [assign_other _ _ _ _ (by omega), assign_same]
        rw [e]
        refine ⟨rfl, ?_⟩
        have e2 : ASSIGN (ASSIGN (ASSIGN (ASSIGN s.mem b pv) (b + 8) y) (b + 8) y) y b (y + 8)
            = s.mem (y + 8) := by
          rw [assign_other _ _ _ _ (by omega), assign_other _ _ _ _ (by omega),
            assign_other _ _ _ _ (by omega), assign_other _ _ _ _ (by omega)]
        rw [e2]
        refine seg_frame _ _ _ _ _ hsy (fun x hx => ?_)
        have := hys x hx
        rw [assign_other _ _ _ _ (by omega), assign_other _ _ _ _ (by omega),
          assign_other _ _ _ _ (by omega), assign_other _ _ _ _ (by omega)]
      · rw [back_cons]
        refine ⟨?_, back_frame _ _ _ hb (fun z hz => ?_)⟩
        · intro z hz
          simp only [List.head?_cons, Option.mem_def, Option.some.injEq] at hz
          subst hz
          rw [assign_same]
        · simp only [List.tail_cons] at hz
          have := hys z hz
          rw [assign_other _ _ _ _ (by omega), assign_other _ _ _ _ (by omega),
            assign_other _ _ _ _ (by omega), assign_other _ _ _ _ (by omega)]
      · intro w hw
        have h1 := hw b (by simp)
        have h2 := hw y (by simp)
        rw [assign_other _ _ _ _ h2.1, assign_other _ _ _ _ h1.2,
          assign_other _ _ _ _ h1.2, assign_other _ _ _ _ h1.1]
  · -- `q` is the last free node below the block
    simp only [List.concat_eq_append] at hs hb hnz hf hsp1 hF1 ⊢
    simp only [List.append_assoc, List.singleton_append] at hs hb hnz ⊢
    have hqb : q + 24 ≤ b := hF1 q (by simp) b (by simp)
    have hGq : ∀ x ∈ G, x + 24 ≤ q := by
      intro x hx
      rw [List.pairwise_append] at hsp1
      exact hsp1.2.2 x hx q (by simp)
    have hGtail : ∀ z ∈ G.tail, z + 24 ≤ q := fun z hz => hGq z (List.mem_of_mem_tail hz)
    have hq0 : q ≠ 0 := hnz q (by simp)
    have hprev : find_prev_in_free_list fuel s b = some q := by
      refine find_prev_loop_mid s b G q F2 _ fuel hs ?_ ?_ hhi (by simp at hf; omega)
      · intro x hx
        apply hnz
        simp only [List.mem_append, List.mem_cons] at hx ⊢
        tauto
      · intro x hx
        have := hF1 x hx b (by simp)
        omega
    have hs0 := hs
    rw [seg_append] at hs
    obtain ⟨mid, hsG, hq, hsF2⟩ := hs
    subst hq
    have hnx := seg_head _ _ _ _ hsF2
    have hhead_le : s.head_of_free_list ≤ mid ∧ s.head_of_free_list ≠ 0 := by
      have := seg_head _ _ _ _ hsG
      rcases G with _ | ⟨g, G1⟩
      · simp only [List.headD_nil] at this
        omega
      · simp only [List.headD_cons] at this
        have h1 := hGq g (by simp)
        have h2 := hnz g (by simp)
        omega
    have hnext : find_next_in_free_list fuel s mid b = some (F2.headD 0) := by
      unfold find_next_in_free_list
      have : ¬ (s.head_of_free_list > b) := by omega
      simp [this, hq0, get_next_free, hnx]
    rw [back_append] at hb
    obtain ⟨hbG, hbq, hlink⟩ := hb
    have hbq2 := (back_cons _ _ _).1 hbq
    cases F2 with
    | nil =>
      simp only [List.headD_nil] at hnx hnext ⊢
      refine ⟨s.head_of_free_list, ASSIGN (ASSIGN (ASSIGN s.mem b mid) (b + 8) 0) (mid + 8) b,
        ?_, ?_, ?_, ?_⟩
      · simp [assign_free_block, hprev, hnext, set_prev_free, set_next_free, update_free_list,
          insert_in_list, hhead_le.2, hq0, Ne.symm hhead_le.2]
      · rw [seg_append]
        refine ⟨mid, seg_frame _ _ _ _ _ hsG (fun x hx => ?_), rfl, ?_⟩
        · have := hGq x hx
          rw [assign_other _ _ _ _ (by omega), assign_other _ _ _ _ (by omega),
            assign_other _ _ _ _ (by omega)]
        · have e : ASSIGN (ASSIGN (ASSIGN s.mem b mid) (b + 8) 0) (mid + 8) b (mid + 8) = b := by
            rw [assign_same]
          rw [e]
          refine ⟨rfl, ?_⟩
          show ASSIGN (ASSIGN (ASSIGN s.mem b mid) (b + 8) 0) (mid + 8) b (b + 8) = 0
          rw [assign_other _ _ _ _ (by omega), assign_same]
      · rw [back_append]
        refine ⟨back_frame _ _ _ hbG (fun z hz => ?_), ?_, ?_⟩
        · have := hGtail z hz
          rw [assign_other _ _ _ _ (by omega), assign_other _ _ _ _ (by omega),
            assign_other _ _ _ _ (by omega)]
        · rw [back_cons]
          refine ⟨?_, List.chain'_singleton _⟩
          intro z hz
          simp only [List.head?_cons, Option.mem_def, Option.some.injEq] at hz
          subst hz
          rw [assign_other _ _ _ _ (by omega), assign_other _ _ _ _ (by omega), assign_same]
        · intro x hx z hz
          simp only [List.head?_cons, Option.mem_def, Option.some.injEq] at hz
          subst hz
          rw [assign_other _ _ _ _ (by omega), assign_other _ _ _ _ (by omega),
            assign_other _ _ _ _ (by omega)]
          exact hlink x hx mid (by simp)
      · intro w hw
        have h1 := hw b (by simp)
        have h2 := hw mid (by simp)
        rw [assign_other _ _ _ _ h2.2, assign_other _ _ _ _ h1.2, assign_other _ _ _ _ h1.1]
    | cons y ys =>
      simp only [List.headD_cons] at hnx hnext ⊢
      obtain ⟨-, hsy⟩ := hsF2
      have hby : b + 24 ≤ y := hbF2 y (by simp)
      have hys : ∀ z ∈ ys, y + 24 ≤ z := by
        rw [List.pairwise_cons] at hsp2
        exact hsp2.1
      have hy0 : y ≠ 0 := hnz2 y (by simp)
      have hyh : y ≠ s.head_of_free_list := by omega
      simp only [ne_eq, hy0, not_false_eq_true, if_true]
      refine ⟨s.head_of_free_list,
        ASSIGN (ASSIGN (ASSIGN (ASSIGN s.mem b mid) (b + 8) y) y b) (mid + 8) b,
        ?_, ?_, ?_, ?_⟩
      · simp [assign_free_block, hprev, hnext, set_prev_free, set_next_free, update_free_list,
          insert_in_list, hhead_le.2, hq0, hy0, hyh]
      · rw [seg_append]
        refine ⟨mid, seg_frame _ _ _ _ _ hsG (fun x hx => ?_), rfl, ?_⟩
        · have := hGq x hx
          rw [assign_other _ _ _ _ (by omega), assign_other _ _ _ _ (by omega),
            assign_other _ _ _ _ (by omega), assign_other _ _ _ _ (by omega)]
        · have e : ASSIGN (ASSIGN (ASSIGN (ASSIGN s.mem b mid) (b + 8) y) y b) (mid + 8) b
              (mid + 8) = b := by
            rw [assign_same]
          rw [e]
          refine ⟨rfl, ?_⟩
          have e2 : ASSIGN (ASSIGN (ASSIGN (ASSIGN s.mem b mid) (b + 8) y) y b) (mid + 8) b
              (b + 8) = y := by
            rw [assign_other _ _ _ _ (by omega), assign_other _ _ _ _ (by omega), assign_same]
          rw [e2]
          refine ⟨rfl, ?_⟩
          have e3 : ASSIGN (ASSIGN (ASSIGN (ASSIGN s.mem b mid) (b + 8) y) y b) (mid + 8) b
              (y + 8) = s.mem (y + 8) := by
            rw [assign_other _ _ _ _ (by omega), assign_other _ _ _ _ (by omega),
              assign_other _ _ _ _ (by omega), assign_other _ _ _ _ (by omega)]
          rw [e3]
          refine seg_frame _ _ _ _ _ hsy (fun x hx => ?_)
          have := hys x hx
          rw [assign_other _ _ _ _ (by omega), assign_other _ _ _ _ (by omega),
            assign_other _ _ _ _ (by omega), assign_other _ _ _ _ (by omega)]
      · rw [back_append]
        refine ⟨back_frame _ _ _ hbG (fun z hz => ?_), ?_, ?_⟩
        · have := hGtail z hz
          rw [assign_other _ _ _ _ (by omega), assign_other _ _ _ _ (by omega),
            assign_other _ _ _ _ (by omega), assign_other _ _ _ _ (by omega)]
        · rw [back_cons]
          refine ⟨?_, ?_⟩
          · intro z hz
            simp only [List.head?_cons, Option.mem_def, Option.some.injEq] at hz
            subst hz
            rw [assign_other _ _ _ _ (by omega), assign_other _ _ _ _ (by omega),
              assign_other _ _ _ _ (by omega), assign_same]
          · rw [back_cons]
            refine ⟨?_, back_frame _ _ _ hbq2.2 (fun z hz => ?_)⟩
            · intro z hz
              simp only [List.head?_cons, Option.mem_def, Option.some.injEq] at hz
              subst hz
              rw [assign_other _ _ _ _ (by omega), assign_same]
            · simp only [List.tail_cons] at hz
              have := hys z hz
              rw [assign_other _ _ _ _ (by omega), assign_other _ _ _ _ (by omega),
                assign_other _ _ _ _ (by omega), assign_other _ _ _ _ (by omega)]
        · intro x hx z hz
          simp only [List.head?_cons, Option.mem_def, Option.some.injEq] at hz
          subst hz
          rw [assign_other _ _ _ _ (by omega), assign_other _ _ _ _ (by omega),
            assign_other _ _ _ _ (by omega), assign_other _ _ _ _ (by omega)]
          exact hlink x hx mid (by simp)
      · intro w hw
        have h1 := hw b (by simp)
        have h2 := hw mid (by simp)
        have h3 := hw y (by simp)
        rw [assign_other _ _ _ _ h2.2, assign_other _ _ _ _ h3.1, assign_other _ _ _ _ h1.2,
          assign_other _ _ _ _ h1.1]

/-- The merge performed by `mycoalesce` when the next free node starts where the block
ends: the successor is spliced out and the header records the sum of the sizes. -/
theorem mycoalesce_merge (s : Heap) (b y : Nat) (F1 r : List Nat)
    (hs : Seg s.mem s.head_of_free_list (F1 ++ b :: y :: r) 0)
    (hb : Back s.mem (F1 ++ b :: y :: r))
    (hsp : (F1 ++ b :: y :: r).Pairwise (fun x y => x + 24 ≤ y))
    (hnz : ∀ x ∈ F1 ++ b :: y :: r, x ≠ 0)
    (hm : y = b + GET_SIZE s.mem (b - 8)) :
    ∃ m1, mycoalesce s b y = { s with mem := m1 } ∧
      Seg m1 s.head_of_free_list (F1 ++ b :: r) 0 ∧ Back m1 (F1 ++ b :: r) ∧
      m1 (b - 8) =
        SET_ALLOC ((GET_SIZE s.mem (b - 8) + GET_SIZE s.mem (y - 8)) % WORD) 0 ∧
      ∀ w, w ≠ b - 8 → (∀ x ∈ F1 ++ b :: y :: r, w ≠ x ∧ w ≠ x + 8) → m1 w = s.mem w := by
  have hb0 : b ≠ 0 := hnz b (by simp)
  have hy0 : y ≠ 0 := hnz y (by simp)
  rw [List.pairwise_append, List.pairwise_cons, List.pairwise_cons] at hsp
  obtain ⟨hsp1, ⟨hbF2, hyr, hspr⟩, hF1⟩ := hsp
  have hby : b + 24 ≤ y := hbF2 y (by simp)
  have hF1b : ∀ x ∈ F1, x + 24 ≤ b := fun x hx => hF1 x hx b (by simp)
  have hF1tail : ∀ x ∈ F1.tail, x + 24 ≤ b := fun x hx => hF1b x (List.mem_of_mem_tail hx)
  rw [seg_append] at hs
  obtain ⟨mid, hsF1, hq, hbn, hsr⟩ := hs
  subst hq
  have hhead : s.head_of_free_list ≠ y := by
    have := seg_head _ _ _ _ hsF1
    rcases F1 with _ | ⟨g, G1⟩
    · simp only [List.headD_nil] at this
      omega
    · simp only [List.headD_cons] at this
      have := hF1b g (by simp)
      omega
  rw [back_append] at hb
  obtain ⟨hbF1, hbb, hlink⟩ := hb
  have hbb2 := (back_cons _ _ _).1 hbb
  have hby2 := (back_cons _ _ _).1 hbb2.2
  have hnn := seg_head _ _ _ _ hsr
  generalize hM : SET_ALLOC ((GET_SIZE s.mem (mid - 8) + GET_SIZE s.mem (y - 8)) % WORD) 0 = M
  have hcond : next_block_in_memory_free s mid y = true := by
    simp [next_block_in_memory_free, NEXT_BLOCK, GET_HEADER, HEADER_SIZE, hm]
  have e0 : ASSIGN s.mem (mid - 8) M (y + 8) = s.mem (y + 8) := by
    rw [assign_other _ _ _ _ (by omega)]
  cases r with
  | nil =>
    simp only [List.headD_nil] at hnn
    refine ⟨ASSIGN (ASSIGN s.mem (mid - 8) M) (mid + 8) 0, ?_, ?_, ?_, ?_, ?_⟩
    · unfold mycoalesce
      simp [hcond, GET_HEADER, HEADER_SIZE, get_next_free, set_next_free, hM, e0, hnn, hhead]
    · rw [seg_append]
      refine ⟨mid, seg_frame _ _ _ _ _ hsF1 (fun x hx => ?_), rfl, ?_⟩
      · have := hF1b x hx
        rw [assign_other _ _ _ _ (by omega), assign_other _ _ _ _ (by omega)]
      · show ASSIGN (ASSIGN s.mem (mid - 8) M) (mid + 8) 0 (mid + 8) = 0
        rw [assign_same]
    · rw [back_append]
      refine ⟨back_frame _ _ _ hbF1 (fun z hz => ?_), List.chain'_singleton _, ?_⟩
      · have := hF1tail z hz
        rw [assign_other _ _ _ _ (by omega), assign_other _ _ _ _ (by omega)]
      · intro x hx z hz
        simp only [List.head?_cons, Option.mem_def, Option.some.injEq] at hz
        subst hz
        rw [assign_other _ _ _ _ (by omega), assign_other _ _ _ _ (by omega)]
        exact hlink x hx mid (by simp)
    · rw [assign_other _ _ _ _ (by omega), assign_same]
    · intro w hw1 hw
      have h1 := hw mid (by simp)
      rw [assign_other _ _ _ _ h1.2, assign_other _ _ _ _ hw1]
  | cons z zs =>
    simp only [List.headD_cons] at hnn
    obtain ⟨-, hsz⟩ := hsr
    have hyz : y + 24 ≤ z := hyr z (by simp)
    have hzs : ∀ x ∈ zs, z + 24 ≤ x := by
      rw [List.pairwise_cons] at hspr
      exact hspr.1
    have hz0 : z ≠ 0 := hnz z (by simp)
    refine ⟨ASSIGN (ASSIGN (ASSIGN s.mem (mid - 8) M) (mid + 8) z) z mid, ?_, ?_, ?_, ?_, ?_⟩
    · unfold mycoalesce
      simp [hcond, GET_HEADER, HEADER_SIZE, get_next_free, set_next_free, set_prev_free, hM, e0,
        hnn, hhead, hz0]
    · rw [seg_append]
      refine ⟨mid, seg_frame _ _ _ _ _ hsF1 (fun x hx => ?_), rfl, ?_⟩
      · have := hF1b x hx
        rw [assign_other _ _ _ _ (by omega), assign_other _ _ _ _ (by omega),
          assign_other _ _ _ _ (by omega)]
      · have e : ASSIGN (ASSIGN (ASSIGN s.mem (mid - 8) M) (mid + 8) z) z mid (mid + 8) = z := by
          rw [assign_other _ _ _ _ (by omega), assign_same]
        rw [e]
        refine ⟨rfl, ?_⟩
        have e2 : ASSIGN (ASSIGN (ASSIGN s.mem (mid - 8) M) (mid + 8) z) z mid (z + 8) =
            s.mem (z + 8) := by
          rw [assign_other _ _ _ _ (by omega), assign_other _ _ _ _ (by omega),
            assign_other _ _ _ _ (by omega)]
        rw [e2]
        refine seg_frame _ _ _ _ _ hsz (fun x hx => ?_)
        have := hzs x hx
        rw [assign_other _ _ _ _ (by omega), assign_other _ _ _ _ (by omega),
          assign_other _ _ _ _ (by omega)]
    · rw [back_append]
      refine ⟨back_frame _ _ _ hbF1 (fun x hx => ?_), ?_, ?_⟩
      · have := hF1tail x hx
        rw [assign_other _ _ _ _ (by omega), assign_other _ _ _ _ (by omega),
          assign_other _ _ _ _ (by omega)]
      · rw [back_cons]
        have hbz := (back_cons _ _ _).1 hby2.2
        refine ⟨?_, back_frame _ _ _ hby2.2 (fun x hx => ?_)⟩
        · intro x hx
          simp only [List.head?_cons, Option.mem_def, Option.some.injEq] at hx
          subst hx
          rw [assign_same]
        · simp only [List.tail_cons] at hx
          have := hzs x hx
          rw [assign_other _ _ _ _ (by omega), assign_other _ _ _ _ (by omega),
            assign_other _ _ _ _ (by omega)]
      · intro x hx w hw
        simp only [List.head?_cons, Option.mem_def, Option.some.injEq] at hw
        subst hw
        rw [assign_other _ _ _ _ (by omega), assign_other _ _ _ _ (by omega),
          assign_other _ _ _ _ (by omega)]
        exact hlink x hx mid (by simp)
    · rw [assign_other _ _ _ _ (by omega), assign_other _ _ _ _ (by omega), assign_same]
    · intro w hw1 hw
      have h1 := hw mid (by simp)
      have h2 := hw z (by simp)
      rw [assign_other _ _ _ _ h2.1, assign_other _ _ _ _ h1.2, assign_other _ _ _ _ hw1]

theorem mycoalesce_skip (s : Heap) (b y : Nat) (hm : y ≠ b + GET_SIZE s.mem (b - 8)) :
    mycoalesce s b y = s := by
  unfold mycoalesce
  simp [next_block_in_memory_free, NEXT_BLOCK, GET_HEADER, HEADER_SIZE, hm]

theorem get_size_congr (m m1 : Nat → Nat) (a : Nat) (h : m1 a = m a) :
    GET_SIZE m1 a = GET_SIZE m a := by
  unfold GET_SIZE
  rw [h]

theorem hdr_word_free (S : Nat) : hdr_word (S, false) = SET_ALLOC S 0 := by
  simp [hdr_word]

theorem hdr_word_used (S : Nat) : hdr_word (S, true) = SET_ALLOC S 1 := by
  simp [hdr_word]

theorem frees_nonzero (bs : List (Nat × Bool)) (a x : Nat) (hx : x ∈ frees a bs) : x ≠ 0 := by
  have := (frees_sub_hdrs bs a x hx).2
  omega

/-- A write that avoids the header of one block and all free-list fields leaves every
other header in place. -/
theorem hdr_untouched (bs : List (Nat × Bool)) (a0 a1 : Nat) (m m1 : Nat → Nat)
    (hsz : Sizes bs)
    (hfr : ∀ w, w ≠ a1 → (∀ x ∈ frees a0 bs, w ≠ x ∧ w ≠ x + 8) → m1 w = m w)
    (h : Nat) (hh : h ∈ hdrs a0 bs) (hne : h ≠ a1) : m1 h = m h := by
  apply hfr h hne
  intro x hx
  have := frees_not_hdr bs a0 x hsz hx
  constructor
  · rintro rfl
    exact this.1 hh
  · rintro rfl
    exact this.2 hh

/-- Block-level effect of `assign_free_block` on a free block whose header is already
written and which is not yet in the free list. -/
theorem assign_free_block_blocks (s : Heap) (a0 : Nat) (l1 l2 : List (Nat × Bool)) (S : Nat)
    (fuel sz : Nat)
    (hsz : Sizes (l1 ++ (S, false) :: l2))
    (hlay : Layout s.mem a0 (l1 ++ (S, false) :: l2))
    (hseg : Seg s.mem s.head_of_free_list
      (frees a0 l1 ++ frees (a0 + total l1 + S) l2) 0)
    (hback : Back s.mem (frees a0 l1 ++ frees (a0 + total l1 + S) l2))
    (hlt : a0 + total (l1 ++ (S, false) :: l2) < WORD)
    (hf : (frees a0 l1).length + 2 ≤ fuel) :
    ∃ h1 m1,
      assign_free_block fuel s (a0 + total l1 + 8) sz =
        some { s with head_of_free_list := h1, mem := m1 } ∧
      Layout m1 a0 (coalesced l1 S l2) ∧
      Seg m1 h1 (frees a0 (coalesced l1 S l2)) 0 ∧
      Back m1 (frees a0 (coalesced l1 S l2)) ∧
      ∀ w, w ≠ a0 + total l1 →
        (∀ x ∈ frees a0 (l1 ++ (S, false) :: l2), w ≠ x ∧ w ≠ x + 8) → m1 w = s.mem w := by
  have hfrees : frees a0 (l1 ++ (S, false) :: l2) =
      frees a0 l1 ++ (a0 + total l1 + 8) :: frees (a0 + total l1 + S) l2 := by
    rw [frees_append]
    simp [frees]
  have hsp := frees_spaced _ a0 hsz
  have hnz : ∀ x ∈ frees a0 (l1 ++ (S, false) :: l2), x ≠ 0 := fun x hx => frees_nonzero _ _ _ hx
  rw [hfrees] at hsp hnz
  have hsz2 := (sizes_append _ _).1 hsz
  have hsz3 := (sizes_cons _ _).1 hsz2.2
  have hS8 : S % 8 = 0 := hsz3.1.2
  have hS24 : 24 ≤ S := hsz3.1.1
  rw [total_append] at hlt
  simp only [total] at hlt
  have hlay2 := (layout_append _ _ _ _).1 hlay
  have hhdr : s.mem (a0 + total l1) = hdr_word (S, false) := hlay2.2.1
  have hgs : GET_SIZE s.mem (a0 + total l1) = S :=
    get_size_hdr _ _ _ hhdr hS8 (by simp only; omega)
  have hsub : a0 + total l1 + 8 - 8 = a0 + total l1 := by omega
  obtain ⟨h3, m3, hrun, hseg3, hback3, hfr3⟩ :=
    assign_insert_spec s (a0 + total l1 + 8) sz (frees a0 l1) (frees (a0 + total l1 + S) l2)
      fuel hseg hback hsp hnz hf
  have hfr3' : ∀ w, w ≠ a0 + total l1 →
      (∀ x ∈ frees a0 (l1 ++ (S, false) :: l2), w ≠ x ∧ w ≠ x + 8) → m3 w = s.mem w := by
    intro w _ hw
    rw [hfrees] at hw
    exact hfr3 w hw
  have hm3hdr : m3 (a0 + total l1) = s.mem (a0 + total l1) := by
    apply hfr3
    intro x hx
    rw [← hfrees] at hx
    have := frees_not_hdr _ a0 x hsz hx
    have hh : a0 + total l1 ∈ hdrs a0 (l1 ++ (S, false) :: l2) := by
      rw [hdrs_append]
      simp [hdrs]
    constructor
    · rintro rfl
      exact this.1 hh
    · intro e
      rw [e] at hh
      exact this.2 hh
  have hkeep : ∀ h ∈ hdrs a0 (l1 ++ (S, false) :: l2), m3 h = s.mem h := by
    intro h hh
    by_cases e : h = a0 + total l1
    · rw [e, hm3hdr]
    · exact hdr_untouched _ a0 _ _ _ hsz hfr3' h hh e
  rw [hrun]
  match l2, hsz, hlay, hseg, hback, hlt, hfrees, hsp, hnz, hsz2, hsz3, hlay2, hrun, hseg3,
    hback3, hfr3, hfr3', hkeep with
  | [], hsz, hlay, hseg, hback, hlt, hfrees, hsp, hnz, hsz2, hsz3, hlay2, hrun, hseg3,
    hback3, hfr3, hfr3', hkeep =>
    refine ⟨h3, m3, ?_, ?_, ?_, ?_, hfr3'⟩
    · simp [frees]
    · exact layout_frame _ _ _ _ hlay hkeep
    · simp only [coalesced]
      rw [hfrees]
      exact hseg3
    · simp only [coalesced]
      rw [hfrees]
      exact hback3
  | (T, true) :: l3, hsz, hlay, hseg, hback, hlt, hfrees, hsp, hnz, hsz2, hsz3, hlay2, hrun,
    hseg3, hback3, hfr3, hfr3', hkeep =>
    have hT := (sizes_cons _ _).1 hsz3.2
    refine ⟨h3, m3, ?_, ?_, ?_, ?_, hfr3'⟩
    · have hskip : ∀ y, y ∈ (frees (a0 + total l1 + S) ((T, true) :: l3)).head? →
          mycoalesce { s with head_of_free_list := h3, mem := m3 } (a0 + total l1 + 8) y =
            { s with head_of_free_list := h3, mem := m3 } := by
        intro y hy
        apply mycoalesce_skip
        have hy2 : y ∈ frees (a0 + total l1 + S) ((T, true) :: l3) := List.mem_of_mem_head? hy
        simp only [frees, if_true] at hy2
        have := mem_frees_bounds _ _ _ hT.2 hy2
        have e : GET_SIZE m3 (a0 + total l1 + 8 - 8) = S := by
          rw [hsub, get_size_congr _ _ _ hm3hdr, hgs]
        show y ≠ a0 + total l1 + 8 + GET_SIZE m3 (a0 + total l1 + 8 - 8)
        rw [e]
        omega
      cases hF : frees (a0 + total l1 + S) ((T, true) :: l3) with
      | nil => simp
      | cons y ys =>
        have hy0 : y ≠ 0 := frees_nonzero _ _ _ (by rw [hF]; simp)
        simp only [List.headD_cons, ne_eq, hy0, not_false_eq_true, if_true]
        rw [hskip y (by rw [hF]; simp)]
    · exact layout_frame _ _ _ _ hlay hkeep
    · simp only [coalesced]
      rw [hfrees]
      exact hseg3
    · simp only [coalesced]
      rw [hfrees]
      exact hback3
  | (T, false) :: l3, hsz, hlay, hseg, hback, hlt, hfrees, hsp, hnz, hsz2, hsz3, hlay2, hrun,
    hseg3, hback3, hfr3, hfr3', hkeep =>
    have hT := (sizes_cons _ _).1 hsz3.2
    simp only [total] at hlt
    have hF : frees (a0 + total l1 + S) ((T, false) :: l3) =
        (a0 + total l1 + S + 8) :: frees (a0 + total l1 + S + T) l3 := by
      simp [frees]
    rw [hF] at hseg3 hback3 hsp hnz hfr3
    have hy0 : a0 + total l1 + S + 8 ≠ 0 := by omega
    have hgs3 : GET_SIZE m3 (a0 + total l1 + 8 - 8) = S := by
      rw [hsub, get_size_congr _ _ _ hm3hdr, hgs]
    have hm : a0 + total l1 + S + 8 =
        a0 + total l1 + 8 + GET_SIZE m3 (a0 + total l1 + 8 - 8) := by
      rw [hgs3]
      omega
    have hhdrT : s.mem (a0 + total l1 + S) = hdr_word (T, false) := hlay2.2.2.1
    have hgsT : GET_SIZE m3 (a0 + total l1 + S + 8 - 8) = T := by
      have e : a0 + total l1 + S + 8 - 8 = a0 + total l1 + S := by omega
      rw [e]
      have hk : m3 (a0 + total l1 + S) = s.mem (a0 + total l1 + S) := by
        apply hkeep
        rw [hdrs_append]
        simp [hdrs]
      rw [get_size_congr _ _ _ hk]
      exact get_size_hdr _ _ _ hhdrT hT.1.2 (by simp only; omega)
    obtain ⟨m4, hrun4, hseg4, hback4, hhdr4, hfr4⟩ :=
      mycoalesce_merge { s with head_of_free_list := h3, mem := m3 } (a0 + total l1 + 8)
        (a0 + total l1 + S + 8) (frees a0 l1) (frees (a0 + total l1 + S + T) l3)
        hseg3 hback3 hsp hnz hm
    simp only at hrun4 hseg4 hback4 hhdr4 hfr4
    rw [hgs3, hgsT, hsub, Nat.mod_eq_of_lt (by omega), ← hdr_word_free] at hhdr4
    have hfr4' : ∀ w, w ≠ a0 + total l1 →
        (∀ x ∈ frees a0 (l1 ++ (S, false) :: (T, false) :: l3), w ≠ x ∧ w ≠ x + 8) →
          m4 w = s.mem w := by
      intro w hw1 hw
      rw [hfrees, hF] at hw
      rw [hfr4 w (by omega) hw, hfr3 w hw]
    have hkeep4 : ∀ h ∈ hdrs a0 (l1 ++ (S, false) :: (T, false) :: l3),
        h ≠ a0 + total l1 → m4 h = s.mem h :=
      fun h hh hne => hdr_untouched _ a0 _ _ _ hsz hfr4' h hh hne
    have hfrees4 : frees a0 (l1 ++ (S + T, false) :: l3) =
        frees a0 l1 ++ (a0 + total l1 + 8) :: frees (a0 + total l1 + S + T) l3 := by
      rw [frees_append]
      simp [frees, Nat.add_assoc]
    refine ⟨h3, m4, ?_, ?_, ?_, ?_, hfr4'⟩
    · rw [hF]
      simp only [List.headD_cons, ne_eq, hy0, not_false_eq_true, if_true]
      rw [hrun4]
    · simp only [coalesced]
      rw [layout_append]
      refine ⟨layout_frame _ _ _ _ hlay2.1 (fun h hh => hkeep4 h ?_ ?_), hhdr4, ?_⟩
      · rw [hdrs_append]
        exact List.mem_append_left _ hh
      · have := mem_hdrs_bounds _ _ _ hsz2.1 hh
        omega
      · have e : a0 + total l1 + (S + T) = a0 + total l1 + S + T := by omega
        simp only [e]
        refine layout_frame _ _ _ _ hlay2.2.2.2 (fun h hh => hkeep4 h ?_ ?_)
        · rw [hdrs_append]
          simp only [hdrs, List.mem_append, List.mem_cons]
          exact Or.inr (Or.inr (Or.inr hh))
        · have := mem_hdrs_bounds _ _ _ hT.2 hh
          omega
    · simp only [coalesced]
      rw [hfrees4]
      exact hseg4
    · simp only [coalesced]
      rw [hfrees4]
      exact hback4

/-! ## Fuel monotonicity -/

theorem find_free_block_loop_mono (s : Heap) (need : Nat) (fuel fuel1 h r : Nat)
    (hr : find_free_block_loop s need fuel h = some r) (hle : fuel ≤ fuel1) :
    find_free_block_loop s need fuel1 h = some r := by
  induction fuel generalizing fuel1 h with
  | zero => simp [find_free_block_loop] at hr
  | succ f ih =>
    obtain ⟨g, rfl⟩ : ∃ g, fuel1 = g + 1 := ⟨fuel1 - 1, by omega⟩
    simp only [find_free_block_loop] at hr ⊢
    split
    · simpa [*] using hr
    · rename_i h0
      simp only [h0, if_false] at hr
      split
      · rename_i h1
        simpa [h1] using hr
      · rename_i h1
        simp only [h1, if_false] at hr
        exact ih _ _ hr (by omega)

theorem find_match_loop_mono (s : Heap) (seg : Nat) (fuel fuel1 h r : Nat)
    (hr : find_match_loop s seg fuel h = some r) (hle : fuel ≤ fuel1) :
    find_match_loop s seg fuel1 h = some r := by
  induction fuel generalizing fuel1 h with
  | zero => simp [find_match_loop] at hr
  | succ f ih =>
    obtain ⟨g, rfl⟩ : ∃ g, fuel1 = g + 1 := ⟨fuel1 - 1, by omega⟩
    simp only [find_match_loop] at hr ⊢
    split
    · simpa [*] using hr
    · rename_i h0
      simp only [h0, if_false] at hr
      split
      · rename_i h1
        simpa [h1] using hr
      · rename_i h1
        simp only [h1, if_false] at hr
        exact ih _ _ hr (by omega)

theorem find_prev_loop_mono (s : Heap) (seg : Nat) (fuel fuel1 h r : Nat)
    (hr : find_prev_loop s seg fuel h = some r) (hle : fuel ≤ fuel1) :
    find_prev_loop s seg fuel1 h = some r := by
  induction fuel generalizing fuel1 h with
  | zero => simp [find_prev_loop] at hr
  | succ f ih =>
    obtain ⟨g, rfl⟩ : ∃ g, fuel1 = g + 1 := ⟨fuel1 - 1, by omega⟩
    simp only [find_prev_loop] at hr ⊢
    split
    · simpa [*] using hr
    · rename_i h0
      simp only [h0, if_false] at hr
      split
      · rename_i h1
        simpa [h1] using hr
      · rename_i h1
        simp only [h1, if_false] at hr
        exact ih _ _ hr (by omega)

theorem find_next_loop_mono (s : Heap) (seg : Nat) (fuel fuel1 h r : Nat)
    (hr : find_next_loop s seg fuel h = some r) (hle : fuel ≤ fuel1) :
    find_next_loop s seg fuel1 h = some r := by
  induction fuel generalizing fuel1 h with
  | zero => simp [find_next_loop] at hr
  | succ f ih =>
    obtain ⟨g, rfl⟩ : ∃ g, fuel1 = g + 1 := ⟨fuel1 - 1, by omega⟩
    simp only [find_next_loop] at hr ⊢
    split
    · simpa [*] using hr
    · rename_i h0
      simp only [h0, if_false] at hr
      split
      · rename_i h1
        simpa [h1] using hr
      · rename_i h1
        simp only [h1, if_false] at hr
        exact ih _ _ hr (by omega)

theorem bind_mono {α β : Type} (x x1 : Option α) (f f1 : α → Option β) (r : β)
    (hx : ∀ a, x = some a → x1 = some a) (hfm : ∀ a b, f a = some b → f1 a = some b)
    (h : x.bind f = some r) : x1.bind f1 = some r := by
  cases hxa : x with
  | none => simp [hxa] at h
  | some a =>
    rw [hxa] at h
    rw [hx a hxa]
    exact hfm a r h

theorem map_mono {α β : Type} (x x1 : Option α) (f : α → β) (r : β)
    (hx : ∀ a, x = some a → x1 = some a) (h : x.map f = some r) : x1.map f = some r := by
  cases hxa : x with
  | none => simp [hxa] at h
  | some a =>
    rw [hxa] at h
    rw [hx a hxa]
    exact h

theorem ite_mono {β : Type} (c : Prop) [Decidable c] (a a1 b b1 : Option β) (r : β)
    (ha : a = some r → a1 = some r) (hb : b = some r → b1 = some r)
    (h : (if c then a else b) = some r) : (if c then a1 else b1) = some r := by
  by_cases hc : c
  · rw [if_pos hc] at h ⊢
    exact ha h
  · rw [if_neg hc] at h ⊢
    exact hb h

theorem remove_free_block_mono (s : Heap) (seg fuel fuel1 : Nat) (r : Heap)
    (hr : remove_free_block fuel s seg = some r) (hle : fuel ≤ fuel1) :
    remove_free_block fuel1 s seg = some r := by
  unfold remove_free_block at hr ⊢
  exact bind_mono _ _ _ _ _ (fun a ha => find_match_loop_mono _ _ _ _ _ _ ha hle)
    (fun _ _ h => h) hr

theorem find_next_in_free_list_mono (s : Heap) (pv b fuel fuel1 r : Nat)
    (hr : find_next_in_free_list fuel s pv b = some r) (hle : fuel ≤ fuel1) :
    find_next_in_free_list fuel1 s pv b = some r := by
  unfold find_next_in_free_list at hr ⊢
  refine ite_mono _ _ _ _ _ _ (fun h => h) ?_ hr
  intro h1
  refine ite_mono _ _ _ _ _ _ (fun h => h) ?_ h1
  intro h2
  exact find_next_loop_mono _ _ _ _ _ _ h2 hle

theorem assign_free_block_mono (s : Heap) (b sz fuel fuel1 : Nat) (r : Heap)
    (hr : assign_free_block fuel s b sz = some r) (hle : fuel ≤ fuel1) :
    assign_free_block fuel1 s b sz = some r := by
  unfold assign_free_block at hr ⊢
  refine bind_mono _ _ _ _ _ (fun a ha => find_prev_loop_mono _ _ _ _ _ _ ha hle) ?_ hr
  intro pv r1 h1
  exact bind_mono _ _ _ _ _ (fun a ha => find_next_in_free_list_mono _ _ _ _ _ _ ha hle)
    (fun _ _ h => h) h1

theorem allocate_segment_mono (s : Heap) (seg size fuel fuel1 : Nat) (r : Heap)
    (hr : allocate_segment fuel s seg size = some r) (hle : fuel ≤ fuel1) :
    allocate_segment fuel1 s seg size = some r := by
  unfold allocate_segment at hr ⊢
  refine bind_mono _ _ _ _ _ (fun a ha => remove_free_block_mono _ _ _ _ _ ha hle) ?_ hr
  intro s2 r1 h1
  exact ite_mono _ _ _ _ _ _ (fun h => assign_free_block_mono _ _ _ _ _ _ h hle) (fun h => h) h1

theorem myinit_mono (s : Heap) (a n fuel fuel1 : Nat) (r : Heap × Bool)
    (hr : myinit fuel s a n = some r) (hle : fuel ≤ fuel1) :
    myinit fuel1 s a n = some r := by
  unfold myinit free_segment at hr ⊢
  exact map_mono _ _ _ _ (fun a ha => assign_free_block_mono _ _ _ _ _ _ ha hle) hr

theorem myfree_mono (s : Heap) (p fuel fuel1 : Nat) (r : Heap)
    (hr : myfree fuel s p = some r) (hle : fuel ≤ fuel1) :
    myfree fuel1 s p = some r := by
  unfold myfree at hr ⊢
  exact assign_free_block_mono _ _ _ _ _ _ hr hle

theorem mymalloc_mono (M : Nat) (s : Heap) (n fuel fuel1 : Nat) (r : Heap × Nat)
    (hr : mymalloc fuel M s n = some r) (hle : fuel ≤ fuel1) :
    mymalloc fuel1 M s n = some r := by
  unfold mymalloc at hr ⊢
  refine ite_mono _ _ _ _ _ _ (fun h => h) ?_ hr
  intro h1
  refine ite_mono _ _ _ _ _ _ (fun h => h) ?_ h1
  intro h2
  refine bind_mono _ _ _ _ _
    (fun a ha => find_free_block_loop_mono _ _ _ _ _ _ ha hle) ?_ h2
  intro ptr r1 h3
  refine ite_mono _ _ _ _ _ _ ?_ (fun h => h) h3
  intro h4
  exact map_mono _ _ _ _ (fun a ha => allocate_segment_mono _ _ _ _ _ _ ha hle) h4

theorem myrealloc_mono (M : Nat) (s : Heap) (p n fuel fuel1 : Nat) (r : Heap × Nat)
    (hr : myrealloc fuel M s p n = some r) (hle : fuel ≤ fuel1) :
    myrealloc fuel1 M s p n = some r := by
  unfold myrealloc at hr ⊢
  refine ite_mono _ _ _ _ _ _ (fun h => h) ?_ hr
  intro h1
  refine ite_mono _ _ _ _ _ _ (fun h => h) ?_ h1
  intro h2
  refine bind_mono _ _ _ _ _ (fun a ha => mymalloc_mono _ _ _ _ _ _ ha hle) ?_ h2
  intro x r1 h3
  refine ite_mono _ _ _ _ _ _ ?_ (fun h => h) h3
  intro h4
  exact map_mono _ _ _ _ (fun a ha => myfree_mono _ _ _ _ _ ha hle) h4

/-! ## Locating a block from its payload address -/

theorem mem_useds_split (bs : List (Nat × Bool)) (a x : Nat) (hx : x ∈ useds a bs) :
    ∃ l1 S l2, bs = l1 ++ (S, true) :: l2 ∧ x = a + total l1 + 8 := by
  induction bs generalizing a with
  | nil => simp [useds] at hx
  | cons b l ih =>
    obtain ⟨S, u⟩ := b
    cases u with
    | true =>
      simp only [useds, if_true, List.mem_cons] at hx
      rcases hx with rfl | hx
      · exact ⟨[], S, l, rfl, by simp [total]⟩
      · obtain ⟨l1, S1, l2, rfl, rfl⟩ := ih _ hx
        exact ⟨(S, true) :: l1, S1, l2, rfl, by simp [total, Nat.add_assoc]⟩
    | false =>
      simp only [useds] at hx
      obtain ⟨l1, S1, l2, rfl, rfl⟩ := ih _ hx
      exact ⟨(S, false) :: l1, S1, l2, rfl, by simp [total, Nat.add_assoc]⟩

theorem mem_frees_split (bs : List (Nat × Bool)) (a x : Nat) (hx : x ∈ frees a bs) :
    ∃ l1 S l2, bs = l1 ++ (S, false) :: l2 ∧ x = a + total l1 + 8 := by
  induction bs generalizing a with
  | nil => simp [frees] at hx
  | cons b l ih =>
    obtain ⟨S, u⟩ := b
    cases u with
    | false =>
      simp only [frees, Bool.false_eq_true, if_false, List.mem_cons] at hx
      rcases hx with rfl | hx
      · exact ⟨[], S, l, rfl, by simp [total]⟩
      · obtain ⟨l1, S1, l2, rfl, rfl⟩ := ih _ hx
        exact ⟨(S, false) :: l1, S1, l2, rfl, by simp [total, Nat.add_assoc]⟩
    | true =>
      simp only [frees] at hx
      obtain ⟨l1, S1, l2, rfl, rfl⟩ := ih _ hx
      exact ⟨(S, true) :: l1, S1, l2, rfl, by simp [total, Nat.add_assoc]⟩

theorem useds_split_used (l1 l2 : List (Nat × Bool)) (S a : Nat) :
    useds a (l1 ++ (S, true) :: l2) =
      useds a l1 ++ (a + total l1 + 8) :: useds (a + total l1 + S) l2 := by
  rw [useds_append]
  simp [useds]

theorem useds_split_free (l1 l2 : List (Nat × Bool)) (S a : Nat) :
    useds a (l1 ++ (S, false) :: l2) = useds a l1 ++ useds (a + total l1 + S) l2 := by
  rw [useds_append]
  simp [useds]

theorem frees_split_used (l1 l2 : List (Nat × Bool)) (S a : Nat) :
    frees a (l1 ++ (S, true) :: l2) = frees a l1 ++ frees (a + total l1 + S) l2 := by
  rw [frees_append]
  simp [frees]

theorem frees_split_free (l1 l2 : List (Nat × Bool)) (S a : Nat) :
    frees a (l1 ++ (S, false) :: l2) =
      frees a l1 ++ (a + total l1 + 8) :: frees (a + total l1 + S) l2 := by
  rw [frees_append]
  simp [frees]

theorem useds_coalesced (l1 l2 : List (Nat × Bool)) (S a : Nat) :
    useds a (coalesced l1 S l2) = useds a l1 ++ useds (a + total l1 + S) l2 := by
  match l2 with
  | [] => simp [coalesced, useds_split_free]
  | (T, true) :: l3 => simp [coalesced, useds_split_free]
  | (T, false) :: l3 =>
    simp only [coalesced, useds_split_free]
    simp [useds, Nat.add_assoc]

theorem total_coalesced (l1 l2 : List (Nat × Bool)) (S : Nat) :
    total (coalesced l1 S l2) = total (l1 ++ (S, false) :: l2) := by
  match l2 with
  | [] => simp [coalesced]
  | (T, true) :: l3 => simp [coalesced]
  | (T, false) :: l3 =>
    simp only [coalesced, total_append, total]
    omega

theorem sizes_coalesced (l1 l2 : List (Nat × Bool)) (S : Nat)
    (h : Sizes (l1 ++ (S, false) :: l2)) : Sizes (coalesced l1 S l2) := by
  match l2, h with
  | [], h => simpa [coalesced] using h
  | (T, true) :: l3, h => simpa [coalesced] using h
  | (T, false) :: l3, h =>
    simp only [coalesced]
    rw [sizes_append, sizes_cons, sizes_cons] at h
    rw [sizes_append, sizes_cons]
    refine ⟨h.1, ⟨?_, ?_⟩, h.2.2.2⟩
    · have := h.2.1.1
      simp only at this ⊢
      omega
    · have h1 := h.2.1.2
      have h2 := h.2.2.1.2
      simp only at h1 h2 ⊢
      omega

theorem sizes_flip (l1 l2 : List (Nat × Bool)) (S : Nat) (u v : Bool)
    (h : Sizes (l1 ++ (S, u) :: l2)) : Sizes (l1 ++ (S, v) :: l2) := by
  rw [sizes_append, sizes_cons] at h ⊢
  exact h

/-- The payload address of a block is not the payload address of a block before or after
it. -/
theorem payload_not_in_rest (l1 l2 : List (Nat × Bool)) (S a : Nat) (u : Bool)
    (hsz : Sizes (l1 ++ (S, u) :: l2)) :
    a + total l1 + 8 ∉ useds a l1 ++ useds (a + total l1 + S) l2 := by
  rw [sizes_append, sizes_cons] at hsz
  intro hm
  rcases List.mem_append.1 hm with h | h
  · have := mem_useds_bounds _ _ _ hsz.1 h
    omega
  · have := mem_useds_bounds _ _ _ hsz.2.2 h
    have := hsz.2.1.1
    simp only at this
    omega

/-- The invariant only depends on the header words and on the link fields of the free
nodes. -/
theorem inv_frame (s : Heap) (live : List Nat) (bs : List (Nat × Bool)) (m1 : Nat → Nat)
    (hinv : Inv s live bs)
    (hh : ∀ h ∈ hdrs s.segment_start bs, m1 h = s.mem h)
    (hfl : ∀ x ∈ frees s.segment_start bs, m1 x = s.mem x ∧ m1 (x + 8) = s.mem (x + 8)) :
    Inv { s with mem := m1 } live bs where
  hend := hinv.hend
  hlt := hinv.hlt
  sizes := hinv.sizes
  layout := layout_frame _ _ _ _ hinv.layout hh
  htotal := hinv.htotal
  seg := seg_frame _ _ _ _ _ hinv.seg (fun x hx => (hfl x hx).2)
  back := back_frame _ _ _ hinv.back (fun y hy => (hfl y (List.mem_of_mem_tail hy)).1)
  hlive := hinv.hlive
  hnodup := hinv.hnodup
  used := hinv.used
  hpos := hinv.hpos

theorem inv_fuel (s : Heap) (live : List Nat) (l1 l2 : List (Nat × Bool)) (b : Nat × Bool)
    (hinv : Inv s live (l1 ++ b :: l2)) (fuel : Nat) (hf : s.segment_size ≤ fuel) :
    (frees s.segment_start l1).length + 2 ≤ fuel ∧
      (frees s.segment_start (l1 ++ b :: l2)).length < fuel := by
  have hsz := hinv.sizes
  have h1 := frees_length_le _ s.segment_start hsz
  have hsz2 := (sizes_append _ _).1 hsz
  have h2 := frees_length_le _ s.segment_start hsz2.1
  have h3 := ((sizes_cons _ _).1 hsz2.2).1.1
  have ht := hinv.htotal
  rw [total_append] at ht h1
  simp only [total] at ht h1
  have : 0 ≤ total l2 := Nat.zero_le _
  constructor <;> omega

theorem hdr_mem_split (l1 l2 : List (Nat × Bool)) (b : Nat × Bool) (a : Nat) :
    a + total l1 ∈ hdrs a (l1 ++ b :: l2) := by
  rw [hdrs_append]
  simp [hdrs]

/-- Releasing a live allocation: the block becomes free, absorbs a free successor in
memory, and the invariant is kept. -/
theorem myfree_spec (s : Heap) (live : List Nat) (l1 l2 : List (Nat × Bool)) (S fuel : Nat)
    (hinv : Inv s live (l1 ++ (S, true) :: l2)) (hf : s.segment_size ≤ fuel) :
    ∃ h1 m1,
      myfree fuel s (s.segment_start + total l1 + 8) =
        some { s with head_of_free_list := h1, mem := m1 } ∧
      Inv { s with head_of_free_list := h1, mem := m1 }
        (live.erase (s.segment_start + total l1 + 8)) (coalesced l1 S l2) ∧
      ∀ w, w ≠ s.segment_start + total l1 →
        (∀ x ∈ frees s.segment_start (l1 ++ (S, false) :: l2), w ≠ x ∧ w ≠ x + 8) →
        m1 w = s.mem w := by
  have hsz := hinv.sizes
  have hsz2 := (sizes_append _ _).1 hsz
  have hsz3 := (sizes_cons _ _).1 hsz2.2
  have hS8 : S % 8 = 0 := hsz3.1.2
  have hlay2 := (layout_append _ _ _ _).1 hinv.layout
  have hhdr : s.mem (s.segment_start + total l1) = hdr_word (S, true) := hlay2.2.1
  have hlt := hinv.hlt
  rw [← hinv.htotal, total_append] at hlt
  simp only [total] at hlt
  have hgs : GET_SIZE s.mem (s.segment_start + total l1) = S :=
    get_size_hdr _ _ _ hhdr hS8 (by simp only; omega)
  have hgh : GET_HEADER (s.segment_start + total l1 + 8) = s.segment_start + total l1 := by
    simp [GET_HEADER, HEADER_SIZE]
  have hin := hdr_mem_split l1 l2 (S, true) s.segment_start
  have hfuel := inv_fuel s live l1 l2 _ hinv fuel hf
  -- the state after the header write
  have hlay0 : Layout (ASSIGN s.mem (s.segment_start + total l1) (SET_ALLOC S 0)) s.segment_start
      (l1 ++ (S, false) :: l2) := by
    rw [layout_append]
    refine ⟨layout_frame _ _ _ _ hlay2.1 (fun h hh => assign_other _ _ _ _ ?_), ?_, ?_⟩
    · have := mem_hdrs_bounds _ _ _ hsz2.1 hh
      omega
    · rw [assign_same, hdr_word_free]
    · refine layout_frame _ _ _ _ hlay2.2.2 (fun h hh => assign_other _ _ _ _ ?_)
      have := mem_hdrs_bounds _ _ _ hsz3.2 hh
      have := hsz3.1.1
      simp only at this ⊢
      omega
  have hseg0 : Seg (ASSIGN s.mem (s.segment_start + total l1) (SET_ALLOC S 0))
      s.head_of_free_list
      (frees s.segment_start l1 ++ frees (s.segment_start + total l1 + S) l2) 0 := by
    rw [← frees_split_used]
    refine seg_frame _ _ _ _ _ hinv.seg (fun x hx => assign_other _ _ _ _ ?_)
    intro e
    exact (frees_not_hdr _ _ _ hsz hx).2 (e ▸ hin)
  have hback0 : Back (ASSIGN s.mem (s.segment_start + total l1) (SET_ALLOC S 0))
      (frees s.segment_start l1 ++ frees (s.segment_start + total l1 + S) l2) := by
    rw [← frees_split_used]
    refine back_frame _ _ _ hinv.back (fun x hx => assign_other _ _ _ _ ?_)
    intro e
    exact (frees_not_hdr _ _ _ hsz (List.mem_of_mem_tail hx)).1 (e ▸ hin)
  obtain ⟨h1, m1, hrun, hlay1, hseg1, hback1, hfr1⟩ :=
    assign_free_block_blocks
      { s with mem := ASSIGN s.mem (s.segment_start + total l1) (SET_ALLOC S 0) }
      s.segment_start l1 l2 S fuel
      (GET_SIZE (ASSIGN s.mem (s.segment_start + total l1) (SET_ALLOC S 0))
        (s.segment_start + total l1))
      (sizes_flip _ _ _ _ _ hsz) hlay0 hseg0 hback0
      (by rw [total_append]; simp only [total]; omega) hfuel.1
  refine ⟨h1, m1, ?_, ?_, ?_⟩
  · unfold myfree
    simp only [hgh, hgs]
    exact hrun
  · refine ⟨hinv.hend, hinv.hlt, sizes_coalesced _ _ _ (sizes_flip _ _ _ _ _ hsz), hlay1, ?_,
      hseg1, hback1, ?_, hinv.hnodup.erase _, hinv.used, hinv.hpos⟩
    · rw [total_coalesced, ← hinv.htotal]
      simp [total_append, total]
    · intro q
      rw [hinv.hnodup.mem_erase_iff, hinv.hlive q, useds_coalesced, useds_split_used]
      have hnot := payload_not_in_rest l1 l2 S s.segment_start true hsz
      simp only [List.mem_append, List.mem_cons] at hnot ⊢
      constructor
      · rintro ⟨hne, h | h | h⟩
        · exact Or.inl h
        · exact absurd h hne
        · exact Or.inr h
      · intro h
        refine ⟨?_, ?_⟩
        · rintro rfl
          exact hnot h
        · rcases h with h | h
          · exact Or.inl h
          · exact Or.inr (Or.inr h)
  · intro w hw1 hw2
    rw [hfr1 w hw1 hw2]
    exact assign_other _ _ _ _ hw1

/-- Initialisation: one free block spanning the whole segment. -/
theorem myinit_spec (s0 : Heap) (start size fuel : Nat) (h24 : 24 ≤ size)
    (h8 : size % 8 = 0) (hlt : start + size < WORD) (hf : 2 ≤ fuel) :
    ∃ m1,
      myinit fuel s0 start size =
        some ({ segment_start := start, segment_end := start + size, segment_size := size,
                size_used := 0, head_of_free_list := start + 8, mem := m1 }, true) ∧
      Inv { segment_start := start, segment_end := start + size, segment_size := size,
            size_used := 0, head_of_free_list := start + 8, mem := m1 } [] [(size, false)] ∧
      ∀ w, w ≠ start → w ≠ start + 8 → w ≠ start + 16 → m1 w = s0.mem w := by
  have hsz : Sizes ([] ++ (size, false) :: []) := by
    simp [Sizes, h24, h8]
  obtain ⟨h1, m1, hrun, hlay1, hseg1, hback1, hfr1⟩ :=
    assign_free_block_blocks
      { segment_start := start, segment_end := start + size, segment_size := size,
        size_used := 0, head_of_free_list := 0,
        mem := ASSIGN s0.mem start (SET_ALLOC size 0) }
      start [] [] size fuel size hsz
      (by simp [Layout, total, assign_same, hdr_word_free])
      (by simp [frees, Seg]) (by simp [frees, Back])
      (by simp [total]; omega) (by simp [frees]; omega)
  simp only [coalesced, List.nil_append, total, Nat.add_zero] at hrun hlay1 hseg1 hback1 hfr1
  have hfrees : frees start [(size, false)] = [start + 8] := by simp [frees]
  rw [hfrees] at hseg1 hback1
  have hh : h1 = start + 8 := hseg1.1
  subst hh
  refine ⟨m1, ?_, ?_, ?_⟩
  · unfold myinit free_segment
    have e : GET_HEADER (start + 8) = start := by simp [GET_HEADER, HEADER_SIZE]
    have e2 : start + HEADER_SIZE = start + 8 := rfl
    simp only [e2, e, hrun, Option.map_some']
  · refine ⟨rfl, hlt, by simpa using hsz, hlay1, by simp [total], ?_, ?_, by simp [useds],
      List.nodup_nil, Nat.zero_le _, h24⟩
    · rw [hfrees]
      exact hseg1
    · rw [hfrees]
      exact hback1
  · intro w hw0 hw1 hw2
    rw [hfr1 w hw0 (by
      intro x hx
      simp only [frees, Bool.false_eq_true, if_false, List.mem_singleton] at hx
      subst hx
      exact ⟨hw1, hw2⟩)]
    exact assign_other _ _ _ _ hw0

theorem fields_outside (l1 l2 : List (Nat × Bool)) (S : Nat) (u : Bool) (a w x : Nat)
    (hsz : Sizes (l1 ++ (S, u) :: l2))
    (hx : x ∈ frees a l1 ++ frees (a + total l1 + S) l2)
    (hw : a + total l1 ≤ w ∧ w < a + total l1 + S) : w ≠ x ∧ w ≠ x + 8 := by
  rw [sizes_append, sizes_cons] at hsz
  rcases List.mem_append.1 hx with h | h
  · have := mem_frees_bounds _ _ _ hsz.1 h
    omega
  · have := mem_frees_bounds _ _ _ hsz.2.2 h
    omega

theorem hdrs_outside (l1 l2 : List (Nat × Bool)) (S : Nat) (u : Bool) (a h : Nat)
    (hsz : Sizes (l1 ++ (S, u) :: l2))
    (hh : h ∈ hdrs a l1 ++ hdrs (a + total l1 + S) l2) :
    h < a + total l1 ∨ a + total l1 + S ≤ h := by
  rw [sizes_append, sizes_cons] at hsz
  rcases List.mem_append.1 hh with h1 | h1
  · have := mem_hdrs_bounds _ _ _ hsz.1 h1
    omega
  · have := mem_hdrs_bounds _ _ _ hsz.2.2 h1
    omega

theorem hdrs_split (l1 l2 : List (Nat × Bool)) (b : Nat × Bool) (a : Nat) :
    hdrs a (l1 ++ b :: l2) = hdrs a l1 ++ (a + total l1) :: hdrs (a + total l1 + b.1) l2 := by
  rw [hdrs_append]
  simp [hdrs]

/-- Block-level effect of `allocate_segment` on a free block of a well-formed heap. -/
theorem allocate_segment_spec (s : Heap) (live : List Nat) (l1 l2 : List (Nat × Bool))
    (S need fuel : Nat) (hinv : Inv s live (l1 ++ (S, false) :: l2))
    (hn24 : 24 ≤ need) (hn8 : need % 8 = 0) (hnS : need ≤ S) (hf : s.segment_size ≤ fuel) :
    ∃ h1 m1,
      allocate_segment fuel s (s.segment_start + total l1 + 8) need =
        some { s with head_of_free_list := h1, mem := m1 } ∧
      Layout m1 s.segment_start (allocated l1 S need l2) ∧
      Seg m1 h1 (frees s.segment_start (allocated l1 S need l2)) 0 ∧
      Back m1 (frees s.segment_start (allocated l1 S need l2)) ∧
      ∀ w, (w < s.segment_start + total l1 ∨ s.segment_start + total l1 + S ≤ w) →
        (∀ x ∈ frees s.segment_start (l1 ++ (S, false) :: l2), w ≠ x ∧ w ≠ x + 8) →
        m1 w = s.mem w := by
  have hsz := hinv.sizes
  have hsz2 := (sizes_append _ _).1 hsz
  have hsz3 := (sizes_cons _ _).1 hsz2.2
  have hS8 : S % 8 = 0 := hsz3.1.2
  have hS24 : 24 ≤ S := hsz3.1.1
  have hlay2 := (layout_append _ _ _ _).1 hinv.layout
  have hhdr : s.mem (s.segment_start + total l1) = hdr_word (S, false) := hlay2.2.1
  have hlt := hinv.hlt
  rw [← hinv.htotal, total_append] at hlt
  simp only [total] at hlt
  unfold WORD at hlt
  have hgs : GET_SIZE s.mem (s.segment_start + total l1) = S :=
    get_size_hdr _ _ _ hhdr hS8 (by simp only [WORD]; omega)
  have hfuel := inv_fuel s live l1 l2 _ hinv fuel hf
  have hgh : GET_HEADER (s.segment_start + total l1 + 8) = s.segment_start + total l1 := by
    simp [GET_HEADER, HEADER_SIZE]
  have hleft : (S + WORD - need % WORD) % WORD = S - need := by
    unfold WORD
    omega
  have hfs := frees_split_free l1 l2 S s.segment_start
  have hsp := frees_spaced _ s.segment_start hsz
  have hnz : ∀ x ∈ frees s.segment_start (l1 ++ (S, false) :: l2), x ≠ 0 :=
    fun x hx => frees_nonzero _ _ _ hx
  have hin := hdr_mem_split l1 l2 (S, false) s.segment_start
  rw [hfs] at hsp hnz
  -- after the first header write
  have hseg0 : Seg (ASSIGN s.mem (s.segment_start + total l1) (SET_ALLOC need 1))
      s.head_of_free_list (frees s.segment_start l1 ++
        (s.segment_start + total l1 + 8) :: frees (s.segment_start + total l1 + S) l2) 0 := by
    rw [← hfs]
    refine seg_frame _ _ _ _ _ hinv.seg (fun x hx => assign_other _ _ _ _ ?_)
    intro e
    exact (frees_not_hdr _ _ _ hsz hx).2 (e ▸ hin)
  have hback0 : Back (ASSIGN s.mem (s.segment_start + total l1) (SET_ALLOC need 1))
      (frees s.segment_start l1 ++
        (s.segment_start + total l1 + 8) :: frees (s.segment_start + total l1 + S) l2) := by
    rw [← hfs]
    refine back_frame _ _ _ hinv.back (fun x hx => assign_other _ _ _ _ ?_)
    intro e
    exact (frees_not_hdr _ _ _ hsz (List.mem_of_mem_tail hx)).1 (e ▸ hin)
  obtain ⟨h2, m2, hrun2, hseg2, hback2, hfr2⟩ :=
    remove_free_block_spec
      { s with mem := ASSIGN s.mem (s.segment_start + total l1) (SET_ALLOC need 1) }
      (s.segment_start + total l1 + 8) (frees s.segment_start l1)
      (frees (s.segment_start + total l1 + S) l2) fuel hseg0 hback0 hsp hnz (by omega)
  simp only at hrun2 hfr2
  -- memory inside the chosen block is not touched by the removal
  have hin2 : ∀ w, s.segment_start + total l1 ≤ w ∧ w < s.segment_start + total l1 + S →
      m2 w = ASSIGN s.mem (s.segment_start + total l1) (SET_ALLOC need 1) w := by
    intro w hw
    exact hfr2 w (fun x hx => fields_outside l1 l2 S false _ w x hsz hx hw)
  have hm2hdr : m2 (s.segment_start + total l1) = hdr_word (need, true) := by
    rw [hin2 _ (by omega), assign_same, hdr_word_used]
  have hgs2 : GET_SIZE m2 (s.segment_start + total l1) = need :=
    get_size_hdr _ _ _ hm2hdr hn8 (by simp only [WORD]; omega)
  -- headers outside the chosen block survive the removal
  have hkeep2 : ∀ h ∈ hdrs s.segment_start l1 ++ hdrs (s.segment_start + total l1 + S) l2,
      m2 h = s.mem h := by
    intro h hh
    have hout := hdrs_outside l1 l2 S false _ h hsz hh
    have hmem : h ∈ hdrs s.segment_start (l1 ++ (S, false) :: l2) := by
      rw [hdrs_split]
      simp only [List.mem_append, List.mem_cons] at hh ⊢
      tauto
    rw [hfr2 h (fun x hx => ?_), assign_other _ _ _ _ (by omega)]
    have hx2 : x ∈ frees s.segment_start (l1 ++ (S, false) :: l2) := by
      rw [hfs]
      simp only [List.mem_append, List.mem_cons] at hx ⊢
      tauto
    have := frees_not_hdr _ _ _ hsz hx2
    constructor
    · rintro rfl
      exact this.1 hmem
    · rintro rfl
      exact this.2 hmem
  have hnb : NEXT_BLOCK m2 (s.segment_start + total l1 + 8) =
      s.segment_start + total l1 + 8 + need := by
    simp only [NEXT_BLOCK, hgh, hgs2]
  unfold allocate_segment
  simp only [hgh, hgs, hleft, hrun2, Option.some_bind, hnb]
  by_cases hsplit : S - need > SIZEOF_NODE + HEADER_SIZE
  · -- the remainder becomes a free block
    have hsplit2 : S - need > 24 := hsplit
    have hcond : S - need > SIZEOF_NODE + HEADER_SIZE ∧
        s.segment_start + total l1 + 8 + need ≠ 0 := ⟨hsplit, by omega⟩
    have hgh2 : GET_HEADER (s.segment_start + total l1 + 8 + need) =
        s.segment_start + total l1 + need := by
      simp only [GET_HEADER, HEADER_SIZE]
      omega
    rw [if_pos hcond]
    simp only [hgh2]
    have hnb3 : NEXT_BLOCK (ASSIGN m2 (s.segment_start + total l1 + need)
        (SET_ALLOC (S - need) 0)) (s.segment_start + total l1 + 8) =
        s.segment_start + total l1 + 8 + need := by
      have e : GET_SIZE (ASSIGN m2 (s.segment_start + total l1 + need)
          (SET_ALLOC (S - need) 0)) (s.segment_start + total l1) = need := by
        rw [get_size_congr _ _ _ (assign_other _ _ _ _ (by omega)), hgs2]
      simp only [NEXT_BLOCK, hgh, e]
    rw [hnb3]
    have htot : total (l1 ++ [(need, true)]) = total l1 + need := by
      simp [total_append, total]
    have hpe : s.segment_start + total l1 + 8 + need =
        s.segment_start + total (l1 ++ [(need, true)]) + 8 := by
      rw [htot]
      omega
    have hfl1 : frees s.segment_start (l1 ++ [(need, true)]) = frees s.segment_start l1 := by
      rw [frees_append]
      simp [frees]
    have hbase : s.segment_start + total (l1 ++ [(need, true)]) + (S - need) =
        s.segment_start + total l1 + S := by
      rw [htot]
      omega
    have hsz' : Sizes ((l1 ++ [(need, true)]) ++ (S - need, false) :: l2) := by
      rw [sizes_append, sizes_append, sizes_cons, sizes_cons]
      refine ⟨⟨hsz2.1, ⟨hn24, hn8⟩, by simp [Sizes]⟩, ⟨?_, ?_⟩, hsz3.2⟩
      · simp only
        omega
      · simp only
        omega
    have hlay' : Layout (ASSIGN m2 (s.segment_start + total l1 + need) (SET_ALLOC (S - need) 0))
        s.segment_start ((l1 ++ [(need, true)]) ++ (S - need, false) :: l2) := by
      rw [layout_append, layout_append]
      refine ⟨⟨layout_frame _ _ _ _ hlay2.1 (fun h hh => ?_), ⟨?_, trivial⟩⟩, ?_, ?_⟩
      · have := mem_hdrs_bounds _ _ _ hsz2.1 hh
        rw [assign_other _ _ _ _ (by omega)]
        exact hkeep2 h (List.mem_append_left _ hh)
      · rw [assign_other _ _ _ _ (by omega)]
        exact hm2hdr
      · rw [htot, ← Nat.add_assoc, assign_same, hdr_word_free]
      · simp only [hbase]
        refine layout_frame _ _ _ _ hlay2.2.2 (fun h hh => ?_)
        have := mem_hdrs_bounds _ _ _ hsz3.2 hh
        rw [assign_other _ _ _ _ (by omega)]
        exact hkeep2 h (List.mem_append_right _ hh)
    have hseg' : Seg (ASSIGN m2 (s.segment_start + total l1 + need) (SET_ALLOC (S - need) 0)) h2
        (frees s.segment_start (l1 ++ [(need, true)]) ++
          frees (s.segment_start + total (l1 ++ [(need, true)]) + (S - need)) l2) 0 := by
      rw [hfl1, hbase]
      refine seg_frame _ _ _ _ _ hseg2 (fun x hx => assign_other _ _ _ _ ?_)
      have := fields_outside l1 l2 S false _ (s.segment_start + total l1 + need) x hsz hx
        (by omega)
      exact Ne.symm this.2
    have hback' : Back (ASSIGN m2 (s.segment_start + total l1 + need) (SET_ALLOC (S - need) 0))
        (frees s.segment_start (l1 ++ [(need, true)]) ++
          frees (s.segment_start + total (l1 ++ [(need, true)]) + (S - need)) l2) := by
      rw [hfl1, hbase]
      refine back_frame _ _ _ hback2 (fun x hx => assign_other _ _ _ _ ?_)
      have := fields_outside l1 l2 S false _ (s.segment_start + total l1 + need) x hsz
        (List.mem_of_mem_tail hx) (by omega)
      exact Ne.symm this.1
    obtain ⟨h4, m4, hrun4, hlay4, hseg4, hback4, hfr4⟩ :=
      assign_free_block_blocks
        { s with head_of_free_list := h2, mem :=
            ASSIGN m2 (s.segment_start + total l1 + need) (SET_ALLOC (S - need) 0) }
        s.segment_start (l1 ++ [(need, true)]) l2 (S - need) fuel (S - need)
        hsz' hlay' hseg' hback'
        (by rw [total_append, htot]; simp only [total, WORD]; omega)
        (by rw [hfl1]; exact hfuel.1)
    simp only at hrun4 hfr4
    rw [← hpe] at hrun4
    refine ⟨h4, m4, hrun4, ?_, ?_, ?_, ?_⟩
    · simpa only [allocated, if_pos hsplit] using hlay4
    · simpa only [allocated, if_pos hsplit] using hseg4
    · simpa only [allocated, if_pos hsplit] using hback4
    · intro w hw1 hw2
      have hfs' : frees s.segment_start ((l1 ++ [(need, true)]) ++ (S - need, false) :: l2) =
          frees s.segment_start l1 ++ (s.segment_start + total l1 + need + 8) ::
            frees (s.segment_start + total l1 + S) l2 := by
        rw [frees_split_free, hfl1, hbase, htot, ← Nat.add_assoc]
      rw [hfr4 w (by rw [htot]; omega) ?_, assign_other _ _ _ _ (by omega),
        hfr2 w ?_, assign_other _ _ _ _ (by omega)]
      · intro x hx
        apply hw2
        rw [hfs]
        simp only [List.mem_append, List.mem_cons] at hx ⊢
        tauto
      · intro x hx
        rw [hfs'] at hx
        simp only [List.mem_append, List.mem_cons] at hx
        rcases hx with hx | rfl | hx
        · exact hw2 x (by rw [hfs]; simp [hx])
        · omega
        · exact hw2 x (by rw [hfs]; simp [hx])
  · -- the remainder is absorbed
    have hcond : ¬ (S - need > SIZEOF_NODE + HEADER_SIZE ∧
        s.segment_start + total l1 + 8 + need ≠ 0) := fun h => hsplit h.1
    rw [if_neg hcond]
    have hval : (need + (S - need)) % WORD = S := by
      unfold WORD
      omega
    simp only [hval]
    have hfu : frees s.segment_start (l1 ++ (S, true) :: l2) =
        frees s.segment_start l1 ++ frees (s.segment_start + total l1 + S) l2 :=
      frees_split_used _ _ _ _
    refine ⟨h2, ASSIGN m2 (s.segment_start + total l1) (SET_ALLOC S 1), rfl, ?_, ?_, ?_, ?_⟩
    · simp only [allocated, if_neg hsplit]
      rw [layout_append]
      refine ⟨layout_frame _ _ _ _ hlay2.1 (fun h hh => ?_), ?_, ?_⟩
      · have := mem_hdrs_bounds _ _ _ hsz2.1 hh
        rw [assign_other _ _ _ _ (by omega)]
        exact hkeep2 h (List.mem_append_left _ hh)
      · rw [assign_same, hdr_word_used]
      · refine layout_frame _ _ _ _ hlay2.2.2 (fun h hh => ?_)
        have := mem_hdrs_bounds _ _ _ hsz3.2 hh
        rw [assign_other _ _ _ _ (by omega)]
        exact hkeep2 h (List.mem_append_right _ hh)
    · simp only [allocated, if_neg hsplit]
      rw [hfu]
      refine seg_frame _ _ _ _ _ hseg2 (fun x hx => assign_other _ _ _ _ ?_)
      have := fields_outside l1 l2 S false _ (s.segment_start + total l1) x hsz hx (by omega)
      exact Ne.symm this.2
    · simp only [allocated, if_neg hsplit]
      rw [hfu]
      refine back_frame _ _ _ hback2 (fun x hx => assign_other _ _ _ _ ?_)
      have := fields_outside l1 l2 S false _ (s.segment_start + total l1) x hsz
        (List.mem_of_mem_tail hx) (by omega)
      exact Ne.symm this.1
    · intro w hw1 hw2
      rw [assign_other _ _ _ _ (by omega), hfr2 w ?_, assign_other _ _ _ _ (by omega)]
      intro x hx
      apply hw2
      rw [hfs]
      simp only [List.mem_append, List.mem_cons] at hx ⊢
      tauto

/-! ## Request rounding -/

theorem roundup_eq (n : Nat) :
    roundup n ALIGNMENT = (n + 7) % WORD - (n + 7) % WORD % 8 := by
  unfold roundup ALIGNMENT
  have h1 : WORD - 1 - (8 + WORD - 1) % WORD = SIZE_MASK := by decide
  have h2 : (n + 8 + WORD - 1) % WORD = (n + 7) % WORD := by
    unfold WORD
    omega
  rw [h1, h2]
  exact and_size_mask _ (Nat.mod_lt _ (by decide))

theorem roundup_facts (n : Nat) :
    roundup n ALIGNMENT % 8 = 0 ∧ roundup n ALIGNMENT < WORD := by
  rw [roundup_eq]
  unfold WORD
  omega

theorem roundup_small (n : Nat) (h : n + 7 < WORD) :
    n ≤ roundup n ALIGNMENT ∧ roundup n ALIGNMENT < n + 8 := by
  rw [roundup_eq]
  unfold WORD at *
  omega

theorem size_needed_facts (n : Nat) :
    24 ≤ size_needed_for n ∧ size_needed_for n % 8 = 0 ∧ size_needed_for n < WORD := by
  have h := roundup_facts n
  unfold size_needed_for HEADER_SIZE MIN_PAYLOAD_SIZE
  unfold WORD at *
  simp only
  split <;> omega

theorem size_needed_ge (n : Nat) (h : n + 16 ≤ WORD) :
    roundup n ALIGNMENT + 8 ≤ size_needed_for n := by
  have h1 := roundup_small n (by omega)
  unfold size_needed_for HEADER_SIZE MIN_PAYLOAD_SIZE
  unfold WORD at *
  simp only
  split <;> omega

/-! ## First fit on the abstract block list -/

theorem first_fit_split (bs : List (Nat × Bool)) (need : Nat) :
    (∀ b ∈ bs, b.2 = false → b.1 < need) ∨
    ∃ l1 S l2, bs = l1 ++ (S, false) :: l2 ∧ need ≤ S ∧ ∀ b ∈ l1, b.2 = false → b.1 < need := by
  induction bs with
  | nil => exact Or.inl (by simp)
  | cons b l ih =>
    by_cases hb : b.2 = false ∧ need ≤ b.1
    · refine Or.inr ⟨[], b.1, l, ?_, hb.2, by simp⟩
      obtain ⟨S, u⟩ := b
      simp only at hb
      simp [hb.1]
    · have hb2 : b.2 = false → b.1 < need := fun h => by
        have : ¬ need ≤ b.1 := fun h2 => hb ⟨h, h2⟩
        omega
      rcases ih with h | ⟨l1, S, l2, rfl, hS, hl1⟩
      · left
        intro c hc
        rcases List.mem_cons.1 hc with rfl | hc
        · exact hb2
        · exact h c hc
      · right
        refine ⟨b :: l1, S, l2, rfl, hS, ?_⟩
        intro c hc
        rcases List.mem_cons.1 hc with rfl | hc
        · exact hb2
        · exact hl1 c hc

theorem find_fit_none (m : Nat → Nat) (bs : List (Nat × Bool)) (a need : Nat)
    (hlay : Layout m a bs) (hsz : Sizes bs) (hlt : a + total bs < WORD)
    (hno : ∀ b ∈ bs, b.2 = false → b.1 < need) :
    (frees a bs).find? (fun x => decide (need ≤ GET_SIZE m (GET_HEADER x))) = none := by
  induction bs generalizing a with
  | nil => simp [frees]
  | cons b l ih =>
    have hs2 := (sizes_cons _ _).1 hsz
    simp only [total] at hlt
    have hrec := ih (a + b.1) hlay.2 hs2.2 (by omega) (fun c hc => hno c (List.mem_cons_of_mem _ hc))
    simp only [frees]
    split
    · exact hrec
    · rename_i hb
      have hgs : GET_SIZE m a = b.1 := get_size_hdr _ _ _ hlay.1 hs2.1.2 (by omega)
      have hlt2 := hno b (List.mem_cons_self _ _) (by simpa using hb)
      have hgh : GET_HEADER (a + 8) = a := by simp [GET_HEADER, HEADER_SIZE]
      rw [List.find?_cons_of_neg _ (by rw [hgh, hgs]; simp; omega)]
      exact hrec

theorem find_fit_some (m : Nat → Nat) (l1 l2 : List (Nat × Bool)) (S a need : Nat)
    (hlay : Layout m a (l1 ++ (S, false) :: l2)) (hsz : Sizes (l1 ++ (S, false) :: l2))
    (hlt : a + total (l1 ++ (S, false) :: l2) < WORD) (hS : need ≤ S)
    (hno : ∀ b ∈ l1, b.2 = false → b.1 < need) :
    (frees a (l1 ++ (S, false) :: l2)).find?
      (fun x => decide (need ≤ GET_SIZE m (GET_HEADER x))) = some (a + total l1 + 8) := by
  induction l1 generalizing a with
  | nil =>
    have hs2 := (sizes_cons _ _).1 hsz
    simp only [List.nil_append, total] at hlt hlay ⊢
    have hgs : GET_SIZE m a = S := get_size_hdr _ _ _ hlay.1 hs2.1.2 (by simp only; omega)
    have hgh : GET_HEADER (a + 8) = a := by simp [GET_HEADER, HEADER_SIZE]
    simp only [frees, Bool.false_eq_true, if_false, Nat.add_zero]
    rw [List.find?_cons_of_pos _ (by rw [hgh, hgs]; simpa using hS)]
  | cons b l ih =>
    have hs2 := (sizes_cons _ _).1 hsz
    have hlt1 : a + (b.1 + total (l ++ (S, false) :: l2)) < WORD := hlt
    have hlay1 : m a = hdr_word b ∧ Layout m (a + b.1) (l ++ (S, false) :: l2) := hlay
    have hrec := ih (a + b.1) hlay1.2 hs2.2 (by omega)
      (fun c hc => hno c (List.mem_cons_of_mem _ hc))
    have e : a + total (b :: l) + 8 = a + b.1 + total l + 8 := by
      simp only [total]
      omega
    rw [e]
    show (frees a (b :: (l ++ (S, false) :: l2))).find? _ = _
    simp only [frees]
    split
    · exact hrec
    · rename_i hb
      have hgs : GET_SIZE m a = b.1 := get_size_hdr _ _ _ hlay1.1 hs2.1.2 (by omega)
      have hlt2 := hno b (List.mem_cons_self _ _) (by simpa using hb)
      have hgh : GET_HEADER (a + 8) = a := by simp [GET_HEADER, HEADER_SIZE]
      rw [List.find?_cons_of_neg _ (by rw [hgh, hgs]; simp; omega)]
      exact hrec

theorem find_free_block_inv (s : Heap) (live : List Nat) (bs : List (Nat × Bool))
    (hinv : Inv s live bs) (need fuel : Nat) (hf : s.segment_size ≤ fuel) :
    find_free_block fuel s need =
      some (((frees s.segment_start bs).find?
        (fun x => decide (need ≤ GET_SIZE s.mem (GET_HEADER x)))).getD 0) := by
  unfold find_free_block
  refine find_free_block_loop_spec s need _ _ fuel hinv.seg
    (fun x hx => frees_nonzero _ _ _ hx) ?_
  have h1 := frees_length_le _ s.segment_start hinv.sizes
  have ht := hinv.htotal
  have := hinv.hpos
  omega

theorem total_allocated (l1 l2 : List (Nat × Bool)) (S need : Nat) (h : need ≤ S) :
    total (allocated l1 S need l2) = total (l1 ++ (S, false) :: l2) := by
  unfold allocated
  split
  · rw [total_coalesced]
    simp only [total_append, total]
    omega
  · simp [total_append, total]

theorem sizes_allocated (l1 l2 : List (Nat × Bool)) (S need : Nat)
    (hsz : Sizes (l1 ++ (S, false) :: l2)) (h24 : 24 ≤ need) (h8 : need % 8 = 0)
    (h : need ≤ S) : Sizes (allocated l1 S need l2) := by
  unfold allocated
  split
  · rename_i hsplit
    have hsplit2 : S - need > 24 := hsplit
    apply sizes_coalesced
    rw [sizes_append, sizes_cons] at hsz
    rw [sizes_append, sizes_append, sizes_cons, sizes_cons]
    have := hsz.2.1.2
    refine ⟨⟨hsz.1, ⟨h24, h8⟩, by simp [Sizes]⟩, ⟨?_, ?_⟩, hsz.2.2⟩
    · simp only
      omega
    · simp only at this ⊢
      omega
  · exact sizes_flip _ _ _ _ _ hsz

theorem useds_allocated (l1 l2 : List (Nat × Bool)) (S need a : Nat) (h : need ≤ S) :
    useds a (allocated l1 S need l2) =
      useds a l1 ++ (a + total l1 + 8) :: useds (a + total l1 + S) l2 := by
  unfold allocated
  split
  · rw [useds_coalesced, useds_append]
    have e : a + total (l1 ++ [(need, true)]) + (S - need) = a + total l1 + S := by
      simp only [total_append, total]
      omega
    rw [e]
    simp [useds]
  · exact useds_split_used _ _ _ _

/-- Both up-front checks of `mymalloc` return `NULL` without touching the state. -/
theorem mymalloc_reject (fuel M : Nat) (s : Heap) (n : Nat)
    (h : n > M ∨ (size_needed_for n + s.size_used) % WORD > s.segment_size) :
    mymalloc fuel M s n = some (s, 0) := by
  unfold mymalloc
  by_cases h1 : n > M
  · rw [if_pos h1]
  · rw [if_neg h1]
    have h2 : (size_needed_for n + s.size_used) % WORD > s.segment_size := by
      rcases h with h | h
      · exact absurd h h1
      · exact h
    simp only
    rw [if_pos h2]

/-- When no free block is large enough, `mymalloc` returns `NULL` and the state is
unchanged. -/
theorem mymalloc_nofit (fuel M : Nat) (s : Heap) (live : List Nat) (bs : List (Nat × Bool))
    (n : Nat) (hinv : Inv s live bs) (hf : s.segment_size ≤ fuel)
    (hno : ∀ b ∈ bs, b.2 = false → b.1 < size_needed_for n) :
    mymalloc fuel M s n = some (s, 0) := by
  unfold mymalloc
  by_cases h1 : n > M
  · rw [if_pos h1]
  · rw [if_neg h1]
    simp only
    by_cases h2 : (size_needed_for n + s.size_used) % WORD > s.segment_size
    · rw [if_pos h2]
    · rw [if_neg h2, find_free_block_inv s live bs hinv _ fuel hf,
        find_fit_none _ _ _ _ hinv.layout hinv.sizes (by rw [hinv.htotal]; exact hinv.hlt) hno]
      simp

/-- A request that passes the up-front checks is served from the first free block that is
large enough. -/
theorem mymalloc_fit (fuel M : Nat) (s : Heap) (live : List Nat) (l1 l2 : List (Nat × Bool))
    (S n : Nat) (hinv : Inv s live (l1 ++ (S, false) :: l2)) (hf : s.segment_size ≤ fuel)
    (hM : n ≤ M) (hcap : (size_needed_for n + s.size_used) % WORD ≤ s.segment_size)
    (hS : size_needed_for n ≤ S) (hno : ∀ b ∈ l1, b.2 = false → b.1 < size_needed_for n) :
    ∃ h1 m1,
      mymalloc fuel M s n =
        some ({ s with size_used := (s.size_used + size_needed_for n) % WORD,
                       head_of_free_list := h1, mem := m1 },
              s.segment_start + total l1 + 8) ∧
      Inv { s with size_used := (s.size_used + size_needed_for n) % WORD,
                   head_of_free_list := h1, mem := m1 }
        ((s.segment_start + total l1 + 8) :: live) (allocated l1 S (size_needed_for n) l2) ∧
      ∀ w, (w < s.segment_start + total l1 ∨ s.segment_start + total l1 + S ≤ w) →
        (∀ x ∈ frees s.segment_start (l1 ++ (S, false) :: l2), w ≠ x ∧ w ≠ x + 8) →
        m1 w = s.mem w := by
  have hnf := size_needed_facts n
  obtain ⟨h1, m1, hrun, hlay, hseg, hback, hfr⟩ :=
    allocate_segment_spec s live l1 l2 S (size_needed_for n) fuel hinv hnf.1 hnf.2.1 hS hf
  have hfind := find_fit_some s.mem l1 l2 S s.segment_start (size_needed_for n) hinv.layout
    hinv.sizes (by rw [hinv.htotal]; exact hinv.hlt) hS hno
  refine ⟨h1, m1, ?_, ?_, hfr⟩
  · unfold mymalloc
    rw [if_neg (by omega)]
    simp only
    rw [if_neg (by omega), find_free_block_inv s live _ hinv _ fuel hf, hfind]
    simp only [Option.getD_some, Option.some_bind]
    rw [if_pos (by omega), hrun]
    rfl
  · have hnot := payload_not_in_rest l1 l2 S s.segment_start false hinv.sizes
    rw [← useds_split_free] at hnot
    refine ⟨hinv.hend, hinv.hlt, sizes_allocated _ _ _ _ hinv.sizes hnf.1 hnf.2.1 hS, hlay, ?_,
      hseg, hback, ?_, ?_, ?_, hinv.hpos⟩
    · rw [total_allocated _ _ _ _ hS]
      exact hinv.htotal
    · intro q
      rw [useds_allocated _ _ _ _ _ hS, List.mem_cons, hinv.hlive q, useds_split_free]
      simp only [List.mem_append, List.mem_cons]
      constructor
      · rintro (h | h | h)
        · exact Or.inr (Or.inl h)
        · exact Or.inl h
        · exact Or.inr (Or.inr h)
      · rintro (h | h | h)
        · exact Or.inr (Or.inl h)
        · exact Or.inl h
        · exact Or.inr (Or.inr h)
    · rw [List.nodup_cons]
      refine ⟨fun hm => hnot ((hinv.hlive _).1 hm), hinv.hnodup⟩
    · show (s.size_used + size_needed_for n) % WORD ≤ s.segment_size
      rw [Nat.add_comm]
      exact hcap

/-- The block handed out by `allocate_segment` starts where the chosen free block started
and records either exactly the requested size or the whole size of the chosen block. -/
theorem allocated_split (l1 l2 : List (Nat × Bool)) (S need : Nat) :
    ∃ Sq k2, allocated l1 S need l2 = l1 ++ (Sq, true) :: k2 ∧
      ((S - need > 24 ∧ Sq = need) ∨ (¬ S - need > 24 ∧ Sq = S ∧ k2 = l2)) := by
  unfold allocated
  by_cases h : S - need > SIZEOF_NODE + HEADER_SIZE
  · rw [if_pos h]
    match l2 with
    | [] => exact ⟨need, [(S - need, false)], by simp [coalesced], Or.inl ⟨h, rfl⟩⟩
    | (T, true) :: l3 =>
      exact ⟨need, (S - need, false) :: (T, true) :: l3, by simp [coalesced], Or.inl ⟨h, rfl⟩⟩
    | (T, false) :: l3 =>
      exact ⟨need, (S - need + T, false) :: l3, by simp [coalesced], Or.inl ⟨h, rfl⟩⟩
  · rw [if_neg h]
    exact ⟨S, l2, rfl, Or.inr ⟨h, rfl, rfl⟩⟩

/-- No header and no free-list link lies strictly inside an allocated block. -/
theorem payload_clear (k1 k2 : List (Nat × Bool)) (Sq a w : Nat)
    (hsz : Sizes (k1 ++ (Sq, true) :: k2))
    (hw : a + total k1 < w ∧ w < a + total k1 + Sq) :
    w ∉ hdrs a (k1 ++ (Sq, true) :: k2) ∧
      ∀ x ∈ frees a (k1 ++ (Sq, true) :: k2), w ≠ x ∧ w ≠ x + 8 := by
  constructor
  · intro hm
    rw [hdrs_split] at hm
    simp only [List.mem_append, List.mem_cons] at hm
    rcases hm with h | h | h
    · have := hdrs_outside k1 k2 Sq true a w hsz (List.mem_append_left _ h)
      omega
    · omega
    · have := hdrs_outside k1 k2 Sq true a w hsz (List.mem_append_right _ h)
      omega
  · intro x hx
    rw [frees_split_used] at hx
    exact fields_outside k1 k2 Sq true a w x hsz hx ⟨by omega, hw.2⟩

theorem memcpy_outside (m : Nat → Nat) (dst src n w : Nat) (h : w < dst ∨ dst + n ≤ w) :
    memcpy m dst src n w = m w := by
  unfold memcpy
  rw [if_neg (by omega)]

theorem mymalloc_inv (fuel M : Nat) (s : Heap) (live : List Nat) (bs : List (Nat × Bool))
    (n : Nat) (hinv : Inv s live bs) (hf : s.segment_size ≤ fuel) :
    ∃ s1 q bs1, mymalloc fuel M s n = some (s1, q) ∧
      Inv s1 (if q = 0 then live else q :: live) bs1 ∧
      s1.segment_start = s.segment_start ∧ s1.segment_size = s.segment_size ∧
      (q ≠ 0 → ∃ k1 Sq k2, bs1 = k1 ++ (Sq, true) :: k2 ∧
        q = s1.segment_start + total k1 + 8 ∧ size_needed_for n ≤ Sq) := by
  by_cases hrej : n > M ∨ (size_needed_for n + s.size_used) % WORD > s.segment_size
  · exact ⟨s, 0, bs, mymalloc_reject fuel M s n hrej, by simpa using hinv, rfl, rfl,
      fun h => absurd rfl h⟩
  · rcases first_fit_split bs (size_needed_for n) with hno | ⟨l1, S, l2, rfl, hS, hno⟩
    · exact ⟨s, 0, bs, mymalloc_nofit fuel M s live bs n hinv hf hno, by simpa using hinv,
        rfl, rfl, fun h => absurd rfl h⟩
    · obtain ⟨h1, m1, hrun, hinv1, -⟩ :=
        mymalloc_fit fuel M s live l1 l2 S n hinv hf (by omega) (by omega) hS hno
      obtain ⟨Sq, k2, hk, hSq⟩ := allocated_split l1 l2 S (size_needed_for n)
      refine ⟨_, _, allocated l1 S (size_needed_for n) l2, hrun, ?_, rfl, rfl, ?_⟩
      · rw [if_neg (by omega)]
        exact hinv1
      · intro _
        refine ⟨l1, Sq, k2, hk, rfl, ?_⟩
        rcases hSq with h | h
        · omega
        · omega

theorem myfree_inv (fuel : Nat) (s : Heap) (live : List Nat) (bs : List (Nat × Bool))
    (p : Nat) (hinv : Inv s live bs) (hp : p ∈ live) (hf : s.segment_size ≤ fuel) :
    ∃ s1 bs1, myfree fuel s p = some s1 ∧ Inv s1 (live.erase p) bs1 ∧
      s1.segment_start = s.segment_start ∧ s1.segment_size = s.segment_size ∧
      s1.size_used = s.size_used := by
  obtain ⟨l1, S, l2, rfl, rfl⟩ := mem_useds_split _ _ _ ((hinv.hlive p).1 hp)
  obtain ⟨h1, m1, hrun, hinv1, -⟩ := myfree_spec s live l1 l2 S fuel hinv hf
  exact ⟨_, _, hrun, hinv1, rfl, rfl, rfl⟩

/-- The body of `myrealloc` once the up-front checks have passed and the inner `mymalloc`
has returned. -/
theorem myrealloc_unfold (fuel M : Nat) (s s1 : Heap) (p n q : Nat) (hnM : ¬ n > M)
    (hcap : ¬ (size_needed_for n + s.size_used) % WORD > s.segment_size)
    (hmal : mymalloc fuel M s n = some (s1, q)) :
    myrealloc fuel M s p n =
      if q ≠ 0 then
        (myfree fuel { s1 with mem := memcpy s1.mem q p (roundup n ALIGNMENT) } p).map
          fun s3 => (s3, q)
      else some (s1, q) := by
  unfold myrealloc
  rw [if_neg hnM]
  simp only
  rw [if_neg hcap, hmal]
  rfl

theorem myrealloc_inv (fuel M : Nat) (s : Heap) (live : List Nat) (bs : List (Nat × Bool))
    (p n : Nat) (hinv : Inv s live bs) (hp : p ∈ live) (hM : M + 16 ≤ WORD)
    (hf : s.segment_size ≤ fuel) :
    ∃ s1 q bs1, myrealloc fuel M s p n = some (s1, q) ∧
      Inv s1 (if q = 0 then live else q :: live.erase p) bs1 ∧
      s1.segment_start = s.segment_start ∧ s1.segment_size = s.segment_size := by
  by_cases hrej : n > M ∨ (size_needed_for n + s.size_used) % WORD > s.segment_size
  · refine ⟨s, 0, bs, ?_, by simpa using hinv, rfl, rfl⟩
    unfold myrealloc
    by_cases h1 : n > M
    · rw [if_pos h1]
    · rw [if_neg h1]
      simp only
      rw [if_pos (by tauto)]
  · have hnM : ¬ n > M := fun h => hrej (Or.inl h)
    have hcap : ¬ (size_needed_for n + s.size_used) % WORD > s.segment_size :=
      fun h => hrej (Or.inr h)
    obtain ⟨s1, q, bs1, hrun, hinv1, hst1, hsi1, hblk⟩ := mymalloc_inv fuel M s live bs n hinv hf
    rw [myrealloc_unfold fuel M s s1 p n q hnM hcap hrun]
    by_cases hq : q = 0
    · rw [if_neg (by simpa using hq)]
      exact ⟨s1, q, bs1, rfl, by simpa [hq] using hinv1, hst1, hsi1⟩
    · rw [if_pos hq]
      rw [if_neg hq] at hinv1
      obtain ⟨k1, Sq, k2, rfl, hqe, hSq⟩ := hblk hq
      have hge := size_needed_ge n (by omega)
      -- the copy only writes inside the payload of the new block
      have hclear : ∀ w, memcpy s1.mem q p (roundup n ALIGNMENT) w ≠ s1.mem w →
          s1.segment_start + total k1 < w ∧ w < s1.segment_start + total k1 + Sq := by
        intro w hw
        by_contra hc
        apply hw
        apply memcpy_outside
        omega
      have hinv2 := inv_frame _ _ _ (memcpy s1.mem q p (roundup n ALIGNMENT)) hinv1
        (fun h hh => by
          by_contra hc
          exact (payload_clear k1 k2 Sq _ h hinv1.sizes (hclear h hc)).1 hh)
        (fun x hx => by
          constructor
          · by_contra hc
            exact ((payload_clear k1 k2 Sq _ x hinv1.sizes (hclear x hc)).2 x hx).1 rfl
          · by_contra hc
            exact ((payload_clear k1 k2 Sq _ (x + 8) hinv1.sizes (hclear _ hc)).2 x hx).2 rfl)
      have hp2 : p ∈ q :: live := List.mem_cons_of_mem _ hp
      obtain ⟨s3, bs3, hrun3, hinv3, hst, hsi, -⟩ :=
        myfree_inv fuel _ _ _ p hinv2 hp2 (by simpa [hsi1] using hf)
      rw [hrun3]
      refine ⟨s3, q, bs3, rfl, ?_, hst.trans hst1, hsi.trans hsi1⟩
      rw [if_neg hq]
      have hne : q ≠ p := by
        intro e
        have := (List.nodup_cons.1 hinv1.hnodup).1
        exact this (e ▸ hp)
      rw [List.erase_cons_tail (by simpa using hne)] at hinv3
      exact hinv3

/-- Every reachable state satisfies the representation invariant. -/
theorem reach_inv (M start size : Nat) (s : Heap) (live : List Nat)
    (h24 : 24 ≤ size) (h8 : size % 8 = 0) (hlt : start + size < WORD) (hM : M + 16 ≤ WORD)
    (hr : Reach M start size s live) :
    ∃ bs, Inv s live bs ∧ s.segment_start = start ∧ s.segment_size = size := by
  induction hr with
  | init fuel s0 s hrun =>
    obtain ⟨m1, hrun1, hinv1, -⟩ := myinit_spec s0 start size (max fuel 2) h24 h8 hlt
      (Nat.le_max_right _ _)
    have := myinit_mono _ _ _ _ _ _ hrun (Nat.le_max_left fuel 2)
    rw [hrun1] at this
    obtain ⟨rfl⟩ := Prod.mk.inj (Option.some.inj this) |>.1
    exact ⟨_, hinv1, rfl, rfl⟩
  | malloc fuel n s s1 live p _ hrun ih =>
    obtain ⟨bs, hinv, hst, hsi⟩ := ih
    obtain ⟨s2, q, bs2, hrun2, hinv2, hst2, hsi2, -⟩ :=
      mymalloc_inv (max fuel s.segment_size) M s live bs n hinv (Nat.le_max_right _ _)
    have := mymalloc_mono _ _ _ _ _ _ hrun (Nat.le_max_left fuel s.segment_size)
    rw [hrun2] at this
    obtain ⟨rfl, rfl⟩ := Prod.mk.inj (Option.some.inj this)
    exact ⟨bs2, hinv2, hst2.trans hst, hsi2.trans hsi⟩
  | free fuel s s1 live p _ hp hrun ih =>
    obtain ⟨bs, hinv, hst, hsi⟩ := ih
    obtain ⟨s2, bs2, hrun2, hinv2, hst2, hsi2, -⟩ :=
      myfree_inv (max fuel s.segment_size) s live bs p hinv hp (Nat.le_max_right _ _)
    have := myfree_mono _ _ _ _ _ hrun (Nat.le_max_left fuel s.segment_size)
    rw [hrun2] at this
    obtain rfl := Option.some.inj this
    exact ⟨bs2, hinv2, hst2.trans hst, hsi2.trans hsi⟩
  | realloc fuel n s s1 live p q _ hp hrun ih =>
    obtain ⟨bs, hinv, hst, hsi⟩ := ih
    obtain ⟨s2, q2, bs2, hrun2, hinv2, hst2, hsi2⟩ :=
      myrealloc_inv (max fuel s.segment_size) M s live bs p n hinv hp hM (Nat.le_max_right _ _)
    have := myrealloc_mono _ _ _ _ _ _ _ hrun (Nat.le_max_left fuel s.segment_size)
    rw [hrun2] at this
    obtain ⟨rfl, rfl⟩ := Prod.mk.inj (Option.some.inj this)
    exact ⟨bs2, hinv2, hst2.trans hst, hsi2.trans hsi⟩

/-! ## From the invariant to the two walks -/

theorem hdr_lookup (m : Nat → Nat) (bs : List (Nat × Bool)) (a h : Nat)
    (hlay : Layout m a bs) (hsz : Sizes bs) (hlt : a + total bs < WORD)
    (hh : h ∈ hdrs a bs) :
    ∃ b ∈ bs, GET_SIZE m h = b.1 ∧ IS_FREE m h = !b.2 := by
  induction bs generalizing a with
  | nil => simp [hdrs] at hh
  | cons b l ih =>
    have hs2 := (sizes_cons _ _).1 hsz
    simp only [total] at hlt
    simp only [hdrs, List.mem_cons] at hh
    rcases hh with rfl | hh
    · exact ⟨b, List.mem_cons_self _ _, get_size_hdr _ _ _ hlay.1 hs2.1.2 (by omega),
        is_free_hdr _ _ _ hlay.1 hs2.1.2⟩
    · obtain ⟨c, hc, h1, h2⟩ := ih (a + b.1) hlay.2 hs2.2 (by omega) hh
      exact ⟨c, List.mem_cons_of_mem _ hc, h1, h2⟩

theorem length_le_total (bs : List (Nat × Bool)) (hsz : Sizes bs) :
    24 * bs.length ≤ total bs := by
  induction bs with
  | nil => simp [total]
  | cons b l ih =>
    have hs2 := (sizes_cons _ _).1 hsz
    have := ih hs2.2
    simp only [total, List.length_cons]
    omega

theorem walk_blocks_spec (m : Nat → Nat) (bs : List (Nat × Bool)) (a fuel : Nat)
    (hlay : Layout m a bs) (hsz : Sizes bs) (hlt : a + total bs < WORD)
    (hf : bs.length ≤ fuel) :
    walk_blocks m (a + total bs) fuel a = some (hdrs a bs) := by
  induction bs generalizing a fuel with
  | nil =>
    cases fuel <;> simp [walk_blocks, total, hdrs]
  | cons b l ih =>
    have hs2 := (sizes_cons _ _).1 hsz
    simp only [total] at hlt ⊢
    obtain ⟨f, rfl⟩ : ∃ f, fuel = f + 1 := ⟨fuel - 1, by simp at hf; omega⟩
    have hgs : GET_SIZE m a = b.1 := get_size_hdr _ _ _ hlay.1 hs2.1.2 (by omega)
    have h1 : a ≠ a + (b.1 + total l) := by omega
    have h2 : ¬ (a + (b.1 + total l) < a) := by omega
    have hrec := ih (a + b.1) f hlay.2 hs2.2 (by omega) (by simpa using hf)
    rw [Nat.add_assoc] at hrec
    simp only [walk_blocks, h1, h2, if_false, hgs, hrec, Option.map_some', hdrs]

theorem walk_free_spec (m : Nat → Nat) (L : List Nat) (h fuel : Nat)
    (hs : Seg m h L 0) (hnz : ∀ x ∈ L, x ≠ 0) (hf : L.length ≤ fuel) :
    walk_free m fuel h = some L := by
  induction L generalizing h fuel with
  | nil =>
    have : h = 0 := hs
    cases fuel <;> simp [walk_free, this]
  | cons x xs ih =>
    obtain ⟨f, rfl⟩ : ∃ f, fuel = f + 1 := ⟨fuel - 1, by simp at hf; omega⟩
    obtain ⟨rfl, hs2⟩ := hs
    have hx : h ≠ 0 := hnz h (List.mem_cons_self _ _)
    have hrec := ih _ f hs2 (fun y hy => hnz y (List.mem_cons_of_mem _ hy)) (by simpa using hf)
    simp only [walk_free, hx, if_false, hrec, Option.map_some']

theorem frees_eq_filter (m : Nat → Nat) (bs : List (Nat × Bool)) (a : Nat)
    (hlay : Layout m a bs) (hsz : Sizes bs) :
    frees a bs = ((hdrs a bs).filter (fun h => IS_FREE m h)).map (fun h => h + 8) := by
  induction bs generalizing a with
  | nil => simp [frees, hdrs]
  | cons b l ih =>
    have hs2 := (sizes_cons _ _).1 hsz
    have hfree := is_free_hdr _ _ _ hlay.1 hs2.1.2
    have hrec := ih (a + b.1) hlay.2 hs2.2
    simp only [frees, hdrs]
    cases hb : b.2
    · rw [hb] at hfree
      simp only [Bool.not_false] at hfree
      rw [List.filter_cons_of_pos hfree]
      simp [hrec]
    · rw [hb] at hfree
      simp only [Bool.not_true] at hfree
      rw [List.filter_cons_of_neg (by simp [hfree])]
      simp [hrec]

/-- The two walks of a state that satisfies the invariant. -/
theorem inv_walks (s : Heap) (live : List Nat) (bs : List (Nat × Bool)) (hinv : Inv s live bs) :
    walk_blocks s.mem s.segment_end s.segment_size s.segment_start =
        some (hdrs s.segment_start bs) ∧
    walk_free s.mem s.segment_size s.head_of_free_list = some (frees s.segment_start bs) := by
  have hl := length_le_total bs hinv.sizes
  have hfl := frees_length_le bs s.segment_start hinv.sizes
  have ht := hinv.htotal
  constructor
  · have := walk_blocks_spec s.mem bs s.segment_start s.segment_size hinv.layout hinv.sizes
      (by rw [ht]; exact hinv.hlt) (by omega)
    rw [ht, ← hinv.hend] at this
    exact this
  · exact walk_free_spec s.mem _ _ _ hinv.seg (fun x hx => frees_nonzero _ _ _ hx) (by omega)

theorem fresh_init (M : Nat) : Reach M 4096 1024 (fresh 1024) [] :=
  Reach.init 2 heap0 (fresh 1024) rfl

theorem reach_fresh (size : Nat) (h : myinit 2 heap0 4096 size = some (fresh size, true)) :
    Reach MAX_REQ 4096 size (fresh size) [] :=
  Reach.init 2 heap0 (fresh size) h

theorem reach_two_allocs : Reach MAX_REQ 4096 128 two_allocs [4128, 4104] :=
  Reach.malloc 64 16 (after_malloc (fresh 128) 16) two_allocs [4104] 4128
    (Reach.malloc 64 16 (fresh 128) (after_malloc (fresh 128) 16) [] 4104
      (reach_fresh 128 rfl) rfl) rfl

theorem reach_first_released : Reach MAX_REQ 4096 128 first_released [4128] :=
  Reach.free 64 two_allocs first_released [4128, 4104] 4104 reach_two_allocs (by decide) rfl

/-- C1: after `myinit` on a segment whose size is a multiple of 8 and at least 24, and after
any sequence of `mymalloc` / `myfree` / `myrealloc` calls on live allocations, walking the
block headers from the segment start by the stored sizes visits only headers whose size is
at least 24 and a multiple of 8, and ends exactly at segment start + heap size.  Every
further call on such a state returns once the fuel covers the segment size. -/
theorem tiling_invariant (M start size : Nat) (s : Heap) (live : List Nat)
    (h24 : 24 ≤ size) (h8 : size % 8 = 0) (hlt : start + size < WORD) (hM : M + 16 ≤ WORD)
    (hr : Reach M start size s live) :
    s.segment_start = start ∧ s.segment_end = start + size ∧
    (∃ hs, walk_blocks s.mem s.segment_end s.segment_size s.segment_start = some hs ∧
      ∀ h ∈ hs, 24 ≤ GET_SIZE s.mem h ∧ GET_SIZE s.mem h % 8 = 0) ∧
    ∀ fuel, s.segment_size ≤ fuel →
      (∀ n, ∃ r, mymalloc fuel M s n = some r) ∧
      ∀ p ∈ live, (∃ r, myfree fuel s p = some r) ∧ ∀ n, ∃ r, myrealloc fuel M s p n = some r := by
  obtain ⟨bs, hinv, hst, hsi⟩ := reach_inv M start size s live h24 h8 hlt hM hr
  refine ⟨hst, by rw [hinv.hend, hst, hsi],
    ⟨hdrs s.segment_start bs, (inv_walks s live bs hinv).1, ?_⟩, ?_⟩
  · intro h hh
    obtain ⟨b, hb, h1, -⟩ := hdr_lookup s.mem bs _ h hinv.layout hinv.sizes
      (by rw [hinv.htotal]; exact hinv.hlt) hh
    rw [h1]
    exact hinv.sizes b hb
  · intro fuel hf
    refine ⟨fun n => ?_, fun p hp => ⟨?_, fun n => ?_⟩⟩
    · obtain ⟨s1, q, -, hrun, -⟩ := mymalloc_inv fuel M s live bs n hinv hf
      exact ⟨_, hrun⟩
    · obtain ⟨s1, -, hrun, -⟩ := myfree_inv fuel s live bs p hinv hp hf
      exact ⟨_, hrun⟩
    · obtain ⟨s1, q, -, hrun, -⟩ := myrealloc_inv fuel M s live bs p n hinv hp hM hf
      exact ⟨_, hrun⟩

theorem tiling_invariant_witness :
    (24 ≤ 128 ∧ 128 % 8 = 0 ∧ 4096 + 128 < WORD ∧ MAX_REQ + 16 ≤ WORD) ∧
    two_allocs.segment_start = 4096 ∧ two_allocs.segment_end = 4096 + 128 ∧
    (∃ hs, walk_blocks two_allocs.mem two_allocs.segment_end two_allocs.segment_size
        two_allocs.segment_start = some hs ∧
      ∀ h ∈ hs, 24 ≤ GET_SIZE two_allocs.mem h ∧ GET_SIZE two_allocs.mem h % 8 = 0) ∧
    ∀ fuel, two_allocs.segment_size ≤ fuel →
      (∀ n, ∃ r, mymalloc fuel MAX_REQ two_allocs n = some r) ∧
      ∀ p ∈ [4128, 4104], (∃ r, myfree fuel two_allocs p = some r) ∧
        ∀ n, ∃ r, myrealloc fuel MAX_REQ two_allocs p n = some r :=
  ⟨by decide, tiling_invariant MAX_REQ 4096 128 two_allocs [4128, 4104] (by decide) (by decide)
    (by decide) (by decide) reach_two_allocs⟩

/-- C2: in every reachable state the nodes reached from `head_of_free_list` through `next`
links are exactly the payload addresses of the blocks whose header has the allocated bit
clear, listed in strictly ascending address order without repeats, and each node after the
first has its `prev` field pointing at the node before it. -/
theorem free_list_invariant (M start size : Nat) (s : Heap) (live : List Nat)
    (h24 : 24 ≤ size) (h8 : size % 8 = 0) (hlt : start + size < WORD) (hM : M + 16 ≤ WORD)
    (hr : Reach M start size s live) :
    ∃ hs L, walk_blocks s.mem s.segment_end s.segment_size s.segment_start = some hs ∧
      walk_free s.mem s.segment_size s.head_of_free_list = some L ∧
      L = ((hs.filter (fun h => IS_FREE s.mem h)).map (fun h => h + HEADER_SIZE)) ∧
      L.Pairwise (fun a b => a < b) ∧ L.Nodup ∧
      List.Chain' (fun a b => get_prev_free s b = a) L := by
  obtain ⟨bs, hinv, -, -⟩ := reach_inv M start size s live h24 h8 hlt hM hr
  have hw := inv_walks s live bs hinv
  have hsp := frees_spaced bs s.segment_start hinv.sizes
  have hasc : (frees s.segment_start bs).Pairwise (fun a b => a < b) :=
    hsp.imp (fun h => by omega)
  refine ⟨_, _, hw.1, hw.2, frees_eq_filter s.mem bs _ hinv.layout hinv.sizes, hasc, ?_,
    hinv.back⟩
  exact hasc.imp (fun h => by omega)

theorem size_needed_formula (n : Nat) (h : n + 16 ≤ WORD) :
    size_needed_for n = max (roundup n ALIGNMENT + HEADER_SIZE) MIN_PAYLOAD_SIZE := by
  have h1 := roundup_small n (by omega)
  unfold size_needed_for HEADER_SIZE MIN_PAYLOAD_SIZE
  unfold WORD at *
  simp only
  rw [Nat.mod_eq_of_lt (by omega)]
  split <;> omega

/-- C3: in a reachable state, a request that passes both up-front checks of `mymalloc` is
answered with the payload address of the lowest-address free block whose header size is at
least `size_needed`, and with `NULL` exactly when no free block is that large. -/
theorem first_fit (M start size : Nat) (s : Heap) (live : List Nat) (n fuel : Nat)
    (h24 : 24 ≤ size) (h8 : size % 8 = 0) (hlt : start + size < WORD) (hM : M + 16 ≤ WORD)
    (hr : Reach M start size s live) (hn : n ≤ M)
    (hcap : (size_needed_for n + s.size_used) % WORD ≤ s.segment_size)
    (hf : s.segment_size ≤ fuel) :
    size_needed_for n = max (roundup n ALIGNMENT + HEADER_SIZE) MIN_PAYLOAD_SIZE ∧
    ∃ s1 p hs, mymalloc fuel M s n = some (s1, p) ∧
      walk_blocks s.mem s.segment_end s.segment_size s.segment_start = some hs ∧
      (p = 0 ↔ ∀ h ∈ hs, IS_FREE s.mem h = true → GET_SIZE s.mem h < size_needed_for n) ∧
      (p ≠ 0 → GET_HEADER p ∈ hs ∧ p = GET_HEADER p + HEADER_SIZE ∧
        IS_FREE s.mem (GET_HEADER p) = true ∧
        size_needed_for n ≤ GET_SIZE s.mem (GET_HEADER p) ∧
        ∀ h ∈ hs, IS_FREE s.mem h = true → size_needed_for n ≤ GET_SIZE s.mem h →
          GET_HEADER p ≤ h) := by
  refine ⟨size_needed_formula n (by omega), ?_⟩
  obtain ⟨bs, hinv, -, -⟩ := reach_inv M start size s live h24 h8 hlt hM hr
  have hw := (inv_walks s live bs hinv).1
  have hltb : s.segment_start + total bs < WORD := by rw [hinv.htotal]; exact hinv.hlt
  rcases first_fit_split bs (size_needed_for n) with hno | ⟨l1, S, l2, rfl, hS, hno⟩
  · refine ⟨s, 0, _, mymalloc_nofit fuel M s live bs n hinv hf hno, hw, ?_, fun h => absurd rfl h⟩
    refine ⟨fun _ h hh hfree => ?_, fun _ => rfl⟩
    obtain ⟨b, hb, h1, h2⟩ := hdr_lookup s.mem bs _ h hinv.layout hinv.sizes hltb hh
    rw [h1]
    rw [h2] at hfree
    exact hno b hb (by simpa using hfree)
  · obtain ⟨h1, m1, hrun, -, -⟩ :=
      mymalloc_fit fuel M s live l1 l2 S n hinv hf hn hcap hS hno
    have hgh : GET_HEADER (s.segment_start + total l1 + 8) = s.segment_start + total l1 := by
      simp [GET_HEADER, HEADER_SIZE]
    have hsz2 := (sizes_append _ _).1 hinv.sizes
    have hsz3 := (sizes_cons _ _).1 hsz2.2
    have hlay2 := (layout_append _ _ _ _).1 hinv.layout
    have hhdr : s.mem (s.segment_start + total l1) = hdr_word (S, false) := hlay2.2.1
    have hltS : S < WORD := by
      rw [total_append] at hltb
      simp only [total] at hltb
      omega
    have hgs : GET_SIZE s.mem (s.segment_start + total l1) = S :=
      get_size_hdr _ _ _ hhdr hsz3.1.2 hltS
    have hfr : IS_FREE s.mem (s.segment_start + total l1) = true := by
      rw [is_free_hdr _ _ _ hhdr hsz3.1.2]
      rfl
    have hin := hdr_mem_split l1 l2 (S, false) s.segment_start
    refine ⟨_, _, _, hrun, hw, ⟨fun h0 => by omega, fun hall => ?_⟩, fun _ => ?_⟩
    · have := hall _ hin hfr
      omega
    · rw [hgh]
      refine ⟨hin, by simp [HEADER_SIZE], hfr, by omega, ?_⟩
      intro h hh hfree hfit
      by_contra hc
      rw [hdrs_split] at hh
      simp only [List.mem_append, List.mem_cons] at hh
      rcases hh with hh | hh | hh
      · obtain ⟨b, hb, e1, e2⟩ := hdr_lookup s.mem l1 _ h hlay2.1 hsz2.1
          (by rw [total_append] at hltb; omega) hh
        rw [e2] at hfree
        have := hno b hb (by simpa using hfree)
        omega
      · omega
      · have := mem_hdrs_bounds _ _ _ hsz3.2 hh
        omega

/-! ## Globals that the list operations never write -/

theorem mycoalesce_fields (s : Heap) (b y : Nat) :
    (mycoalesce s b y).segment_start = s.segment_start ∧
    (mycoalesce s b y).segment_end = s.segment_end ∧
    (mycoalesce s b y).segment_size = s.segment_size ∧
    (mycoalesce s b y).size_used = s.size_used := by
  unfold mycoalesce
  simp only [set_prev_free, set_next_free]
  split_ifs <;> simp

theorem update_free_list_fields (s : Heap) (pv nx b : Nat) :
    (update_free_list s pv nx b).segment_start = s.segment_start ∧
    (update_free_list s pv nx b).segment_end = s.segment_end ∧
    (update_free_list s pv nx b).segment_size = s.segment_size ∧
    (update_free_list s pv nx b).size_used = s.size_used := by
  unfold update_free_list update_head insert_in_list
  simp only [set_prev_free, set_next_free]
  split_ifs <;> simp

theorem assign_free_block_fields (fuel : Nat) (s s1 : Heap) (b sz : Nat)
    (h : assign_free_block fuel s b sz = some s1) :
    s1.segment_start = s.segment_start ∧ s1.segment_end = s.segment_end ∧
    s1.segment_size = s.segment_size ∧ s1.size_used = s.size_used := by
  unfold assign_free_block at h
  cases hp : find_prev_in_free_list fuel s b with
  | none => simp [hp] at h
  | some pv =>
    rw [hp, Option.some_bind] at h
    cases hn : find_next_in_free_list fuel s pv b with
    | none => simp [hn] at h
    | some nx =>
      rw [hn, Option.some_bind] at h
      have hu := update_free_list_fields (set_next_free (set_prev_free s b pv) b nx) pv nx b
      simp only [set_prev_free, set_next_free] at hu
      by_cases hnx : nx ≠ 0
      · simp only [hnx, if_true, ne_eq, not_false_eq_true] at h
        have hc := mycoalesce_fields
          (update_free_list (set_next_free (set_prev_free s b pv) b nx) pv nx b) b nx
        rw [Option.some.inj h] at hc
        simp only [set_prev_free, set_next_free] at hc
        exact ⟨hc.1.trans hu.1, hc.2.1.trans hu.2.1, hc.2.2.1.trans hu.2.2.1,
          hc.2.2.2.trans hu.2.2.2⟩
      · simp only [hnx, if_false] at h
        rw [← Option.some.inj h]
        simp only [set_prev_free, set_next_free]
        exact hu

theorem myinit_fields (fuel : Nat) (s0 s : Heap) (start size : Nat) (b : Bool)
    (h : myinit fuel s0 start size = some (s, b)) :
    s.segment_start = start ∧ s.segment_end = start + size ∧ s.segment_size = size ∧
    s.size_used = 0 ∧ b = true := by
  unfold myinit free_segment at h
  simp only at h
  cases ha : assign_free_block fuel
      { segment_start := start, segment_end := start + size, segment_size := size,
        size_used := 0, head_of_free_list := 0,
        mem := ASSIGN s0.mem (GET_HEADER (start + HEADER_SIZE)) (SET_ALLOC size 0) }
      (start + HEADER_SIZE) size with
  | none => simp [ha] at h
  | some s2 =>
    rw [ha] at h
    simp only [Option.map_some', Option.some.injEq, Prod.mk.injEq] at h
    have := assign_free_block_fields _ _ _ _ _ ha
    rw [h.1] at this
    exact ⟨this.1, this.2.1, this.2.2.1, this.2.2.2, h.2.symm⟩

theorem myfree_fields (fuel : Nat) (s s1 : Heap) (p : Nat) (h : myfree fuel s p = some s1) :
    s1.segment_start = s.segment_start ∧ s1.segment_end = s.segment_end ∧
    s1.segment_size = s.segment_size ∧ s1.size_used = s.size_used := by
  unfold myfree at h
  simp only at h
  have := assign_free_block_fields _ _ _ _ _ h
  exact this

/-- C4: a request above `MAX_REQUEST_SIZE`, or one whose `size_needed` added to `size_used`
exceeds `segment_size`, makes `mymalloc` return `NULL` and leaves the whole state (and so
`size_used`, every header and every free-list link) as it was, in every state; a request of
2000 bytes right after `myinit` on a 1024-byte segment returns `NULL`. -/
theorem capacity_rejection :
    (∀ (fuel M : Nat) (s : Heap) (n : Nat),
      (n > M ∨ (size_needed_for n + s.size_used) % WORD > s.segment_size) →
      mymalloc fuel M s n = some (s, 0)) ∧
    (∀ (fuel M : Nat) (s : Heap) (n : Nat),
      size_needed_for n + s.size_used < WORD →
      size_needed_for n + s.size_used > s.segment_size →
      mymalloc fuel M s n = some (s, 0)) ∧
    (∀ (fuel fuel1 M start : Nat) (s0 s : Heap) (b : Bool),
      myinit fuel s0 start 1024 = some (s, b) → mymalloc fuel1 M s 2000 = some (s, 0)) := by
  refine ⟨fun fuel M s n h => mymalloc_reject fuel M s n h, ?_, ?_⟩
  · intro fuel M s n h1 h2
    apply mymalloc_reject
    right
    rw [Nat.mod_eq_of_lt h1]
    exact h2
  intro fuel fuel1 M start s0 s b h
  have hf := myinit_fields _ _ _ _ _ _ h
  apply mymalloc_reject
  right
  rw [hf.2.2.1, hf.2.2.2.1]
  decide

theorem capacity_rejection_witness :
    ((2000 > 1073741824 ∨
        (size_needed_for 2000 + (fresh 1024).size_used) % WORD > (fresh 1024).segment_size) ∧
      mymalloc 3 1073741824 (fresh 1024) 2000 = some (fresh 1024, 0)) ∧
    ((size_needed_for 2000 + (fresh 1024).size_used < WORD ∧
        size_needed_for 2000 + (fresh 1024).size_used > (fresh 1024).segment_size) ∧
      mymalloc 3 1073741824 (fresh 1024) 2000 = some (fresh 1024, 0)) ∧
    (myinit 2 heap0 4096 1024 = some (fresh 1024, true) ∧
      mymalloc 3 1073741824 (fresh 1024) 2000 = some (fresh 1024, 0)) :=
  ⟨⟨by decide, capacity_rejection.1 3 1073741824 (fresh 1024) 2000 (by decide)⟩,
    ⟨by decide, capacity_rejection.2.1 3 1073741824 (fresh 1024) 2000 (by decide) (by decide)⟩,
    ⟨rfl, capacity_rejection.2.2 2 3 1073741824 4096 heap0 (fresh 1024) true rfl⟩⟩

/-- C5: for a heap size that is a multiple of 8 and at least 24 and a request `n` within
`MAX_REQUEST_SIZE` whose `size_needed` fits in the heap, `myinit` returns `true` and the
`mymalloc(n)` that follows returns `heap + HEADER_SIZE`, which is not `NULL` and lies
strictly inside the segment. -/
theorem first_allocation (fuel M : Nat) (s0 : Heap) (start size n : Nat)
    (h24 : 24 ≤ size) (h8 : size % 8 = 0) (hlt : start + size < WORD) (hn : n ≤ M)
    (hfit : max (roundup n ALIGNMENT + HEADER_SIZE) MIN_PAYLOAD_SIZE ≤ size)
    (hf : size ≤ fuel) :
    ∃ s1 s2, myinit fuel s0 start size = some (s1, true) ∧
      mymalloc fuel M s1 n = some (s2, start + HEADER_SIZE) ∧
      start + HEADER_SIZE ≠ 0 ∧ start < start + HEADER_SIZE ∧
      start + HEADER_SIZE < start + size := by
  obtain ⟨m1, hrun, hinv, -⟩ := myinit_spec s0 start size fuel h24 h8 hlt (by omega)
  have hneed : size_needed_for n ≤ size := by
    have hr := roundup_facts n
    unfold size_needed_for
    unfold HEADER_SIZE MIN_PAYLOAD_SIZE WORD at *
    simp only
    rw [Nat.mod_eq_of_lt (by omega)]
    split <;> omega
  obtain ⟨h2, m2, hrun2, -, -⟩ := mymalloc_fit fuel M _ [] [] [] size n hinv hf hn
    (by
      show (size_needed_for n + 0) % WORD ≤ size
      have := size_needed_facts n
      rw [Nat.add_zero, Nat.mod_eq_of_lt this.2.2]
      exact hneed)
    hneed (by simp)
  refine ⟨_, _, hrun, hrun2, ?_, ?_, ?_⟩
  · simp [HEADER_SIZE]
  · simp [HEADER_SIZE]
  · simp only [HEADER_SIZE]
    omega

theorem first_allocation_witness :
    (24 ≤ 1024 ∧ 1024 % 8 = 0 ∧ 4096 + 1024 < WORD ∧ 16 ≤ 1073741824 ∧
      max (roundup 16 ALIGNMENT + HEADER_SIZE) MIN_PAYLOAD_SIZE ≤ 1024 ∧ 1024 ≤ 1024) ∧
    ∃ s1 s2, myinit 1024 heap0 4096 1024 = some (s1, true) ∧
      mymalloc 1024 1073741824 s1 16 = some (s2, 4096 + HEADER_SIZE) ∧
      4096 + HEADER_SIZE ≠ 0 ∧ 4096 < 4096 + HEADER_SIZE ∧
      4096 + HEADER_SIZE < 4096 + 1024 :=
  ⟨by decide, first_allocation 1024 1073741824 heap0 4096 1024 16 (by decide) (by decide)
    (by decide) (by decide) (by decide) (by decide)⟩

theorem allocated_nil (size need : Nat) (h : need ≤ size) :
    ∃ Sq k2, allocated [] size need [] = [] ++ (Sq, true) :: k2 ∧
      coalesced [] Sq k2 = [(size, false)] := by
  unfold allocated
  by_cases hs : size - need > SIZEOF_NODE + HEADER_SIZE
  · rw [if_pos hs]
    refine ⟨need, [(size - need, false)], by simp [coalesced], ?_⟩
    simp only [coalesced, List.nil_append]
    have : need + (size - need) = size := by omega
    rw [this]
  · rw [if_neg hs]
    exact ⟨size, [], rfl, by simp [coalesced]⟩

/-- The possible outcomes of `mymalloc` on a heap that consists of one free block. -/
theorem mymalloc_single (fuel M : Nat) (s : Heap) (live : List Nat) (n : Nat)
    (hinv : Inv s live [(s.segment_size, false)]) (hf : s.segment_size ≤ fuel) :
    mymalloc fuel M s n = some (s, 0) ∨
    (n ≤ M ∧ (size_needed_for n + s.size_used) % WORD ≤ s.segment_size ∧
      size_needed_for n ≤ s.segment_size ∧
      ∃ h1 m1,
        mymalloc fuel M s n =
          some ({ s with size_used := (s.size_used + size_needed_for n) % WORD,
                         head_of_free_list := h1, mem := m1 }, s.segment_start + 8) ∧
        Inv { s with size_used := (s.size_used + size_needed_for n) % WORD,
                     head_of_free_list := h1, mem := m1 }
          ((s.segment_start + 8) :: live)
          (allocated [] s.segment_size (size_needed_for n) [])) := by
  by_cases hrej : n > M ∨ (size_needed_for n + s.size_used) % WORD > s.segment_size
  · exact Or.inl (mymalloc_reject fuel M s n hrej)
  · by_cases hS : size_needed_for n ≤ s.segment_size
    · right
      obtain ⟨h1, m1, hrun, hinv1, -⟩ := mymalloc_fit fuel M s live [] [] s.segment_size n
        hinv hf (by omega) (by omega) hS (by simp)
      exact ⟨by omega, by omega, hS, h1, m1, hrun, hinv1⟩
    · left
      refine mymalloc_nofit fuel M s live _ n hinv hf ?_
      intro b hb _
      simp only [List.mem_singleton] at hb
      subst hb
      simp only
      omega

/-- C6: on a freshly initialised segment, when `p = mymalloc(n)` is not `NULL`, `myfree(p)`
returns and a second `mymalloc(n)` that is not `NULL` returns the same address `p`; for a
1024-byte heap and `n = 16` the second call returns `p`. -/
theorem reuse_after_free (fuel M : Nat) (s0 s1 s2 : Heap) (start size n p : Nat)
    (h24 : 24 ≤ size) (h8 : size % 8 = 0) (hlt : start + size < WORD) (hf : size ≤ fuel)
    (hinit : myinit fuel s0 start size = some (s1, true))
    (hm : mymalloc fuel M s1 n = some (s2, p)) (hp : p ≠ 0) :
    ∃ s3, myfree fuel s2 p = some s3 ∧
      (∀ s4 q, mymalloc fuel M s3 n = some (s4, q) → q ≠ 0 → q = p) ∧
      (size = 1024 → n = 16 → ∃ s4, mymalloc fuel M s3 n = some (s4, p)) := by
  obtain ⟨m1, hrun1, hinv1, -⟩ := myinit_spec s0 start size fuel h24 h8 hlt (by omega)
  rw [hrun1] at hinit
  obtain rfl := (Prod.mk.inj (Option.some.inj hinit)).1
  rcases mymalloc_single fuel M _ [] n hinv1 hf with hz | ⟨hnM, hcap, hS, h2, m2, hrun2, hinv2⟩
  · rw [hz] at hm
    exact absurd (Prod.mk.inj (Option.some.inj hm)).2.symm hp
  · rw [hrun2] at hm
    obtain ⟨rfl, rfl⟩ := Prod.mk.inj (Option.some.inj hm)
    simp only at hinv2 hS hcap
    obtain ⟨Sq, k2, hk, hco⟩ := allocated_nil size (size_needed_for n) hS
    rw [hk] at hinv2
    obtain ⟨h3, m3, hrun3, hinv3, -⟩ := myfree_spec _ _ [] k2 Sq fuel hinv2 hf
    simp only [total, Nat.add_zero] at hrun3 hinv3
    rw [hco] at hinv3
    have herase : [start + 8].erase (start + 8) = [] := by simp
    rw [herase] at hinv3
    refine ⟨_, hrun3, ?_, ?_⟩
    · intro s4 q hq hq0
      rcases mymalloc_single fuel M _ [] n hinv3 hf with hz | ⟨-, -, -, h4, m4, hrun4, -⟩
      · rw [hz] at hq
        exact absurd (Prod.mk.inj (Option.some.inj hq)).2.symm hq0
      · rw [hrun4] at hq
        exact (Prod.mk.inj (Option.some.inj hq)).2.symm
    · rintro rfl rfl
      have hneed : size_needed_for 16 = 24 := by decide
      obtain ⟨h4, m4, hrun4, -, -⟩ := mymalloc_fit fuel M _ [] [] [] 1024 16 hinv3 hf hnM
        (by
          show (size_needed_for 16 + (0 + size_needed_for 16) % WORD) % WORD ≤ 1024
          rw [hneed]
          decide)
        (by rw [hneed]; decide) (by simp)
      exact ⟨_, hrun4⟩

theorem reuse_after_free_witness :
    (24 ≤ 1024 ∧ 1024 % 8 = 0 ∧ 4096 + 1024 < WORD ∧ 1024 ≤ 1024 ∧
      myinit 1024 heap0 4096 1024 = some (fresh 1024, true) ∧
      mymalloc 1024 1073741824 (fresh 1024) 16 =
        some (((mymalloc 1024 1073741824 (fresh 1024) 16).getD stuck).1, 4104) ∧
      4104 ≠ 0) ∧
    ∃ s3, myfree 1024 ((mymalloc 1024 1073741824 (fresh 1024) 16).getD stuck).1 4104 =
        some s3 ∧
      (∀ s4 q, mymalloc 1024 1073741824 s3 16 = some (s4, q) → q ≠ 0 → q = 4104) ∧
      (1024 = 1024 → 16 = 16 → ∃ s4, mymalloc 1024 1073741824 s3 16 = some (s4, 4104)) :=
  ⟨⟨by decide, by decide, by decide, by decide, rfl, rfl, by decide⟩,
    reuse_after_free 1024 1073741824 heap0 (fresh 1024)
      ((mymalloc 1024 1073741824 (fresh 1024) 16).getD stuck).1 4096 1024 16 4104
      (by decide) (by decide) (by decide) (by decide) rfl rfl (by decide)⟩

/-- C7 (failing input): on a 48-byte heap `mymalloc(16)` picks the free block of size 48
with `size_needed = 24`; the remainder is exactly 24 = `HEADER_SIZE + sizeof(Node)`, yet the
header afterwards records 48, the block walk has one block and the free list is empty. -/
theorem split_remainder_24 :
    size_needed_for 16 = 24 ∧ GET_SIZE (fresh 48).mem 4096 = 48 ∧
    IS_FREE (fresh 48).mem 4096 = true ∧ 48 - 24 ≥ HEADER_SIZE + SIZEOF_NODE ∧
    mymalloc 64 MAX_REQ (fresh 48) 16 = some (after_malloc (fresh 48) 16, 4104) ∧
    GET_SIZE (after_malloc (fresh 48) 16).mem 4096 = 48 ∧
    GET_ALLOC (after_malloc (fresh 48) 16).mem 4096 = 1 ∧
    (after_malloc (fresh 48) 16).head_of_free_list = 0 ∧
    walk_blocks (after_malloc (fresh 48) 16).mem 4144 48 4096 = some [4096] := by
  refine ⟨by decide, by decide, by decide, by decide, rfl, by decide, by decide, by decide,
    by decide⟩

/-- C8 (failing input): after `myinit` on a 24-byte heap, `p = mymalloc(16)` takes the whole
heap and sets `size_used` to 24; `myfree(p)` leaves `size_used` at 24 although the block
header records 24, so the same request is then rejected while the whole heap is free. -/
theorem release_keeps_size_used :
    mymalloc 64 MAX_REQ (fresh 24) 16 = some (after_malloc (fresh 24) 16, 4104) ∧
    GET_SIZE (after_malloc (fresh 24) 16).mem (GET_HEADER 4104) = 24 ∧
    (after_malloc (fresh 24) 16).size_used = 24 ∧
    myfree 64 (after_malloc (fresh 24) 16) 4104 =
      some (after_free (after_malloc (fresh 24) 16) 4104) ∧
    (after_free (after_malloc (fresh 24) 16) 4104).size_used = 24 ∧
    IS_FREE (after_free (after_malloc (fresh 24) 16) 4104).mem 4096 = true ∧
    GET_SIZE (after_free (after_malloc (fresh 24) 16) 4104).mem 4096 = 24 ∧
    mymalloc 64 MAX_REQ (after_free (after_malloc (fresh 24) 16) 4104) 16 =
      some (after_free (after_malloc (fresh 24) 16) 4104, 0) := by
  refine ⟨rfl, by decide, by decide, rfl, by decide, by decide, by decide, rfl⟩

theorem seg_mid (m : Nat → Nat) (F1 F3 : List Nat) (h x : Nat)
    (hs : Seg m h (F1 ++ x :: F3) 0) : m (x + 8) = F3.headD 0 := by
  rw [seg_append] at hs
  obtain ⟨mid, -, -, h3⟩ := hs
  exact seg_head _ _ _ _ h3

theorem back_mid (m : Nat → Nat) (F1 F4 : List Nat) (x z : Nat)
    (hb : Back m (F1 ++ x :: z :: F4)) : m z = x := by
  rw [back_append] at hb
  exact ((back_cons _ _ _).1 hb.2.1).1 z (by simp)

theorem hdrs_flip (l1 l2 : List (Nat × Bool)) (S a : Nat) (u v : Bool) :
    hdrs a (l1 ++ (S, u) :: l2) = hdrs a (l1 ++ (S, v) :: l2) := by
  rw [hdrs_split, hdrs_split]

/-- What `myfree` does to the block list and to memory, case by case on the block that
follows the released block. -/
theorem myfree_cases (s : Heap) (live : List Nat) (l1 l2 : List (Nat × Bool)) (S fuel : Nat)
    (hinv : Inv s live (l1 ++ (S, true) :: l2)) (hf : s.segment_size ≤ fuel) :
    ∃ s1, myfree fuel s (s.segment_start + total l1 + 8) = some s1 ∧
      s1.segment_start = s.segment_start ∧ s1.segment_size = s.segment_size ∧
      s1.segment_end = s.segment_end ∧
      GET_HEADER (s.segment_start + total l1 + 8) = s.segment_start + total l1 ∧
      GET_SIZE s.mem (s.segment_start + total l1) = S ∧
      Inv s1 (live.erase (s.segment_start + total l1 + 8)) (coalesced l1 S l2) ∧
      (∀ h ∈ hdrs s.segment_start (l1 ++ (S, true) :: l2), h ≠ s.segment_start + total l1 →
        s1.mem h = s.mem h) := by
  obtain ⟨h1, m1, hrun, hinv1, hfr⟩ := myfree_spec s live l1 l2 S fuel hinv hf
  have hsz := hinv.sizes
  have hsz2 := (sizes_append _ _).1 hsz
  have hsz3 := (sizes_cons _ _).1 hsz2.2
  have hlay2 := (layout_append _ _ _ _).1 hinv.layout
  have hlt := hinv.hlt
  rw [← hinv.htotal, total_append] at hlt
  simp only [total] at hlt
  refine ⟨_, hrun, rfl, rfl, rfl, by simp [GET_HEADER, HEADER_SIZE],
    get_size_hdr _ _ _ hlay2.2.1 hsz3.1.2 (by simp only; omega), hinv1, ?_⟩
  intro h hh hne
  rw [hdrs_flip l1 l2 S _ true false] at hh
  exact hdr_untouched _ _ _ _ _ (sizes_flip _ _ _ _ _ hsz) hfr h hh hne

/-- C9: releasing a live allocation `p` of a reachable state returns; afterwards the block
at `p` is free and `p` is a node of the address-ordered free list.  When the block that
follows in memory was free, the header at `p` records the sum of the two sizes, the
successor is no longer a free-list node, and the successor's former `next` node is `p`'s
`next`, with its `prev` pointing at `p`.  When the following block was allocated, or `p`'s
block ends at the segment end, the header at `p` keeps its size and no other header
changes. -/
theorem forward_coalescing (M start size : Nat) (s : Heap) (live : List Nat) (p fuel : Nat)
    (h24 : 24 ≤ size) (h8 : size % 8 = 0) (hlt : start + size < WORD) (hM : M + 16 ≤ WORD)
    (hr : Reach M start size s live) (hp : p ∈ live) (hf : s.segment_size ≤ fuel) :
    ∃ s1 L hs, myfree fuel s p = some s1 ∧
      walk_blocks s.mem s.segment_end s.segment_size s.segment_start = some hs ∧
      IS_FREE s1.mem (GET_HEADER p) = true ∧
      walk_free s1.mem s1.segment_size s1.head_of_free_list = some L ∧
      p ∈ L ∧ L.Pairwise (fun a b => a < b) ∧
      (GET_HEADER (NEXT_BLOCK s.mem p) ≠ s.segment_end →
        IS_FREE s.mem (GET_HEADER (NEXT_BLOCK s.mem p)) = true →
          GET_SIZE s1.mem (GET_HEADER p) =
            GET_SIZE s.mem (GET_HEADER p) + GET_SIZE s.mem (GET_HEADER (NEXT_BLOCK s.mem p)) ∧
          NEXT_BLOCK s.mem p ∉ L ∧
          get_next_free s1 p = get_next_free s (NEXT_BLOCK s.mem p) ∧
          (get_next_free s (NEXT_BLOCK s.mem p) ≠ 0 →
            get_prev_free s1 (get_next_free s (NEXT_BLOCK s.mem p)) = p)) ∧
      ((GET_HEADER (NEXT_BLOCK s.mem p) = s.segment_end ∨
          IS_FREE s.mem (GET_HEADER (NEXT_BLOCK s.mem p)) = false) →
          GET_SIZE s1.mem (GET_HEADER p) = GET_SIZE s.mem (GET_HEADER p) ∧
          ∀ h ∈ hs, h ≠ GET_HEADER p → s1.mem h = s.mem h) := by
  obtain ⟨bs, hinv, -, -⟩ := reach_inv M start size s live h24 h8 hlt hM hr
  obtain ⟨l1, S, l2, rfl, rfl⟩ := mem_useds_split _ _ _ ((hinv.hlive p).1 hp)
  obtain ⟨s1, hrun, hst, hsi, hen, hgh, hgs, hinv1, hkeep⟩ :=
    myfree_cases s live l1 l2 S fuel hinv hf
  have hw := (inv_walks s live _ hinv).1
  have hw1 := (inv_walks s1 _ _ hinv1).2
  have hsz := hinv.sizes
  have hsz2 := (sizes_append _ _).1 hsz
  have hsz3 := (sizes_cons _ _).1 hsz2.2
  have hlay2 := (layout_append _ _ _ _).1 hinv.layout
  have hltb := hinv.hlt
  rw [← hinv.htotal, total_append] at hltb
  simp only [total] at hltb
  have hend : s.segment_end = s.segment_start + (total l1 + (S + total l2)) := by
    rw [hinv.hend, ← hinv.htotal, total_append]
    simp only [total]
  have hnb : NEXT_BLOCK s.mem (s.segment_start + total l1 + 8) =
      s.segment_start + total l1 + S + 8 := by
    simp only [NEXT_BLOCK, hgh, hgs]
    omega
  have hghn : GET_HEADER (s.segment_start + total l1 + S + 8) =
      s.segment_start + total l1 + S := by
    simp [GET_HEADER, HEADER_SIZE]
  have hasc1 : (frees s1.segment_start (coalesced l1 S l2)).Pairwise (fun a b => a < b) :=
    (frees_spaced _ _ hinv1.sizes).imp (fun h => by omega)
  have hl1 : Layout s1.mem s.segment_start (coalesced l1 S l2) := hst ▸ hinv1.layout
  have hseg1 : Seg s1.mem s1.head_of_free_list (frees s.segment_start (coalesced l1 S l2)) 0 :=
    hst ▸ hinv1.seg
  have hback1 : Back s1.mem (frees s.segment_start (coalesced l1 S l2)) := hst ▸ hinv1.back
  rw [hst] at hw1 hasc1
  rw [hnb, hghn, hgh, hgs]
  refine ⟨s1, _, _, hrun, hw, ?_, hw1, ?_, hasc1, ?_, ?_⟩
  · -- the block at `p` is free
    match l2, hl1 with
    | [], hl =>
      exact (is_free_hdr _ _ _ ((layout_append _ _ _ _).1 hl).2.1 hsz3.1.2).trans rfl
    | (T, true) :: l3, hl =>
      exact (is_free_hdr _ _ _ ((layout_append _ _ _ _).1 hl).2.1 hsz3.1.2).trans rfl
    | (T, false) :: l3, hl =>
      have hT := (sizes_cons _ _).1 hsz3.2
      refine (is_free_hdr _ _ (S + T, false) ((layout_append _ _ _ _).1 hl).2.1 ?_).trans rfl
      have h1 := hsz3.1.2
      have h2 := hT.1.2
      simp only at h1 h2 ⊢
      omega
  · -- `p` is in the free list
    match l2 with
    | [] => simp [coalesced, frees_split_free]
    | (T, true) :: l3 => simp [coalesced, frees_split_free]
    | (T, false) :: l3 => simp [coalesced, frees_split_free]
  · -- the following block was free
    intro hne hfree
    match l2, hinv, hl1, hseg1, hback1, hkeep, hsz3, hlay2, hltb, hend, hne, hfree, hw1,
      hasc1 with
    | [], _, _, _, _, _, _, _, _, hend, hne, _, _, _ =>
      simp only [total] at hend
      exact absurd (by omega) hne
    | (T, true) :: l3, _, _, _, _, _, hsz3, hlay2, _, _, _, hfree, _, _ =>
      have hT := (sizes_cons _ _).1 hsz3.2
      rw [is_free_hdr _ _ _ hlay2.2.2.1 hT.1.2] at hfree
      simp at hfree
    | (T, false) :: l3, hinv, hl1, hseg1, hback1, _, hsz3, hlay2, hltb, _, _, _, _, _ =>
      have hT := (sizes_cons _ _).1 hsz3.2
      simp only [total] at hltb
      have hl := (layout_append _ _ _ _).1 hl1
      have hsum8 : (S + T) % 8 = 0 := by
        have h1 := hsz3.1.2
        have h2 := hT.1.2
        simp only at h1 h2
        omega
      have hgs1 : GET_SIZE s1.mem (s.segment_start + total l1) = S + T :=
        get_size_hdr _ _ (S + T, false) hl.2.1 hsum8 (by simp only; omega)
      have hgsT : GET_SIZE s.mem (s.segment_start + total l1 + S) = T :=
        get_size_hdr _ _ _ hlay2.2.2.1 hT.1.2 (by simp only; omega)
      have hfs : frees s.segment_start (coalesced l1 S ((T, false) :: l3)) =
          frees s.segment_start l1 ++ (s.segment_start + total l1 + 8) ::
            frees (s.segment_start + total l1 + S + T) l3 := by
        simp only [coalesced, frees_split_free]
        rw [Nat.add_assoc (s.segment_start + total l1) S T]
      have hfs0 : frees s.segment_start (l1 ++ (S, true) :: (T, false) :: l3) =
          frees s.segment_start l1 ++ (s.segment_start + total l1 + S + 8) ::
            frees (s.segment_start + total l1 + S + T) l3 := by
        rw [frees_split_used]
        simp [frees]
      have hseg0 := hinv.seg
      rw [hfs0] at hseg0
      rw [hfs] at hseg1 hback1
      have hn0 := seg_mid _ _ _ _ _ hseg0
      have hn1 := seg_mid _ _ _ _ _ hseg1
      refine ⟨by rw [hgs1, hgsT], ?_, ?_, ?_⟩
      · rw [hfs]
        intro hm
        simp only [List.mem_append, List.mem_cons] at hm
        rcases hm with hm | hm | hm
        · have := mem_frees_bounds _ _ _ hsz2.1 hm
          omega
        · have := hsz3.1.1
          simp only at this
          omega
        · have := mem_frees_bounds _ _ _ hT.2 hm
          have := hT.1.1
          simp only at this
          omega
      · simp only [get_next_free]
        rw [hn0, hn1]
      · simp only [get_next_free, get_prev_free]
        rw [hn0]
        intro hz
        cases hF : frees (s.segment_start + total l1 + S + T) l3 with
        | nil => simp [hF] at hz
        | cons z zs =>
          rw [hF] at hback1
          simp only [List.headD_cons]
          exact back_mid _ _ _ _ _ hback1
  · -- the following block was allocated or absent
    intro hcase
    have hkeep2 : ∀ h ∈ hdrs s.segment_start (l1 ++ (S, true) :: l2),
        h ≠ s.segment_start + total l1 → s1.mem h = s.mem h := hkeep
    refine ⟨?_, hkeep2⟩
    match l2, hl1, hcase, hsz3, hlay2, hltb, hend with
    | [], hl, _, hsz3, _, hltb, _ =>
      exact get_size_hdr _ _ (S, false) ((layout_append _ _ _ _).1 hl).2.1 hsz3.1.2
        (by simp only; omega)
    | (T, true) :: l3, hl, _, hsz3, _, hltb, _ =>
      exact get_size_hdr _ _ (S, false) ((layout_append _ _ _ _).1 hl).2.1 hsz3.1.2
        (by simp only; omega)
    | (T, false) :: l3, _, hcase, hsz3, hlay2, hltb, hend =>
      have hT := (sizes_cons _ _).1 hsz3.2
      exfalso
      rcases hcase with hc | hc
      · simp only [total] at hend
        have := hT.1.1
        simp only at this
        omega
      · rw [is_free_hdr _ _ _ hlay2.2.2.1 hT.1.2] at hc
        simp at hc

theorem forward_coalescing_witness :
    (24 ≤ 128 ∧ 128 % 8 = 0 ∧ 4096 + 128 < WORD ∧ MAX_REQ + 16 ≤ WORD ∧ 4128 ∈ [4128] ∧
      first_released.segment_size ≤ 128) ∧
    ∃ s1 L hs, myfree 128 first_released 4128 = some s1 ∧
      walk_blocks first_released.mem first_released.segment_end first_released.segment_size
        first_released.segment_start = some hs ∧
      IS_FREE s1.mem (GET_HEADER 4128) = true ∧
      walk_free s1.mem s1.segment_size s1.head_of_free_list = some L ∧
      4128 ∈ L ∧ L.Pairwise (fun a b => a < b) ∧
      (GET_HEADER (NEXT_BLOCK first_released.mem 4128) ≠ first_released.segment_end →
        IS_FREE first_released.mem (GET_HEADER (NEXT_BLOCK first_released.mem 4128)) = true →
          GET_SIZE s1.mem (GET_HEADER 4128) =
            GET_SIZE first_released.mem (GET_HEADER 4128) +
              GET_SIZE first_released.mem (GET_HEADER (NEXT_BLOCK first_released.mem 4128)) ∧
          NEXT_BLOCK first_released.mem 4128 ∉ L ∧
          get_next_free s1 4128 =
            get_next_free first_released (NEXT_BLOCK first_released.mem 4128) ∧
          (get_next_free first_released (NEXT_BLOCK first_released.mem 4128) ≠ 0 →
            get_prev_free s1
              (get_next_free first_released (NEXT_BLOCK first_released.mem 4128)) = 4128)) ∧
      ((GET_HEADER (NEXT_BLOCK first_released.mem 4128) = first_released.segment_end ∨
          IS_FREE first_released.mem (GET_HEADER (NEXT_BLOCK first_released.mem 4128)) =
            false) →
          GET_SIZE s1.mem (GET_HEADER 4128) = GET_SIZE first_released.mem (GET_HEADER 4128) ∧
          ∀ h ∈ hs, h ≠ GET_HEADER 4128 → s1.mem h = first_released.mem h) :=
  ⟨by decide, forward_coalescing MAX_REQ 4096 128 first_released [4128] 4128 128 (by decide)
    (by decide) (by decide) (by decide) reach_first_released (by decide) (by decide)⟩

/-- C16: for a size that is a multiple of 8 and fits in a 64-bit word and a flag `a` in
{0, 1}, a header holding `SET_ALLOC(size, a)` decodes to `GET_SIZE = size`,
`GET_ALLOC = a`, and `IS_FREE` exactly when `a = 0`; on 64-bit words `GET_SIZE` only
depends on bits 3 and up and `GET_ALLOC` only on bit 0. -/
theorem header_codec (size a : Nat) (h8 : size % 8 = 0) (hlt : size < WORD)
    (ha : a = 0 ∨ a = 1) :
    (∀ (m : Nat → Nat) (p : Nat), m p = SET_ALLOC size a →
      GET_SIZE m p = size ∧ GET_ALLOC m p = a ∧ (IS_FREE m p = true ↔ a = 0)) ∧
    (∀ (m m1 : Nat → Nat) (p : Nat), m p < WORD → m1 p < WORD → m p / 8 = m1 p / 8 →
      GET_SIZE m p = GET_SIZE m1 p) ∧
    (∀ (m m1 : Nat → Nat) (p : Nat), m p % 2 = m1 p % 2 → GET_ALLOC m p = GET_ALLOC m1 p) := by
  refine ⟨?_, ?_, ?_⟩
  · intro m p hw
    have hsum : SET_ALLOC size a = size + a := by
      unfold SET_ALLOC
      exact or_small size a h8 (by omega)
    have hs : GET_SIZE m p = size := by
      unfold GET_SIZE
      unfold WORD at hlt
      rw [hw, hsum, and_size_mask _ (by omega)]
      omega
    have hal : GET_ALLOC m p = a := by
      unfold GET_ALLOC
      rw [hw, hsum, Nat.and_one_is_mod]
      omega
    refine ⟨hs, hal, ?_⟩
    unfold IS_FREE
    rw [hal]
    simp
  · intro m m1 p h1 h2 h
    unfold GET_SIZE
    unfold WORD at h1 h2
    rw [and_size_mask _ h1, and_size_mask _ h2]
    omega
  · intro m m1 p h
    unfold GET_ALLOC
    rw [Nat.and_one_is_mod, Nat.and_one_is_mod, h]

theorem header_codec_witness :
    (24 % 8 = 0 ∧ 24 < WORD ∧ (1 = 0 ∨ 1 = 1)) ∧
    (∀ (m : Nat → Nat) (p : Nat), m p = SET_ALLOC 24 1 →
      GET_SIZE m p = 24 ∧ GET_ALLOC m p = 1 ∧ (IS_FREE m p = true ↔ 1 = 0)) ∧
    (∀ (m m1 : Nat → Nat) (p : Nat), m p < WORD → m1 p < WORD → m p / 8 = m1 p / 8 →
      GET_SIZE m p = GET_SIZE m1 p) ∧
    (∀ (m m1 : Nat → Nat) (p : Nat), m p % 2 = m1 p % 2 → GET_ALLOC m p = GET_ALLOC m1 p) :=
  ⟨by decide, header_codec 24 1 (by decide) (by decide) (by decide)⟩

theorem reach_three_allocs : Reach MAX_REQ 4096 1024 three_allocs [4152, 4128, 4104] :=
  Reach.malloc 64 16 (after_malloc (after_malloc (fresh 1024) 16) 16) three_allocs
    [4128, 4104] 4152
    (Reach.malloc 64 16 (after_malloc (fresh 1024) 16)
      (after_malloc (after_malloc (fresh 1024) 16) 16) [4104] 4128
      (Reach.malloc 64 16 (fresh 1024) (after_malloc (fresh 1024) 16) [] 4104
        (reach_fresh 1024 rfl) rfl) rfl) rfl

theorem reach_b_released : Reach MAX_REQ 4096 1024 b_released [4152, 4104] :=
  Reach.free 64 three_allocs b_released [4152, 4128, 4104] 4128 reach_three_allocs
    (by decide) rfl

/-- C18 (failing input): with blocks A, B, C allocated on a 1024-byte heap and B released,
the free list is 4128, 4176 with consistent links, both nodes above the payload 4104 of the
allocated block A.  `find_prev_in_free_list(4104)` returns the head 4128, which lies above
the target, where no list node lies below it; `find_next_in_free_list` returns the same
node 4128. -/
theorem find_prev_returns_head :
    Reach MAX_REQ 4096 1024 b_released [4152, 4104] ∧
    walk_blocks b_released.mem b_released.segment_end b_released.segment_size
      b_released.segment_start = some [4096, 4120, 4144, 4168] ∧
    walk_free b_released.mem 1024 b_released.head_of_free_list = some [4128, 4176] ∧
    get_prev_free b_released 4128 = 0 ∧ get_next_free b_released 4128 = 4176 ∧
    get_prev_free b_released 4176 = 4128 ∧ get_next_free b_released 4176 = 0 ∧
    find_prev_in_free_list 64 b_released 4104 = some 4128 ∧
    find_next_in_free_list 64 b_released 4128 4104 = some 4128 ∧
    ¬ (4128 < 4104) := by
  refine ⟨reach_b_released, by decide, by decide, by decide, by decide, by decide, by decide,
    by decide, by decide, by decide⟩

/-- C19 (failing input): in the same state the free list is 4128, 4176 with
`4176.prev = 4128`.  `remove_free_block(4128)` removes the head: the list becomes 4176 and
the head advances, but the `prev` field of 4176 still holds the removed node 4128 instead
of `NULL`. -/
theorem remove_head_keeps_stale_prev :
    walk_free b_released.mem 1024 b_released.head_of_free_list = some [4128, 4176] ∧
    get_prev_free b_released 4128 = 0 ∧ get_prev_free b_released 4176 = 4128 ∧
    remove_free_block 64 b_released 4128 = some (after_remove b_released 4128) ∧
    walk_free (after_remove b_released 4128).mem 1024
      (after_remove b_released 4128).head_of_free_list = some [4176] ∧
    (after_remove b_released 4128).head_of_free_list = get_next_free b_released 4128 ∧
    get_prev_free (after_remove b_released 4128) 4176 = 4128 ∧
    get_prev_free (after_remove b_released 4128) 4176 ≠ 0 := by
  refine ⟨by decide, by decide, by decide, rfl, by decide, by decide, by decide, by decide⟩

/-- C11 (counterexample): two successful allocations on a fresh 128-byte heap, released in
ascending address order, leave two blocks in the segment, at 4096 and 4120, each free and
each a free-list node; the header at 4096 records 24, not 128. -/
theorem release_ascending_two_blocks :
    mymalloc 64 MAX_REQ (fresh 128) 16 = some (after_malloc (fresh 128) 16, 4104) ∧
    mymalloc 64 MAX_REQ (after_malloc (fresh 128) 16) 16 = some (two_allocs, 4128) ∧
    myfree 64 two_allocs 4104 = some first_released ∧
    myfree 64 first_released 4128 = some both_released ∧
    walk_blocks both_released.mem both_released.segment_end both_released.segment_size
      both_released.segment_start = some [4096, 4120] ∧
    GET_SIZE both_released.mem 4096 = 24 ∧
    walk_free both_released.mem both_released.segment_size both_released.head_of_free_list =
      some [4104, 4128] := by
  refine ⟨rfl, rfl, rfl, rfl, by decide, by decide, by decide⟩

/-- C12 (counterexample): after A, B, C = three `mymalloc(16)` on a 1024-byte heap,
`myfree(B)` then `myfree(C)` leaves the header at B recording 24, not 48, with C a separate
free block of 976 bytes; after `myfree(A)` the segment holds two free blocks, of 48 and
976 bytes, and the header at A records 48, not 1024. -/
theorem release_bca_two_blocks :
    mymalloc 64 MAX_REQ (fresh 1024) 16 = some (after_malloc (fresh 1024) 16, 4104) ∧
    mymalloc 64 MAX_REQ (after_malloc (fresh 1024) 16) 16 =
      some (after_malloc (after_malloc (fresh 1024) 16) 16, 4128) ∧
    mymalloc 64 MAX_REQ (after_malloc (after_malloc (fresh 1024) 16) 16) 16 =
      some (three_allocs, 4152) ∧
    myfree 64 three_allocs 4128 = some b_released ∧
    myfree 64 b_released 4152 = some bc_released ∧
    GET_SIZE bc_released.mem (GET_HEADER 4128) = 24 ∧
    walk_blocks bc_released.mem bc_released.segment_end bc_released.segment_size
      bc_released.segment_start = some [4096, 4120, 4144] ∧
    myfree 64 bc_released 4104 = some bca_released ∧
    walk_blocks bca_released.mem bca_released.segment_end bca_released.segment_size
      bca_released.segment_start = some [4096, 4144] ∧
    GET_SIZE bca_released.mem (GET_HEADER 4104) = 48 := by
  refine ⟨rfl, rfl, rfl, rfl, rfl, by decide, by decide, rfl, by decide, by decide⟩

/-! ## Resizing -/

/-- A live pointer is the payload address of a block whose header has the allocated bit and
whose payload is free of headers and of free-list fields. -/
theorem live_block (s : Heap) (live : List Nat) (bs : List (Nat × Bool)) (p : Nat)
    (hinv : Inv s live bs) (hp : p ∈ live) :
    ∃ l1 S l2, bs = l1 ++ (S, true) :: l2 ∧ p = s.segment_start + total l1 + 8 ∧
      GET_HEADER p = s.segment_start + total l1 ∧
      GET_SIZE s.mem (GET_HEADER p) = S ∧ IS_FREE s.mem (GET_HEADER p) = false ∧
      24 ≤ S ∧ S % 8 = 0 := by
  obtain ⟨l1, S, l2, rfl, hpe⟩ := mem_useds_split bs _ p ((hinv.hlive p).1 hp)
  have hgh : GET_HEADER p = s.segment_start + total l1 := by
    rw [hpe]
    simp [GET_HEADER, HEADER_SIZE]
  have hsz2 := (sizes_append _ _).1 hinv.sizes
  have hsz3 := (sizes_cons _ _).1 hsz2.2
  have hlay2 := (layout_append _ _ _ _).1 hinv.layout
  have hhdr : s.mem (s.segment_start + total l1) = hdr_word (S, true) := hlay2.2.1
  have hltS : S < WORD := by
    have h1 := hinv.htotal
    have h2 := hinv.hlt
    rw [total_append] at h1
    simp only [total] at h1
    omega
  refine ⟨l1, S, l2, rfl, hpe, hgh, ?_, ?_, hsz3.1.1, hsz3.1.2⟩
  · rw [hgh]
    exact get_size_hdr _ _ _ hhdr hsz3.1.2 hltS
  · rw [hgh, is_free_hdr _ _ _ hhdr hsz3.1.2]
    rfl

/-- C14: in a reachable state, for a live allocation `p` and a request `n` that cannot be
satisfied (`n > MAX_REQUEST_SIZE`, or `size_needed + size_used > segment_size` as the
64-bit sum the code computes, or as the exact sum when that fits in 64 bits, or no free
block of the walk has header size at least `size_needed`), `myrealloc(p, n)` returns `NULL`
and the state after the call is the state before it (every header, every payload word,
`size_used`, the head and every link of the free list); the block of `p` has its allocated
bit set. -/
theorem failed_resize_atomic (M start size : Nat) (s : Heap) (live : List Nat)
    (p n fuel : Nat) (h24 : 24 ≤ size) (h8 : size % 8 = 0) (hlt : start + size < WORD)
    (hM : M + 16 ≤ WORD) (hr : Reach M start size s live) (hp : p ∈ live)
    (hf : s.segment_size ≤ fuel)
    (hfail : n > M ∨ (size_needed_for n + s.size_used) % WORD > s.segment_size ∨
      (size_needed_for n + s.size_used < WORD ∧
        size_needed_for n + s.size_used > s.segment_size) ∨
      ∃ hs, walk_blocks s.mem s.segment_end s.segment_size s.segment_start = some hs ∧
        ∀ h ∈ hs, IS_FREE s.mem h = true → GET_SIZE s.mem h < size_needed_for n) :
    myrealloc fuel M s p n = some (s, 0) ∧ IS_FREE s.mem (GET_HEADER p) = false := by
  obtain ⟨bs, hinv, -, -⟩ := reach_inv M start size s live h24 h8 hlt hM hr
  obtain ⟨l1, S, l2, -, -, -, -, hfree, -, -⟩ := live_block s live bs p hinv hp
  refine ⟨?_, hfree⟩
  by_cases h1 : n > M
  · unfold myrealloc
    rw [if_pos h1]
  by_cases h2 : (size_needed_for n + s.size_used) % WORD > s.segment_size
  · unfold myrealloc
    rw [if_neg h1]
    simp only
    rw [if_pos h2]
  rcases hfail with h | h | h | ⟨hs, hw, hall⟩
  · exact absurd h h1
  · exact absurd h h2
  · rw [Nat.mod_eq_of_lt h.1] at h2
    exact absurd h.2 h2
  · have hw2 := (inv_walks s live bs hinv).1
    rw [hw] at hw2
    obtain rfl := Option.some.inj hw2
    have hltb : s.segment_start + total bs < WORD := by rw [hinv.htotal]; exact hinv.hlt
    have hno : ∀ b ∈ bs, b.2 = false → b.1 < size_needed_for n := by
      rcases first_fit_split bs (size_needed_for n) with hno | ⟨k1, T, k2, rfl, hT, -⟩
      · exact hno
      · exfalso
        have hsz2 := (sizes_append _ _).1 hinv.sizes
        have hsz3 := (sizes_cons _ _).1 hsz2.2
        have hlay2 := (layout_append _ _ _ _).1 hinv.layout
        have hhdr : s.mem (s.segment_start + total k1) = hdr_word (T, false) := hlay2.2.1
        have hltT : T < WORD := by
          rw [total_append] at hltb
          simp only [total] at hltb
          omega
        have hgs : GET_SIZE s.mem (s.segment_start + total k1) = T :=
          get_size_hdr _ _ _ hhdr hsz3.1.2 hltT
        have hfr : IS_FREE s.mem (s.segment_start + total k1) = true := by
          rw [is_free_hdr _ _ _ hhdr hsz3.1.2]
          rfl
        have := hall _ (hdr_mem_split k1 k2 (T, false) s.segment_start) hfr
        omega
    rw [myrealloc_unfold fuel M s s p n 0 h1 h2 (mymalloc_nofit fuel M s live bs n hinv hf hno)]
    simp

theorem failed_resize_atomic_witness :
    (24 ≤ 128 ∧ 128 % 8 = 0 ∧ 4096 + 128 < WORD ∧ MAX_REQ + 16 ≤ WORD ∧
      4104 ∈ [4128, 4104] ∧ two_allocs.segment_size ≤ 128 ∧
      (size_needed_for 2000 + two_allocs.size_used) % WORD > two_allocs.segment_size) ∧
    myrealloc 128 MAX_REQ two_allocs 4104 2000 = some (two_allocs, 0) ∧
      IS_FREE two_allocs.mem (GET_HEADER 4104) = false :=
  ⟨by decide, failed_resize_atomic MAX_REQ 4096 128 two_allocs [4128, 4104] 4104 2000 128
    (by decide) (by decide) (by decide) (by decide) reach_two_allocs (by decide) (by decide)
    (Or.inr (Or.inl (by decide)))⟩

/-- Two blocks of one block list are the same block or do not overlap. -/
theorem block_positions (l1 l2 k1 k2 : List (Nat × Bool)) (b c : Nat × Bool)
    (h : l1 ++ b :: l2 = k1 ++ c :: k2) :
    (l1 = k1 ∧ b = c) ∨ total l1 + b.1 ≤ total k1 ∨ total k1 + c.1 ≤ total l1 := by
  induction l1 generalizing k1 with
  | nil =>
    cases k1 with
    | nil =>
      simp only [List.nil_append, List.cons.injEq] at h
      exact Or.inl ⟨rfl, h.1⟩
    | cons d k1 =>
      simp only [List.nil_append, List.cons_append, List.cons.injEq] at h
      right; left
      rw [h.1]
      simp [total]
  | cons a l1 ih =>
    cases k1 with
    | nil =>
      simp only [List.nil_append, List.cons_append, List.cons.injEq] at h
      right; right
      rw [h.1]
      simp [total]
    | cons d k1 =>
      simp only [List.cons_append, List.cons.injEq] at h
      rcases ih k1 h.2 with ⟨e1, e2⟩ | e | e
      · exact Or.inl ⟨by rw [h.1, e1], e2⟩
      · right; left
        simp only [total]
        rw [h.1]
        omega
      · right; right
        simp only [total]
        rw [h.1]
        omega

/-- C15: in a reachable state `myrealloc(p, n)` on a live allocation `p` returns, and when
the result `q` is not `NULL`, every 8-byte word that holds one of the first
`min(oldSize, n)` payload bytes (`oldSize` = header size of `p` minus `HEADER_SIZE`) reads
at `q` after the call what it read at `p` before the call. -/
theorem resize_preserves_contents (M start size : Nat) (s : Heap) (live : List Nat)
    (p n fuel : Nat) (h24 : 24 ≤ size) (h8 : size % 8 = 0) (hlt : start + size < WORD)
    (hM : M + 16 ≤ WORD) (hr : Reach M start size s live) (hp : p ∈ live)
    (hf : s.segment_size ≤ fuel) :
    ∃ s1 q, myrealloc fuel M s p n = some (s1, q) ∧
      (q ≠ 0 → ∀ k, 8 * k < min (GET_SIZE s.mem (GET_HEADER p) - HEADER_SIZE) n →
        s1.mem (q + 8 * k) = s.mem (p + 8 * k)) := by
  obtain ⟨bs, hinv, -, -⟩ := reach_inv M start size s live h24 h8 hlt hM hr
  obtain ⟨l1, S, l2, hbs, hpe, -, hgs, -, hS24, -⟩ := live_block s live bs p hinv hp
  by_cases hrej : n > M ∨ (size_needed_for n + s.size_used) % WORD > s.segment_size
  · refine ⟨s, 0, ?_, fun h => absurd rfl h⟩
    unfold myrealloc
    by_cases h1 : n > M
    · rw [if_pos h1]
    · rw [if_neg h1]
      simp only
      rw [if_pos (by tauto)]
  have hnM : ¬ n > M := fun h => hrej (Or.inl h)
  have hcap : ¬ (size_needed_for n + s.size_used) % WORD > s.segment_size :=
    fun h => hrej (Or.inr h)
  rcases first_fit_split bs (size_needed_for n) with hno | ⟨k1, T, k2, hbk, hT, hno⟩
  · refine ⟨s, 0, ?_, fun h => absurd rfl h⟩
    rw [myrealloc_unfold fuel M s s p n 0 hnM hcap (mymalloc_nofit fuel M s live bs n hinv hf hno)]
    simp
  have hinvk : Inv s live (k1 ++ (T, false) :: k2) := hbk ▸ hinv
  have hinvl : Inv s live (l1 ++ (S, true) :: l2) := hbs ▸ hinv
  obtain ⟨h1, m1, hrun, hinv1, hfr1⟩ :=
    mymalloc_fit fuel M s live k1 k2 T n hinvk hf (by omega) (by omega) hT hno
  obtain ⟨s1, hs1⟩ : ∃ s1 : Heap, s1 =
      { s with size_used := (s.size_used + size_needed_for n) % WORD,
               head_of_free_list := h1, mem := m1 } := ⟨_, rfl⟩
  rw [← hs1] at hrun hinv1
  have hst1 : s1.segment_start = s.segment_start := by rw [hs1]
  have hsi1 : s1.segment_size = s.segment_size := by rw [hs1]
  have hm1 : s1.mem = m1 := by rw [hs1]
  rw [myrealloc_unfold fuel M s s1 p n _ hnM hcap hrun]
  rw [if_pos (by omega)]
  obtain ⟨Sq, k3, hall, hsq⟩ := allocated_split k1 k2 T (size_needed_for n)
  have hSq : size_needed_for n ≤ Sq := by
    rcases hsq with ⟨_, e⟩ | ⟨_, e, _⟩ <;> omega
  rw [hall] at hinv1
  have hge := size_needed_ge n (by omega)
  have hrn := roundup_small n (by omega)
  obtain ⟨q, hqe⟩ : ∃ q, q = s.segment_start + total k1 + 8 := ⟨_, rfl⟩
  rw [← hqe] at hrun hinv1 ⊢
  have hclear : ∀ w, memcpy s1.mem q p (roundup n ALIGNMENT) w ≠ s1.mem w →
      s1.segment_start + total k1 < w ∧ w < s1.segment_start + total k1 + Sq := by
    intro w hw
    by_contra hc
    apply hw
    apply memcpy_outside
    omega
  have hinv2 := inv_frame _ _ _ (memcpy s1.mem q p (roundup n ALIGNMENT)) hinv1
    (fun h hh => by
      by_contra hc
      exact (payload_clear k1 k3 Sq _ h hinv1.sizes (hclear h hc)).1 hh)
    (fun x hx => by
      constructor
      · by_contra hc
        exact ((payload_clear k1 k3 Sq _ x hinv1.sizes (hclear x hc)).2 x hx).1 rfl
      · by_contra hc
        exact ((payload_clear k1 k3 Sq _ (x + 8) hinv1.sizes (hclear _ hc)).2 x hx).2 rfl)
  obtain ⟨s2, hs2⟩ : ∃ s2 : Heap, s2 =
      { s1 with mem := memcpy s1.mem q p (roundup n ALIGNMENT) } := ⟨_, rfl⟩
  rw [← hs2] at hinv2 ⊢
  have hst2 : s2.segment_start = s.segment_start := by rw [hs2]; exact hst1
  have hsi2 : s2.segment_size = s.segment_size := by rw [hs2]; exact hsi1
  have hm2 : s2.mem = memcpy s1.mem q p (roundup n ALIGNMENT) := by rw [hs2]
  have hp2 : p ∈ q :: live := List.mem_cons_of_mem _ hp
  have hne : q ≠ p := by
    intro e
    have := (List.nodup_cons.1 hinv1.hnodup).1
    exact this (e ▸ hp)
  obtain ⟨j1, S2, j2, hj, hpj, -, -, -, hS2, -⟩ := live_block s2 (q :: live) _ p hinv2 hp2
  have hinvj : Inv s2 (q :: live) (j1 ++ (S2, true) :: j2) := hj ▸ hinv2
  obtain ⟨h3, m3, hrun3, -, hfr3⟩ := myfree_spec s2 (q :: live) j1 j2 S2 fuel hinvj
    (by omega)
  rw [← hpj] at hrun3
  rw [hrun3]
  refine ⟨_, q, rfl, fun _ k hk => ?_⟩
  show m3 (q + 8 * k) = s.mem (p + 8 * k)
  have hk1 : 8 * k < S - 8 := by
    rw [hgs] at hk
    unfold HEADER_SIZE at hk
    omega
  have hk2 : 8 * k < n := by omega
  -- old and new block in the list after the allocation
  have hpos := block_positions k1 k3 j1 j2 (Sq, true) (S2, true) hj
  have hpos2 : total k1 + Sq ≤ total j1 ∨ total j1 + S2 ≤ total k1 := by
    rcases hpos with ⟨e, -⟩ | e | e
    · exfalso
      apply hne
      rw [hqe, hpj, hst2, e]
    · exact Or.inl e
    · exact Or.inr e
  -- old block and chosen free block in the list before the allocation
  have hpos3 := block_positions l1 l2 k1 k2 (S, true) (T, false) (hbs.symm.trans hbk)
  have hpos4 : total l1 + S ≤ total k1 ∨ total k1 + T ≤ total l1 := by
    rcases hpos3 with ⟨-, e⟩ | e | e
    · simp at e
    · exact Or.inl e
    · exact Or.inr e
  have hin : s2.segment_start + total k1 < q + 8 * k ∧
      q + 8 * k < s2.segment_start + total k1 + Sq := by
    rw [hst2]
    omega
  have hpc := payload_clear k1 k3 Sq s2.segment_start (q + 8 * k) hinv2.sizes hin
  have e1 : m3 (q + 8 * k) = s2.mem (q + 8 * k) := by
    apply hfr3
    · intro e
      apply hpc.1
      rw [e, hj]
      exact hdr_mem_split j1 j2 (S2, true) s2.segment_start
    · intro x hx
      rw [frees_split_free] at hx
      rcases List.mem_append.1 hx with hx | hx
      · exact hpc.2 x (by rw [hj, frees_split_used]; exact List.mem_append_left _ hx)
      · rcases List.mem_cons.1 hx with rfl | hx
        · rw [hst2] at hin ⊢
          omega
        · exact hpc.2 x (by rw [hj, frees_split_used]; exact List.mem_append_right _ hx)
  have e2 : s2.mem (q + 8 * k) = s1.mem (p + 8 * k) := by
    rw [hm2]
    unfold memcpy
    rw [if_pos ⟨by omega, by omega, by omega⟩]
    congr 1
    omega
  have hin3 : s.segment_start + total l1 < p + 8 * k ∧
      p + 8 * k < s.segment_start + total l1 + S := by
    omega
  have hpc3 := payload_clear l1 l2 S s.segment_start (p + 8 * k) hinvl.sizes hin3
  have e3 : s1.mem (p + 8 * k) = s.mem (p + 8 * k) := by
    rw [hm1]
    apply hfr1
    · omega
    · intro x hx
      exact hpc3.2 x (by rw [← hbs, hbk]; exact hx)
  rw [e1, e2, e3]

/-! ## Allocating a batch and releasing all of it -/

theorem used_blocks_snoc (sizes : List Nat) (x : Nat) (tl : List (Nat × Bool)) :
    used_blocks (sizes ++ [x]) ++ tl = used_blocks sizes ++ (x, true) :: tl := by
  simp [used_blocks]

theorem used_blocks_alloc (b : Nat × Bool) (sizes : List Nat) (hb : b ∈ used_blocks sizes) :
    b.2 = true := by
  unfold used_blocks at hb
  obtain ⟨x, -, rfl⟩ := List.mem_map.1 hb
  rfl

theorem useds_tail (a : Nat) (tl : List (Nat × Bool))
    (htl : tl = [] ∨ ∃ R, tl = [(R, false)]) : useds a tl = [] := by
  rcases htl with rfl | ⟨R, rfl⟩ <;> simp [useds]

theorem allocated_stack (sizes : List Nat) (R need : Nat) :
    ∃ x tl, allocated (used_blocks sizes) R need [] = used_blocks (sizes ++ [x]) ++ tl ∧
      (tl = [] ∨ ∃ R2, tl = [(R2, false)]) := by
  unfold allocated
  split
  · exact ⟨need, [(R - need, false)], by simp [coalesced, used_blocks], Or.inr ⟨_, rfl⟩⟩
  · exact ⟨R, [], by simp [used_blocks], Or.inl rfl⟩

theorem coalesced_stack (sizes : List Nat) (x : Nat) (tl : List (Nat × Bool))
    (htl : tl = [] ∨ ∃ R, tl = [(R, false)]) :
    ∃ R2, coalesced (used_blocks sizes) x tl = used_blocks sizes ++ [(R2, false)] := by
  rcases htl with rfl | ⟨R, rfl⟩
  · exact ⟨x, by simp [coalesced]⟩
  · exact ⟨x + R, by simp [coalesced]⟩

/-- Consecutive successful allocations on a heap whose blocks are allocated up to a
trailing free block keep that shape and return the payloads in address order. -/
theorem malloc_all_stack (fuel M : Nat) (ns : List Nat) :
    ∀ (s : Heap) (live : List Nat) (sizes : List Nat) (tl : List (Nat × Bool)) (s2 : Heap)
      (ps : List Nat),
      Inv s live (used_blocks sizes ++ tl) → (tl = [] ∨ ∃ R, tl = [(R, false)]) →
      s.segment_size ≤ fuel →
      malloc_all fuel M s ns = some (s2, ps) → (∀ p ∈ ps, p ≠ 0) →
      ∃ live2 sizes2 tl2, Inv s2 live2 (used_blocks sizes2 ++ tl2) ∧
        (tl2 = [] ∨ ∃ R, tl2 = [(R, false)]) ∧
        useds s2.segment_start (used_blocks sizes2 ++ tl2) =
          useds s.segment_start (used_blocks sizes ++ tl) ++ ps ∧
        s2.segment_start = s.segment_start ∧ s2.segment_size = s.segment_size := by
  induction ns with
  | nil =>
    intro s live sizes tl s2 ps hinv htl _ hrun _
    simp only [malloc_all, Option.some.injEq, Prod.mk.injEq] at hrun
    obtain ⟨rfl, rfl⟩ := hrun
    exact ⟨live, sizes, tl, hinv, htl, by simp, rfl, rfl⟩
  | cons n ns ih =>
    intro s live sizes tl s2 ps hinv htl hf hrun hok
    unfold malloc_all at hrun
    cases hm : mymalloc fuel M s n with
    | none => simp [hm] at hrun
    | some r =>
      obtain ⟨s1, p⟩ := r
      rw [hm, Option.some_bind] at hrun
      cases hm2 : malloc_all fuel M s1 ns with
      | none => simp [hm2] at hrun
      | some r2 =>
        obtain ⟨s3, ps2⟩ := r2
        rw [hm2] at hrun
        simp only [Option.map_some', Option.some.injEq, Prod.mk.injEq] at hrun
        obtain ⟨rfl, rfl⟩ := hrun
        have hp0 : p ≠ 0 := hok p (List.mem_cons_self _ _)
        have hok2 : ∀ q ∈ ps2, q ≠ 0 := fun q hq => hok q (List.mem_cons_of_mem _ hq)
        have hnull : mymalloc fuel M s n ≠ some (s, 0) := by
          rw [hm]
          intro e
          exact hp0 (Prod.mk.inj (Option.some.inj e)).2
        by_cases hrej : n > M ∨ (size_needed_for n + s.size_used) % WORD > s.segment_size
        · exact absurd (mymalloc_reject fuel M s n hrej) hnull
        have hfit : ∃ R, tl = [(R, false)] ∧ size_needed_for n ≤ R := by
          by_contra hc
          apply hnull
          apply mymalloc_nofit fuel M s live _ n hinv hf
          intro b hb hfree
          rcases List.mem_append.1 hb with hb | hb
          · rw [used_blocks_alloc b sizes hb] at hfree
            exact absurd hfree (by simp)
          · rcases htl with rfl | ⟨R, rfl⟩
            · simp at hb
            · obtain rfl := List.mem_singleton.1 hb
              by_contra hlt
              exact hc ⟨R, rfl, by simpa using hlt⟩
        obtain ⟨R, rfl, hR⟩ := hfit
        obtain ⟨h1, m1, hrun1, hinv1, -⟩ :=
          mymalloc_fit fuel M s live (used_blocks sizes) [] R n hinv hf (by omega) (by omega) hR
            (fun b hb hfree => by
              rw [used_blocks_alloc b sizes hb] at hfree
              exact absurd hfree (by simp))
        rw [hm] at hrun1
        obtain ⟨hs1, hp⟩ := Prod.mk.inj (Option.some.inj hrun1)
        have hst1 : s1.segment_start = s.segment_start := by rw [hs1]
        have hsi1 : s1.segment_size = s.segment_size := by rw [hs1]
        rw [← hs1] at hinv1
        obtain ⟨x, tl1, hshape, htl1⟩ := allocated_stack sizes R (size_needed_for n)
        have hus : useds s1.segment_start (used_blocks (sizes ++ [x]) ++ tl1) =
            useds s.segment_start (used_blocks sizes ++ [(R, false)]) ++ [p] := by
          rw [← hshape, hst1, useds_allocated _ _ _ _ _ hR, useds_append, hp]
          simp [useds]
        rw [hshape] at hinv1
        obtain ⟨live2, sizes2, tl2, hinv2, htl2, hus2, hst2, hsi2⟩ :=
          ih s1 _ (sizes ++ [x]) tl1 s3 ps2 hinv1 htl1 (by omega) hm2 hok2
        refine ⟨live2, sizes2, tl2, hinv2, htl2, ?_, hst2.trans hst1, hsi2.trans hsi1⟩
        rw [hus2, hus]
        simp

/-- Releasing the allocated blocks from the highest address down merges everything into
one free block. -/
theorem free_all_stack (fuel : Nat) (sizes : List Nat) :
    ∀ (s : Heap) (live : List Nat) (tl : List (Nat × Bool)),
      Inv s live (used_blocks sizes ++ tl) → (tl = [] ∨ ∃ R, tl = [(R, false)]) →
      s.segment_size ≤ fuel →
      ∃ s3, free_all fuel s (useds s.segment_start (used_blocks sizes ++ tl)).reverse =
          some s3 ∧
        Inv s3 [] [(s.segment_size, false)] ∧ s3.segment_start = s.segment_start ∧
        s3.segment_size = s.segment_size := by
  induction sizes using List.reverseRecOn with
  | nil =>
    intro s live tl hinv htl _
    have hu : useds s.segment_start (used_blocks [] ++ tl) = [] := by
      simp [used_blocks, useds_tail _ _ htl]
    rw [hu]
    refine ⟨s, rfl, ?_, rfl, rfl⟩
    have hlive : live = [] := by
      apply List.eq_nil_iff_forall_not_mem.2
      intro p hp
      have := (hinv.hlive p).1 hp
      rw [hu] at this
      simp at this
    have ht := hinv.htotal
    have hpos := hinv.hpos
    rcases htl with rfl | ⟨R, rfl⟩
    · simp [used_blocks, total] at ht
      omega
    · simp [used_blocks, total] at ht
      subst hlive
      rw [← ht]
      simpa [used_blocks] using hinv
  | append_singleton xs x ih =>
    intro s live tl hinv htl hf
    rw [used_blocks_snoc] at hinv ⊢
    have hu : useds s.segment_start (used_blocks xs ++ (x, true) :: tl) =
        useds s.segment_start (used_blocks xs) ++
          [s.segment_start + total (used_blocks xs) + 8] := by
      rw [useds_split_used, useds_tail _ _ htl]
    rw [hu]
    simp only [List.reverse_append, List.reverse_cons, List.reverse_nil, List.nil_append,
      List.singleton_append]
    obtain ⟨h1, m1, hrun, hinv1, -⟩ := myfree_spec s live (used_blocks xs) tl x fuel hinv hf
    obtain ⟨R2, hshape⟩ := coalesced_stack xs x tl htl
    rw [hshape] at hinv1
    obtain ⟨s3, hrun3, hinv3, hst3, hsi3⟩ := ih _ _ [(R2, false)] hinv1 (Or.inr ⟨_, rfl⟩) hf
    refine ⟨s3, ?_, hinv3, hst3, hsi3⟩
    unfold free_all
    rw [hrun, Option.some_bind]
    have hu2 : useds s.segment_start (used_blocks xs ++ [(R2, false)]) =
        useds s.segment_start (used_blocks xs) := by
      rw [useds_append]
      simp [useds]
    simp only [hu2] at hrun3
    exact hrun3

/-- Releasing distinct live allocations one after the other always returns and keeps the
invariant; exactly the released pointers leave the live list. -/
theorem free_all_inv (fuel : Nat) (qs : List Nat) :
    ∀ (s : Heap) (live : List Nat) (bs : List (Nat × Bool)),
      Inv s live bs → qs.Nodup → (∀ q ∈ qs, q ∈ live) → s.segment_size ≤ fuel →
      ∃ s3 live3 bs3, free_all fuel s qs = some s3 ∧ Inv s3 live3 bs3 ∧
        (∀ p, p ∈ live3 ↔ (p ∈ live ∧ p ∉ qs)) ∧
        s3.segment_start = s.segment_start ∧ s3.segment_size = s.segment_size := by
  induction qs with
  | nil =>
    intro s live bs hinv _ _ _
    exact ⟨s, live, bs, rfl, hinv, by simp, rfl, rfl⟩
  | cons q qs ih =>
    intro s live bs hinv hnd hin hf
    obtain ⟨s1, bs1, hrun, hinv1, hst1, hsi1, -⟩ :=
      myfree_inv fuel s live bs q hinv (hin q (List.mem_cons_self _ _)) hf
    have hnd2 := List.nodup_cons.1 hnd
    obtain ⟨s3, live3, bs3, hrun3, hinv3, hl3, hst3, hsi3⟩ :=
      ih s1 (live.erase q) bs1 hinv1 hnd2.2
        (fun r hr => (List.mem_erase_of_ne (fun (e : r = q) => hnd2.1 (e ▸ hr))).2
          (hin r (List.mem_cons_of_mem _ hr)))
        (by omega)
    refine ⟨s3, live3, bs3, ?_, hinv3, ?_, hst3.trans hst1, hsi3.trans hsi1⟩
    · unfold free_all
      rw [hrun, Option.some_bind]
      exact hrun3
    · intro p
      rw [hl3 p, hinv.hnodup.mem_erase_iff]
      simp only [List.mem_cons, not_or]
      tauto

theorem useds_nodup (bs : List (Nat × Bool)) (a : Nat) (hs : Sizes bs) :
    (useds a bs).Nodup := by
  induction bs generalizing a with
  | nil => simp [useds]
  | cons b l ih =>
    have hs2 := (sizes_cons _ _).1 hs
    simp only [useds]
    split
    · refine List.nodup_cons.2 ⟨fun h => ?_, ih _ hs2.2⟩
      have := mem_useds_bounds _ _ _ hs2.2 h
      omega
    · exact ih _ hs2.2

theorem all_free (bs : List (Nat × Bool)) (a : Nat) (h : useds a bs = []) :
    ∀ b ∈ bs, b.2 = false := by
  induction bs generalizing a with
  | nil => simp
  | cons b l ih =>
    simp only [useds] at h
    cases hb : b.2 with
    | true => simp [hb] at h
    | false =>
      simp only [hb] at h
      intro c hc
      rcases List.mem_cons.1 hc with rfl | hc
      · exact hb
      · exact ih _ (by simpa using h) c hc

theorem frees_all_free (bs : List (Nat × Bool)) (a : Nat) (h : ∀ b ∈ bs, b.2 = false) :
    frees a bs = (hdrs a bs).map (fun x => x + 8) := by
  induction bs generalizing a with
  | nil => simp [frees, hdrs]
  | cons b l ih =>
    have hb := h b (List.mem_cons_self _ _)
    simp only [frees, hdrs, hb, List.map_cons]
    rw [ih _ (fun c hc => h c (List.mem_cons_of_mem _ hc))]
    simp

/-- State right after `myinit`: one free block spanning the segment. -/
theorem myinit_inv (fuel : Nat) (s0 s1 : Heap) (start size : Nat) (h24 : 24 ≤ size)
    (h8 : size % 8 = 0) (hlt : start + size < WORD)
    (hinit : myinit fuel s0 start size = some (s1, true)) :
    Inv s1 [] [(size, false)] ∧ s1.segment_start = start ∧ s1.segment_size = size := by
  obtain ⟨m1, hrun1, hinv1, -⟩ := myinit_spec s0 start size (max fuel 2) h24 h8 hlt
    (Nat.le_max_right _ _)
  have := myinit_mono _ _ _ _ _ _ hinit (Nat.le_max_left fuel 2)
  rw [hrun1] at this
  obtain ⟨rfl⟩ := Prod.mk.inj (Option.some.inj this) |>.1
  exact ⟨hinv1, rfl, rfl⟩

/-- C11 (amended): after `myinit` and N consecutive successful `mymalloc` calls, releasing
the N pointers in the reverse of the allocation order (highest address first) leaves exactly
one block in the segment, free, whose header records `heap_size` and which is the only
node of the free list; releasing them in any order (every permutation) always returns and
leaves every block of the segment free, with the free list visiting exactly the blocks of
the walk in address order. -/
theorem release_all_restores (fuel M start size : Nat) (s0 s1 s2 : Heap) (ns ps : List Nat)
    (h24 : 24 ≤ size) (h8 : size % 8 = 0) (hlt : start + size < WORD) (hf : size ≤ fuel)
    (hinit : myinit fuel s0 start size = some (s1, true))
    (hall : malloc_all fuel M s1 ns = some (s2, ps)) (hok : ∀ p ∈ ps, p ≠ 0) :
    (∃ s3, free_all fuel s2 ps.reverse = some s3 ∧
      walk_blocks s3.mem s3.segment_end s3.segment_size s3.segment_start = some [start] ∧
      IS_FREE s3.mem start = true ∧ GET_SIZE s3.mem start = size ∧
      walk_free s3.mem s3.segment_size s3.head_of_free_list = some [start + HEADER_SIZE]) ∧
    (∀ qs, qs.Perm ps →
      ∃ s3 hs, free_all fuel s2 qs = some s3 ∧
        walk_blocks s3.mem s3.segment_end s3.segment_size s3.segment_start = some hs ∧
        (∀ h ∈ hs, IS_FREE s3.mem h = true) ∧
        walk_free s3.mem s3.segment_size s3.head_of_free_list =
          some (hs.map (fun h => h + HEADER_SIZE))) := by
  obtain ⟨hinv1, hst1, hsi1⟩ := myinit_inv fuel s0 s1 start size h24 h8 hlt hinit
  have hinv1b : Inv s1 [] (used_blocks [] ++ [(size, false)]) := by
    simpa [used_blocks] using hinv1
  obtain ⟨live2, sizes2, tl2, hinv2, htl2, hus2, hst2, hsi2⟩ :=
    malloc_all_stack fuel M ns s1 [] [] [(size, false)] s2 ps hinv1b (Or.inr ⟨_, rfl⟩)
      (by omega) hall hok
  have hps : useds s2.segment_start (used_blocks sizes2 ++ tl2) = ps := by
    rw [hus2]
    simp [used_blocks, useds]
  constructor
  · obtain ⟨s3, hrun3, hinv3, hst3, hsi3⟩ :=
      free_all_stack fuel sizes2 s2 live2 tl2 hinv2 htl2 (by omega)
    rw [hps] at hrun3
    have hw := inv_walks s3 [] _ hinv3
    have hs3 : s3.segment_start = start := by omega
    have hz3 : s2.segment_size = size := by omega
    simp only [hdrs, frees] at hw
    have hlay := hinv3.layout
    rw [hz3] at hlay
    subst hs3
    have hhdr : s3.mem s3.segment_start = hdr_word (size, false) := hlay.1
    refine ⟨s3, hrun3, hw.1, ?_, ?_, by simpa [HEADER_SIZE] using hw.2⟩
    · rw [is_free_hdr _ _ _ hhdr h8]
      rfl
    · exact get_size_hdr _ _ _ hhdr h8 (by omega)
  · intro qs hperm
    have hnd : qs.Nodup := by
      rw [hperm.nodup_iff, ← hps]
      exact useds_nodup _ _ hinv2.sizes
    have hin : ∀ q ∈ qs, q ∈ live2 := by
      intro q hq
      rw [hinv2.hlive q, hps]
      exact hperm.mem_iff.1 hq
    obtain ⟨s3, live3, bs3, hrun3, hinv3, hl3, -, -⟩ :=
      free_all_inv fuel qs s2 live2 _ hinv2 hnd hin (by omega)
    have hempty : useds s3.segment_start bs3 = [] := by
      apply List.eq_nil_iff_forall_not_mem.2
      intro p hp
      have h1 := (hl3 p).1 ((hinv3.hlive p).2 hp)
      apply h1.2
      apply hperm.mem_iff.2
      rw [← hps]
      exact (hinv2.hlive p).1 h1.1
    have hfree := all_free bs3 _ hempty
    have hw := inv_walks s3 live3 bs3 hinv3
    refine ⟨s3, _, hrun3, hw.1, ?_, ?_⟩
    · intro h hh
      obtain ⟨b, hb, -, e2⟩ := hdr_lookup s3.mem bs3 _ h hinv3.layout hinv3.sizes
        (by rw [hinv3.htotal]; exact hinv3.hlt) hh
      rw [e2, hfree b hb]
      rfl
    · rw [hw.2, frees_all_free bs3 _ hfree]
      rfl

theorem release_all_restores_witness :
    (24 ≤ 128 ∧ 128 % 8 = 0 ∧ 4096 + 128 < WORD ∧ 128 ≤ 128 ∧
      ∀ p ∈ [4104, 4128], p ≠ 0) ∧
    (∃ s3, free_all 128 two_allocs [4104, 4128].reverse = some s3 ∧
      walk_blocks s3.mem s3.segment_end s3.segment_size s3.segment_start = some [4096] ∧
      IS_FREE s3.mem 4096 = true ∧ GET_SIZE s3.mem 4096 = 128 ∧
      walk_free s3.mem s3.segment_size s3.head_of_free_list = some [4096 + HEADER_SIZE]) ∧
    (∀ qs, qs.Perm [4104, 4128] →
      ∃ s3 hs, free_all 128 two_allocs qs = some s3 ∧
        walk_blocks s3.mem s3.segment_end s3.segment_size s3.segment_start = some hs ∧
        (∀ h ∈ hs, IS_FREE s3.mem h = true) ∧
        walk_free s3.mem s3.segment_size s3.head_of_free_list =
          some (hs.map (fun h => h + HEADER_SIZE))) :=
  ⟨by decide, release_all_restores 128 MAX_REQ 4096 128 heap0 (fresh 128) two_allocs [16, 16]
    [4104, 4128] (by decide) (by decide) (by decide) (by decide) rfl rfl (by decide)⟩

/-! ## Scenario D: three adjacent allocations released as B, C, A -/

theorem malloc16_step (fuel M : Nat) (s : Heap) (live : List Nat) (l1 l2 : List (Nat × Bool))
    (S : Nat) (hinv : Inv s live (l1 ++ (S, false) :: l2)) (hf : s.segment_size ≤ fuel)
    (hM : 16 ≤ M) (hcap : s.size_used + 24 ≤ s.segment_size) (hS : 24 ≤ S)
    (hno : ∀ b ∈ l1, b.2 = false → b.1 < 24) :
    ∃ s1, mymalloc fuel M s 16 = some (s1, s.segment_start + total l1 + 8) ∧
      Inv s1 ((s.segment_start + total l1 + 8) :: live) (allocated l1 S 24 l2) ∧
      s1.segment_start = s.segment_start ∧ s1.segment_size = s.segment_size ∧
      s1.size_used = s.size_used + 24 := by
  have hn : size_needed_for 16 = 24 := by decide
  have hlt := hinv.hlt
  obtain ⟨h1, m1, hrun, hinv1, -⟩ := mymalloc_fit fuel M s live l1 l2 S 16 hinv hf hM
    (by rw [hn, Nat.mod_eq_of_lt (by omega)]; omega) (by rw [hn]; exact hS)
    (by rw [hn]; exact hno)
  rw [hn] at hrun hinv1
  refine ⟨_, hrun, hinv1, rfl, rfl, ?_⟩
  show (s.size_used + 24) % WORD = s.size_used + 24
  exact Nat.mod_eq_of_lt (by omega)

theorem free_step (fuel : Nat) (s : Heap) (live : List Nat) (l1 l2 : List (Nat × Bool))
    (S : Nat) (hinv : Inv s live (l1 ++ (S, true) :: l2)) (hf : s.segment_size ≤ fuel) :
    ∃ s1, myfree fuel s (s.segment_start + total l1 + 8) = some s1 ∧
      Inv s1 (live.erase (s.segment_start + total l1 + 8)) (coalesced l1 S l2) ∧
      s1.segment_start = s.segment_start ∧ s1.segment_size = s.segment_size ∧
      s1.size_used = s.size_used := by
  obtain ⟨h1, m1, hrun, hinv1, -⟩ := myfree_spec s live l1 l2 S fuel hinv hf
  exact ⟨_, hrun, hinv1, rfl, rfl, rfl⟩

/-- Header facts read off a block of the abstract list. -/
theorem block_header (s : Heap) (live : List Nat) (l1 l2 : List (Nat × Bool)) (b : Nat × Bool)
    (hinv : Inv s live (l1 ++ b :: l2)) :
    GET_SIZE s.mem (s.segment_start + total l1) = b.1 ∧
    IS_FREE s.mem (s.segment_start + total l1) = !b.2 := by
  have hsz2 := (sizes_append _ _).1 hinv.sizes
  have hsz3 := (sizes_cons _ _).1 hsz2.2
  have hlay2 := (layout_append _ _ _ _).1 hinv.layout
  have hhdr : s.mem (s.segment_start + total l1) = hdr_word b := hlay2.2.1
  have hlt : b.1 < WORD := by
    have h1 := hinv.htotal
    have h2 := hinv.hlt
    rw [total_append] at h1
    simp only [total] at h1
    omega
  exact ⟨get_size_hdr _ _ _ hhdr hsz3.1.2 hlt, is_free_hdr _ _ _ hhdr hsz3.1.2⟩

/-- C12 (amended): after `myinit` on a 1024-byte segment and three `mymalloc(16)` calls
returning the adjacent blocks A, B, C, `myfree(B)` then `myfree(C)` leaves B a free block of
its own 24 bytes and C merged with the free remainder behind it (header at C records
24 + 952 = 976), B and C staying two free blocks; a following `myfree(A)` merges A with B
only: the segment then holds two free blocks, A+B of 48 bytes and C of 976 bytes, both in
the free list in address order. -/
theorem scenario_d (fuel M start : Nat) (s0 : Heap) (hlt : start + 1024 < WORD)
    (hM : 16 ≤ M) (hf : 1024 ≤ fuel) :
    ∃ s1 s2 s3 s4 s5 s6 s7,
      myinit fuel s0 start 1024 = some (s1, true) ∧
      mymalloc fuel M s1 16 = some (s2, start + 8) ∧
      mymalloc fuel M s2 16 = some (s3, start + 32) ∧
      mymalloc fuel M s3 16 = some (s4, start + 56) ∧
      myfree fuel s4 (start + 32) = some s5 ∧
      myfree fuel s5 (start + 56) = some s6 ∧
      walk_blocks s6.mem s6.segment_end s6.segment_size s6.segment_start =
        some [start, start + 24, start + 48] ∧
      IS_FREE s6.mem (start + 24) = true ∧ GET_SIZE s6.mem (start + 24) = 24 ∧
      IS_FREE s6.mem (start + 48) = true ∧ GET_SIZE s6.mem (start + 48) = 976 ∧
      myfree fuel s6 (start + 8) = some s7 ∧
      walk_blocks s7.mem s7.segment_end s7.segment_size s7.segment_start =
        some [start, start + 48] ∧
      IS_FREE s7.mem start = true ∧ GET_SIZE s7.mem start = 48 ∧
      IS_FREE s7.mem (start + 48) = true ∧ GET_SIZE s7.mem (start + 48) = 976 ∧
      walk_free s7.mem s7.segment_size s7.head_of_free_list = some [start + 8, start + 56] := by
  obtain ⟨m1, hrun1, hinv1, -⟩ := myinit_spec s0 start 1024 fuel (by omega) (by omega) hlt
    (by omega)
  obtain ⟨s1, hs1⟩ : ∃ s1 : Heap, s1 =
      { segment_start := start, segment_end := start + 1024, segment_size := 1024,
        size_used := 0, head_of_free_list := start + 8, mem := m1 } := ⟨_, rfl⟩
  rw [← hs1] at hrun1 hinv1
  have a1 : s1.segment_start = start := by rw [hs1]
  have z1 : s1.segment_size = 1024 := by rw [hs1]
  have u1 : s1.size_used = 0 := by rw [hs1]
  -- three allocations
  obtain ⟨s2, hrun2, hinv2, a2, z2, u2⟩ := malloc16_step fuel M s1 [] [] [] 1024 hinv1
    (by omega) hM (by omega) (by omega) (by simp)
  have e2 : allocated [] 1024 24 [] = [(24, true)] ++ (1000, false) :: [] := by decide
  rw [e2] at hinv2
  obtain ⟨s3, hrun3, hinv3, a3, z3, u3⟩ := malloc16_step fuel M s2 _ [(24, true)] [] 1000 hinv2
    (by omega) hM (by omega) (by omega) (by simp)
  have e3 : allocated [(24, true)] 1000 24 [] =
      [(24, true), (24, true)] ++ (976, false) :: [] := by decide
  rw [e3] at hinv3
  obtain ⟨s4, hrun4, hinv4, a4, z4, u4⟩ :=
    malloc16_step fuel M s3 _ [(24, true), (24, true)] [] 976 hinv3
      (by omega) hM (by omega) (by omega) (by simp)
  have e4 : allocated [(24, true), (24, true)] 976 24 [] =
      [(24, true)] ++ (24, true) :: [(24, true), (952, false)] := by decide
  rw [e4] at hinv4
  -- release B, then C
  obtain ⟨s5, hrun5, hinv5, a5, z5, u5⟩ :=
    free_step fuel s4 _ [(24, true)] [(24, true), (952, false)] 24 hinv4 (by omega)
  have e5 : coalesced [(24, true)] 24 [(24, true), (952, false)] =
      [(24, true), (24, false)] ++ (24, true) :: [(952, false)] := by decide
  rw [e5] at hinv5
  obtain ⟨s6, hrun6, hinv6, a6, z6, u6⟩ :=
    free_step fuel s5 _ [(24, true), (24, false)] [(952, false)] 24 hinv5 (by omega)
  have e6 : coalesced [(24, true), (24, false)] 24 [(952, false)] =
      [] ++ (24, true) :: [(24, false), (976, false)] := by decide
  rw [e6] at hinv6
  -- release A
  obtain ⟨s7, hrun7, hinv7, a7, z7, u7⟩ :=
    free_step fuel s6 _ [] [(24, false), (976, false)] 24 hinv6 (by omega)
  have e7 : coalesced [] 24 [(24, false), (976, false)] = [(48, false), (976, false)] := by
    decide
  rw [e7] at hinv7
  have b6 : s6.segment_start = start := by omega
  have b7 : s7.segment_start = start := by omega
  have w6 := (inv_walks s6 _ _ hinv6).1
  have w7 := inv_walks s7 _ _ hinv7
  have hB := block_header s6 _ [(24, true)] [(976, false)] (24, false) hinv6
  have hC := block_header s6 _ [(24, true), (24, false)] [] (976, false) hinv6
  have hA7 := block_header s7 _ [] [(976, false)] (48, false) hinv7
  have hC7 := block_header s7 _ [(48, false)] [] (976, false) hinv7
  simp only [total, List.nil_append, List.cons_append, hdrs, frees, b6, b7, Nat.add_zero,
    Nat.add_assoc, Nat.reduceAdd, Bool.not_false, Bool.false_eq_true, if_false] at w6 w7 hB hC hA7 hC7
  simp only [total, a1, a2, a3, a4, a5, a6, Nat.add_zero, Nat.add_assoc, Nat.reduceAdd]
    at hrun2 hrun3 hrun4 hrun5 hrun6 hrun7
  exact ⟨s1, s2, s3, s4, s5, s6, s7, hrun1, hrun2, hrun3, hrun4, hrun5, hrun6,
    (by rw [b6]; exact w6), hB.2, hB.1,
    hC.2, hC.1, hrun7, (by rw [b7]; exact w7.1), hA7.2, hA7.1, hC7.2, hC7.1, w7.2⟩

theorem scenario_d_witness :
    (4096 + 1024 < WORD ∧ 16 ≤ MAX_REQ ∧ 1024 ≤ 1024) ∧
    ∃ s1 s2 s3 s4 s5 s6 s7,
      myinit 1024 heap0 4096 1024 = some (s1, true) ∧
      mymalloc 1024 MAX_REQ s1 16 = some (s2, 4096 + 8) ∧
      mymalloc 1024 MAX_REQ s2 16 = some (s3, 4096 + 32) ∧
      mymalloc 1024 MAX_REQ s3 16 = some (s4, 4096 + 56) ∧
      myfree 1024 s4 (4096 + 32) = some s5 ∧
      myfree 1024 s5 (4096 + 56) = some s6 ∧
      walk_blocks s6.mem s6.segment_end s6.segment_size s6.segment_start =
        some [4096, 4096 + 24, 4096 + 48] ∧
      IS_FREE s6.mem (4096 + 24) = true ∧ GET_SIZE s6.mem (4096 + 24) = 24 ∧
      IS_FREE s6.mem (4096 + 48) = true ∧ GET_SIZE s6.mem (4096 + 48) = 976 ∧
      myfree 1024 s6 (4096 + 8) = some s7 ∧
      walk_blocks s7.mem s7.segment_end s7.segment_size s7.segment_start =
        some [4096, 4096 + 48] ∧
      IS_FREE s7.mem 4096 = true ∧ GET_SIZE s7.mem 4096 = 48 ∧
      IS_FREE s7.mem (4096 + 48) = true ∧ GET_SIZE s7.mem (4096 + 48) = 976 ∧
      walk_free s7.mem s7.segment_size s7.head_of_free_list = some [4096 + 8, 4096 + 56] :=
  ⟨by decide, scenario_d 1024 MAX_REQ 4096 heap0 (by decide) (by decide) (by decide)⟩

/-! ## Live allocations and the sizes requested for them -/

theorem map_fst_erase (lv : List (Nat × Nat)) (p n : Nat) (hnd : (lv.map Prod.fst).Nodup)
    (hin : (p, n) ∈ lv) : (lv.erase (p, n)).map Prod.fst = (lv.map Prod.fst).erase p := by
  induction lv with
  | nil => simp at hin
  | cons e l ih =>
    simp only [List.map_cons, List.nodup_cons] at hnd
    by_cases he : e = (p, n)
    · subst he
      simp
    · have hin2 : (p, n) ∈ l := by
        rcases List.mem_cons.1 hin with h | h
        · exact absurd h.symm he
        · exact h
      have hne : e.1 ≠ p := by
        intro h
        apply hnd.1
        rw [h]
        exact List.mem_map.2 ⟨(p, n), hin2, rfl⟩
      rw [List.erase_cons_tail (by simpa using he), List.map_cons, List.map_cons,
        List.erase_cons_tail (by simpa using hne), ih hnd.2 hin2]

/-- Every state reached with recorded request sizes is a reachable state, and the block of
every live allocation has room for its header and the requested bytes. -/
theorem reach_sized_inv (M start size : Nat) (s : Heap) (lv : List (Nat × Nat))
    (h24 : 24 ≤ size) (h8 : size % 8 = 0) (hlt : start + size < WORD) (hM : M + 16 ≤ WORD)
    (hr : ReachSized M start size s lv) :
    Reach M start size s (lv.map Prod.fst) ∧
      ∀ e ∈ lv, e.2 + 8 ≤ GET_SIZE s.mem (GET_HEADER e.1) := by
  induction hr with
  | init fuel s0 s hrun => exact ⟨Reach.init fuel s0 s hrun, by simp⟩
  | malloc fuel n s s1 live p _ hrun ih =>
    obtain ⟨hreach, hsize⟩ := ih
    have hreach1 := Reach.malloc fuel n s s1 _ p hreach hrun
    obtain ⟨bs, hinv, -, -⟩ := reach_inv M start size s _ h24 h8 hlt hM hreach
    have hrun2 := mymalloc_mono _ _ _ _ _ _ hrun (Nat.le_max_left fuel s.segment_size)
    have hf : s.segment_size ≤ max fuel s.segment_size := Nat.le_max_right _ _
    -- the cases in which nothing is written
    have hsame : mymalloc (max fuel s.segment_size) M s n = some (s, 0) →
        Reach M start size s1 ((if p = 0 then live else (p, n) :: live).map Prod.fst) ∧
          ∀ e ∈ (if p = 0 then live else (p, n) :: live),
            e.2 + 8 ≤ GET_SIZE s1.mem (GET_HEADER e.1) := by
      intro h0
      rw [h0] at hrun2
      obtain ⟨rfl, rfl⟩ := Prod.mk.inj (Option.some.inj hrun2)
      rw [if_pos rfl] at hreach1 ⊢
      exact ⟨hreach1, hsize⟩
    by_cases hrej : n > M ∨ (size_needed_for n + s.size_used) % WORD > s.segment_size
    · exact hsame (mymalloc_reject _ M s n hrej)
    rcases first_fit_split bs (size_needed_for n) with hno | ⟨k1, T, k2, hbk, hT, hno⟩
    · exact hsame (mymalloc_nofit _ M s _ bs n hinv hf hno)
    have hinvk : Inv s (live.map Prod.fst) (k1 ++ (T, false) :: k2) := hbk ▸ hinv
    obtain ⟨h1, m1, hrun3, hinv1, hfr1⟩ :=
      mymalloc_fit _ M s _ k1 k2 T n hinvk hf (by omega) (by omega) hT hno
    rw [hrun3] at hrun2
    obtain ⟨hs1, hp⟩ := Prod.mk.inj (Option.some.inj hrun2)
    have hp0 : p ≠ 0 := by omega
    rw [if_neg hp0] at hreach1 ⊢
    refine ⟨by simpa using hreach1, ?_⟩
    have hm1 : s1.mem = m1 := by rw [← hs1]
    have hst1 : s1.segment_start = s.segment_start := by rw [← hs1]
    rw [hs1] at hinv1
    intro e he
    rcases List.mem_cons.1 he with rfl | he
    · -- the new block
      obtain ⟨Sq, k3, hall, hsq⟩ := allocated_split k1 k2 T (size_needed_for n)
      have hSq : size_needed_for n ≤ Sq := by
        rcases hsq with ⟨_, e⟩ | ⟨_, e, _⟩ <;> omega
      rw [hall] at hinv1
      have hb := (block_header s1 _ k1 k3 (Sq, true) hinv1).1
      have hge := size_needed_ge n (by omega)
      have hrn := roundup_small n (by omega)
      have hg : GET_HEADER p = s1.segment_start + total k1 := by
        rw [← hp, hst1]
        simp [GET_HEADER, HEADER_SIZE]
      simp only
      rw [hg, hb]
      simp only
      omega
    · -- an older block keeps its header
      have hmem : e.1 ∈ live.map Prod.fst := List.mem_map.2 ⟨e, he, rfl⟩
      obtain ⟨l1, S, l2, hbl, -, hgh, -, -, -, -⟩ := live_block s _ bs e.1 hinv hmem
      have hpos := block_positions l1 l2 k1 k2 (S, true) (T, false) (hbl.symm.trans hbk)
      have hpos2 : total l1 + S ≤ total k1 ∨ total k1 + T ≤ total l1 := by
        rcases hpos with ⟨-, e⟩ | e | e
        · simp at e
        · exact Or.inl e
        · exact Or.inr e
      have hS24 := ((sizes_cons _ _).1 ((sizes_append _ _).1 (hbl ▸ hinv.sizes)).2).1.1
      simp only at hS24
      have hin : s.segment_start + total l1 ∈ hdrs s.segment_start (k1 ++ (T, false) :: k2) := by
        rw [← hbk, hbl]
        exact hdr_mem_split l1 l2 (S, true) s.segment_start
      have hkeep : s1.mem (GET_HEADER e.1) = s.mem (GET_HEADER e.1) := by
        rw [hm1, hgh]
        apply hfr1
        · omega
        · intro x hx
          have := frees_not_hdr _ _ x hinvk.sizes hx
          constructor
          · intro e2
            exact this.1 (e2 ▸ hin)
          · intro e2
            exact this.2 (e2 ▸ hin)
      rw [get_size_congr _ _ _ hkeep]
      exact hsize e he
  | free fuel s s1 live p n _ hin hrun ih =>
    obtain ⟨hreach, hsize⟩ := ih
    have hpm : p ∈ live.map Prod.fst := List.mem_map.2 ⟨(p, n), hin, rfl⟩
    have hreach1 := Reach.free fuel s s1 _ p hreach hpm hrun
    obtain ⟨bs, hinv, -, -⟩ := reach_inv M start size s _ h24 h8 hlt hM hreach
    have hmap := map_fst_erase live p n hinv.hnodup hin
    rw [← hmap] at hreach1
    refine ⟨hreach1, ?_⟩
    intro e he
    have he1 : e.1 ∈ (live.map Prod.fst).erase p := by
      rw [← hmap]
      exact List.mem_map.2 ⟨e, he, rfl⟩
    have he2 := (hinv.hnodup.mem_erase_iff).1 he1
    have hel : e ∈ live := List.mem_of_mem_erase he
    obtain ⟨l1, S, l2, hbl, hpe, -, -, -, -, -⟩ := live_block s _ bs p hinv hpm
    obtain ⟨j1, S2, j2, hbj, hee, hgh, -, -, -, -⟩ := live_block s _ bs e.1 hinv he2.2
    have hinvl : Inv s (live.map Prod.fst) (l1 ++ (S, true) :: l2) := hbl ▸ hinv
    obtain ⟨s2, hrun2, -, -, -, -, -, -, hkeep⟩ :=
      myfree_cases s _ l1 l2 S (max fuel s.segment_size) hinvl (Nat.le_max_right _ _)
    have hrun3 := myfree_mono _ _ _ _ _ hrun (Nat.le_max_left fuel s.segment_size)
    rw [← hpe, hrun3] at hrun2
    obtain rfl := Option.some.inj hrun2
    have hin2 : s.segment_start + total j1 ∈ hdrs s.segment_start (l1 ++ (S, true) :: l2) := by
      rw [← hbl, hbj]
      exact hdr_mem_split j1 j2 (S2, true) s.segment_start
    have hk := hkeep _ hin2 (by
      intro e2
      apply he2.1
      rw [hee, hpe, e2])
    rw [hgh, get_size_congr _ _ _ hk, ← hgh]
    exact hsize e hel

theorem reach_sized_two_allocs :
    ReachSized MAX_REQ 4096 128 two_allocs [(4128, 16), (4104, 16)] :=
  ReachSized.malloc 64 16 (after_malloc (fresh 128) 16) two_allocs [(4104, 16)] 4128
    (ReachSized.malloc 64 16 (fresh 128) (after_malloc (fresh 128) 16) [] 4104
      (ReachSized.init 2 heap0 (fresh 128) rfl) rfl) rfl

/-- C21: after `myinit` (heap size a multiple of 8, at least 24) and any sequence of
`mymalloc` / `myfree` calls on live allocations, every live allocation `p` obtained from
`mymalloc(n)` is the payload of an allocated block of the block walk whose header size is at
least `n + HEADER_SIZE`; the bytes `[p, p + n)` lie inside `[heap, heap + heap_size)`, and
none of them belongs to the 8 bytes of a block header or to the 16 bytes of the `prev` and
`next` fields of a free-list node; the byte ranges of two distinct live allocations are
disjoint. -/
theorem live_ranges_disjoint (M start size : Nat) (s : Heap) (lv : List (Nat × Nat))
    (h24 : 24 ≤ size) (h8 : size % 8 = 0) (hlt : start + size < WORD) (hM : M + 16 ≤ WORD)
    (hr : ReachSized M start size s lv) :
    ∃ hs fl,
      walk_blocks s.mem s.segment_end s.segment_size s.segment_start = some hs ∧
      walk_free s.mem s.segment_size s.head_of_free_list = some fl ∧
      (∀ e ∈ lv,
        GET_HEADER e.1 ∈ hs ∧ e.1 = GET_HEADER e.1 + HEADER_SIZE ∧
        IS_FREE s.mem (GET_HEADER e.1) = false ∧
        e.2 + HEADER_SIZE ≤ GET_SIZE s.mem (GET_HEADER e.1) ∧
        start ≤ e.1 ∧ e.1 + e.2 ≤ start + size ∧
        ∀ w, e.1 ≤ w → w < e.1 + e.2 →
          (∀ h ∈ hs, w < h ∨ h + HEADER_SIZE ≤ w) ∧
          (∀ x ∈ fl, w < x ∨ x + SIZEOF_NODE ≤ w)) ∧
      (∀ e1 ∈ lv, ∀ e2 ∈ lv, e1 ≠ e2 → e1.1 + e1.2 ≤ e2.1 ∨ e2.1 + e2.2 ≤ e1.1) := by
  obtain ⟨hreach, hsize⟩ := reach_sized_inv M start size s lv h24 h8 hlt hM hr
  obtain ⟨bs, hinv, hst, hsi⟩ := reach_inv M start size s _ h24 h8 hlt hM hreach
  have hw := inv_walks s _ bs hinv
  have htot := hinv.htotal
  refine ⟨_, _, hw.1, hw.2, ?_, ?_⟩
  · intro e he
    have hmem : e.1 ∈ lv.map Prod.fst := List.mem_map.2 ⟨e, he, rfl⟩
    obtain ⟨l1, S, l2, hbl, hpe, hgh, hgs, hfree, -, -⟩ := live_block s _ bs e.1 hinv hmem
    have hsz := hsize e he
    rw [hgs] at hsz
    have hszs := (sizes_append _ _).1 (hbl ▸ hinv.sizes)
    have hszs2 := (sizes_cons _ _).1 hszs.2
    rw [hbl, total_append] at htot
    simp only [total] at htot
    refine ⟨?_, ?_, hfree, ?_, by omega, by omega, ?_⟩
    · rw [hgh, hbl]
      exact hdr_mem_split l1 l2 (S, true) s.segment_start
    · rw [hgh, hpe]
      rfl
    · rw [hgs]
      exact hsz
    · intro w hw1 hw2
      constructor
      · intro h hh
        rw [hbl, hdrs_split] at hh
        unfold HEADER_SIZE
        rcases List.mem_append.1 hh with h1 | h1
        · have := mem_hdrs_bounds _ _ _ hszs.1 h1
          omega
        · rcases List.mem_cons.1 h1 with h1 | h1
          · omega
          · have := mem_hdrs_bounds _ _ _ hszs2.2 h1
            simp only at this
            omega
      · intro x hx
        rw [hbl, frees_split_used] at hx
        unfold SIZEOF_NODE
        rcases List.mem_append.1 hx with h1 | h1
        · have := mem_frees_bounds _ _ _ hszs.1 h1
          omega
        · have := mem_frees_bounds _ _ _ hszs2.2 h1
          omega
  · intro e1 he1 e2 he2 hne
    have hp : e1.1 ≠ e2.1 := fun h =>
      hne (List.inj_on_of_nodup_map hinv.hnodup he1 he2 h)
    obtain ⟨l1, S, l2, hbl, hpe, -, hgs, -, -, -⟩ :=
      live_block s _ bs e1.1 hinv (List.mem_map.2 ⟨e1, he1, rfl⟩)
    obtain ⟨j1, S2, j2, hbj, hqe, -, hgs2, -, -, -⟩ :=
      live_block s _ bs e2.1 hinv (List.mem_map.2 ⟨e2, he2, rfl⟩)
    have hs1 := hsize e1 he1
    have hs2 := hsize e2 he2
    rw [hgs] at hs1
    rw [hgs2] at hs2
    rcases block_positions l1 l2 j1 j2 (S, true) (S2, true) (hbl.symm.trans hbj) with
      ⟨e, -⟩ | e | e
    · exfalso
      apply hp
      rw [hpe, hqe, e]
    · simp only at e
      omega
    · simp only at e
      omega

theorem live_ranges_disjoint_witness :
    (24 ≤ 128 ∧ 128 % 8 = 0 ∧ 4096 + 128 < WORD ∧ MAX_REQ + 16 ≤ WORD) ∧
    ∃ hs fl,
      walk_blocks two_allocs.mem two_allocs.segment_end two_allocs.segment_size
        two_allocs.segment_start = some hs ∧
      walk_free two_allocs.mem two_allocs.segment_size two_allocs.head_of_free_list =
        some fl ∧
      (∀ e ∈ [(4128, 16), (4104, 16)],
        GET_HEADER e.1 ∈ hs ∧ e.1 = GET_HEADER e.1 + HEADER_SIZE ∧
        IS_FREE two_allocs.mem (GET_HEADER e.1) = false ∧
        e.2 + HEADER_SIZE ≤ GET_SIZE two_allocs.mem (GET_HEADER e.1) ∧
        4096 ≤ e.1 ∧ e.1 + e.2 ≤ 4096 + 128 ∧
        ∀ w, e.1 ≤ w → w < e.1 + e.2 →
          (∀ h ∈ hs, w < h ∨ h + HEADER_SIZE ≤ w) ∧
          (∀ x ∈ fl, w < x ∨ x + SIZEOF_NODE ≤ w)) ∧
      (∀ e1 ∈ [(4128, 16), (4104, 16)], ∀ e2 ∈ [(4128, 16), (4104, 16)], e1 ≠ e2 →
        e1.1 + e1.2 ≤ e2.1 ∨ e2.1 + e2.2 ≤ e1.1) :=
  ⟨by decide, live_ranges_disjoint MAX_REQ 4096 128 two_allocs [(4128, 16), (4104, 16)]
    (by decide) (by decide) (by decide) (by decide) reach_sized_two_allocs⟩

/-! ## The theorems on states with several blocks and with data in the payloads -/

theorem reach_pat_alloc : Reach MAX_REQ 4096 128 pat_alloc [4104] :=
  Reach.malloc 64 24 (pat_fresh 128) pat_alloc [] 4104
    (Reach.init 2 heap_pat (pat_fresh 128) rfl) rfl

theorem reach_full_heap : Reach MAX_REQ 4096 72 full_heap [4128, 4104] :=
  Reach.malloc 64 16 (after_malloc (fresh 72) 16) full_heap [4104] 4128
    (Reach.malloc 64 16 (fresh 72) (after_malloc (fresh 72) 16) [] 4104
      (reach_fresh 72 rfl) rfl) rfl

theorem free_list_invariant_witness :
    (24 ≤ 1024 ∧ 1024 % 8 = 0 ∧ 4096 + 1024 < WORD ∧ MAX_REQ + 16 ≤ WORD ∧
      walk_blocks b_released.mem b_released.segment_end b_released.segment_size
        b_released.segment_start = some [4096, 4120, 4144, 4168] ∧
      walk_free b_released.mem b_released.segment_size b_released.head_of_free_list =
        some [4128, 4176] ∧
      IS_FREE b_released.mem 4096 = false ∧ IS_FREE b_released.mem 4144 = false) ∧
    ∃ hs L, walk_blocks b_released.mem b_released.segment_end b_released.segment_size
        b_released.segment_start = some hs ∧
      walk_free b_released.mem b_released.segment_size b_released.head_of_free_list =
        some L ∧
      L = ((hs.filter (fun h => IS_FREE b_released.mem h)).map (fun h => h + HEADER_SIZE)) ∧
      L.Pairwise (fun a b => a < b) ∧ L.Nodup ∧
      List.Chain' (fun a b => get_prev_free b_released b = a) L :=
  ⟨by decide, free_list_invariant MAX_REQ 4096 1024 b_released [4152, 4104] (by decide)
    (by decide) (by decide) (by decide) reach_b_released⟩

theorem first_fit_witness :
    ((24 ≤ 1024 ∧ 1024 % 8 = 0 ∧ 4096 + 1024 < WORD ∧ MAX_REQ + 16 ≤ WORD ∧ 24 ≤ MAX_REQ ∧
      (size_needed_for 24 + b_released.size_used) % WORD ≤ b_released.segment_size ∧
      b_released.segment_size ≤ 1024 ∧
      size_needed_for 24 = 32 ∧
      IS_FREE b_released.mem 4120 = true ∧ GET_SIZE b_released.mem 4120 = 24 ∧
      IS_FREE b_released.mem 4168 = true ∧ GET_SIZE b_released.mem 4168 = 952 ∧
      (mymalloc 1024 MAX_REQ b_released 24).map Prod.snd = some 4176) ∧
    size_needed_for 24 = max (roundup 24 ALIGNMENT + HEADER_SIZE) MIN_PAYLOAD_SIZE ∧
    ∃ s1 p hs, mymalloc 1024 MAX_REQ b_released 24 = some (s1, p) ∧
      walk_blocks b_released.mem b_released.segment_end b_released.segment_size
        b_released.segment_start = some hs ∧
      (p = 0 ↔ ∀ h ∈ hs, IS_FREE b_released.mem h = true →
        GET_SIZE b_released.mem h < size_needed_for 24) ∧
      (p ≠ 0 → GET_HEADER p ∈ hs ∧ p = GET_HEADER p + HEADER_SIZE ∧
        IS_FREE b_released.mem (GET_HEADER p) = true ∧
        size_needed_for 24 ≤ GET_SIZE b_released.mem (GET_HEADER p) ∧
        ∀ h ∈ hs, IS_FREE b_released.mem h = true →
          size_needed_for 24 ≤ GET_SIZE b_released.mem h → GET_HEADER p ≤ h)) ∧
    ((24 ≤ 72 ∧ 72 % 8 = 0 ∧ 4096 + 72 < WORD ∧ MAX_REQ + 16 ≤ WORD ∧ 16 ≤ MAX_REQ ∧
      (size_needed_for 16 + full_heap.size_used) % WORD ≤ full_heap.segment_size ∧
      full_heap.segment_size ≤ 72 ∧
      walk_blocks full_heap.mem full_heap.segment_end full_heap.segment_size
        full_heap.segment_start = some [4096, 4120] ∧
      IS_FREE full_heap.mem 4096 = false ∧ IS_FREE full_heap.mem 4120 = false ∧
      (mymalloc 72 MAX_REQ full_heap 16).map Prod.snd = some 0) ∧
    size_needed_for 16 = max (roundup 16 ALIGNMENT + HEADER_SIZE) MIN_PAYLOAD_SIZE ∧
    ∃ s1 p hs, mymalloc 72 MAX_REQ full_heap 16 = some (s1, p) ∧
      walk_blocks full_heap.mem full_heap.segment_end full_heap.segment_size
        full_heap.segment_start = some hs ∧
      (p = 0 ↔ ∀ h ∈ hs, IS_FREE full_heap.mem h = true →
        GET_SIZE full_heap.mem h < size_needed_for 16) ∧
      (p ≠ 0 → GET_HEADER p ∈ hs ∧ p = GET_HEADER p + HEADER_SIZE ∧
        IS_FREE full_heap.mem (GET_HEADER p) = true ∧
        size_needed_for 16 ≤ GET_SIZE full_heap.mem (GET_HEADER p) ∧
        ∀ h ∈ hs, IS_FREE full_heap.mem h = true →
          size_needed_for 16 ≤ GET_SIZE full_heap.mem h → GET_HEADER p ≤ h)) :=
  ⟨⟨by decide, first_fit MAX_REQ 4096 1024 b_released [4152, 4104] 24 1024 (by decide)
      (by decide) (by decide) (by decide) reach_b_released (by decide) (by decide) (by decide)⟩,
    ⟨by decide, first_fit MAX_REQ 4096 72 full_heap [4128, 4104] 16 72 (by decide)
      (by decide) (by decide) (by decide) reach_full_heap (by decide) (by decide) (by decide)⟩⟩

theorem resize_preserves_contents_witness :
    (24 ≤ 128 ∧ 128 % 8 = 0 ∧ 4096 + 128 < WORD ∧ MAX_REQ + 16 ≤ WORD ∧
      4104 ∈ [4104] ∧ pat_alloc.segment_size ≤ 128 ∧
      GET_SIZE pat_alloc.mem (GET_HEADER 4104) = 32 ∧
      pat_alloc.mem (4104 + 8 * 2) = 4121 ∧ pat_alloc.mem (4136 + 8 * 2) = 4153 ∧
      (myrealloc 128 MAX_REQ pat_alloc 4104 24).map Prod.snd = some 4136) ∧
    ∃ s1 q, myrealloc 128 MAX_REQ pat_alloc 4104 24 = some (s1, q) ∧
      (q ≠ 0 → ∀ k, 8 * k < min (GET_SIZE pat_alloc.mem (GET_HEADER 4104) - HEADER_SIZE) 24 →
        s1.mem (q + 8 * k) = pat_alloc.mem (4104 + 8 * k)) :=
  ⟨by decide, resize_preserves_contents MAX_REQ 4096 128 pat_alloc [4104] 4104 24 128
    (by decide) (by decide) (by decide) (by decide) reach_pat_alloc (by decide) (by decide)⟩

end Explicit

namespace Implicit

open Explicit (WORD HEADER_SIZE ALIGNMENT GET_HEADER GET_SIZE GET_ALLOC IS_FREE SET_ALLOC
  ASSIGN NEXT_BLOCK roundup Layout total hdrs useds hdr_word MAX_REQ)

/-! ## Implicit strategy: the tiling invariant -/

theorem isizes_cons (b : Nat × Bool) (bs : List (Nat × Bool)) :
    Sizes (b :: bs) ↔ (8 ≤ b.1 ∧ b.1 % 8 = 0) ∧ Sizes bs := by
  simp [Sizes]

theorem isizes_append (l1 l2 : List (Nat × Bool)) : Sizes (l1 ++ l2) ↔ Sizes l1 ∧ Sizes l2 := by
  simp only [Sizes, List.mem_append]
  constructor
  · intro h
    exact ⟨fun b hb => h b (Or.inl hb), fun b hb => h b (Or.inr hb)⟩
  · rintro ⟨h1, h2⟩ b (hb | hb)
    · exact h1 b hb
    · exact h2 b hb

theorem ihdrs_bounds (bs : List (Nat × Bool)) (a h : Nat) (hs : Sizes bs)
    (hh : h ∈ hdrs a bs) : a ≤ h ∧ h + 8 ≤ a + total bs := by
  induction bs generalizing a with
  | nil => simp [hdrs] at hh
  | cons b l ih =>
    rw [isizes_cons] at hs
    simp only [hdrs, List.mem_cons] at hh
    simp only [total]
    rcases hh with rfl | hh
    · omega
    · have := ih _ hs.2 hh
      omega

theorem iuseds_bounds (bs : List (Nat × Bool)) (a x : Nat) (hs : Sizes bs)
    (hx : x ∈ useds a bs) : a + 8 ≤ x ∧ x ≤ a + total bs := by
  induction bs generalizing a with
  | nil => simp [useds] at hx
  | cons b l ih =>
    rw [isizes_cons] at hs
    simp only [total]
    simp only [useds] at hx
    split at hx
    · rcases List.mem_cons.1 hx with rfl | hx
      · omega
      · have := ih _ hs.2 hx
        omega
    · have := ih _ hs.2 hx
      omega

theorem ilength_le_total (bs : List (Nat × Bool)) (hs : Sizes bs) :
    8 * bs.length ≤ total bs := by
  induction bs with
  | nil => simp [total]
  | cons b l ih =>
    rw [isizes_cons] at hs
    have := ih hs.2
    simp only [List.length_cons, total]
    omega

theorem inv_mem (s : Heap) (live : List Nat) (bs : List (Nat × Bool)) (m1 : Nat → Nat)
    (hinv : Inv s live bs) (hh : ∀ h ∈ hdrs s.segment_start bs, m1 h = s.mem h) :
    Inv { s with mem := m1 } live bs where
  hend := hinv.hend
  hlt := hinv.hlt
  sizes := hinv.sizes
  layout := Explicit.layout_frame s.mem m1 bs s.segment_start hinv.layout hh
  htotal := hinv.htotal
  hlive := hinv.hlive
  hnodup := hinv.hnodup
  used := hinv.used

/-- Header facts of a block of the abstract list. -/
theorem iblock_header (s : Heap) (live : List Nat) (l1 l2 : List (Nat × Bool)) (b : Nat × Bool)
    (hinv : Inv s live (l1 ++ b :: l2)) :
    s.mem (s.segment_start + total l1) = hdr_word b ∧
    GET_SIZE s.mem (s.segment_start + total l1) = b.1 ∧
    IS_FREE s.mem (s.segment_start + total l1) = !b.2 ∧
    8 ≤ b.1 ∧ b.1 % 8 = 0 ∧ b.1 < WORD := by
  have hsz2 := (isizes_append _ _).1 hinv.sizes
  have hsz3 := (isizes_cons _ _).1 hsz2.2
  have hlay2 := (Explicit.layout_append _ _ _ _).1 hinv.layout
  have hhdr : s.mem (s.segment_start + total l1) = hdr_word b := hlay2.2.1
  have hlt : b.1 < WORD := by
    have h1 := hinv.htotal
    have h2 := hinv.hlt
    rw [Explicit.total_append] at h1
    simp only [total] at h1
    omega
  exact ⟨hhdr, Explicit.get_size_hdr _ _ _ hhdr hsz3.1.2 hlt,
    Explicit.is_free_hdr _ _ _ hhdr hsz3.1.2, hsz3.1.1, hsz3.1.2, hlt⟩

theorem set_header_free (m : Nat → Nat) (p sz : Nat) :
    set_header_block m p FREE_HEADER sz = ASSIGN m (GET_HEADER p) (hdr_word (sz, false)) := by
  unfold set_header_block FREE_HEADER
  simp only
  rw [if_neg (by simp)]
  rfl

theorem imyinit_inv (s0 : Heap) (start size : Nat) (h8 : size % 8 = 0) (hpos : 8 ≤ size)
    (hlt : start + size < WORD) :
    Inv (myinit s0 start size).1 [] [(size, false)] ∧
    (myinit s0 start size).1.segment_start = start ∧
    (myinit s0 start size).1.segment_size = size ∧ (myinit s0 start size).2 = true := by
  refine ⟨?_, rfl, rfl, rfl⟩
  unfold myinit
  simp only
  rw [set_header_free]
  have hg : GET_HEADER (start + HEADER_SIZE) = start := by simp [GET_HEADER, HEADER_SIZE]
  rw [hg]
  exact
    { hend := rfl
      hlt := hlt
      sizes := by
        intro b hb
        obtain rfl := List.mem_singleton.1 hb
        exact ⟨hpos, h8⟩
      layout := ⟨Explicit.assign_same _ _ _, trivial⟩
      htotal := by simp [total]
      hlive := by simp
      hnodup := List.nodup_nil
      used := Nat.zero_le _ }

/-- The search loop returns: `NULL`, or the payload of a free block that is large enough. -/
theorem find_next_block_loop_spec (s : Heap) (need : Nat) (bs : List (Nat × Bool)) :
    ∀ (a fuel : Nat), Layout s.mem a bs → Sizes bs → a + total bs = s.segment_end →
      s.segment_end < WORD → bs.length < fuel →
      ∃ r, find_next_block_loop s need fuel (a + 8) = some r ∧
        (r = 0 ∨ ∃ l1 S l2, bs = l1 ++ (S, false) :: l2 ∧ r = a + total l1 + 8 ∧ need ≤ S) := by
  induction bs with
  | nil =>
    intro a fuel _ _ hend _ hf
    obtain ⟨f, rfl⟩ : ∃ f, fuel = f + 1 := ⟨fuel - 1, by omega⟩
    simp only [total] at hend
    refine ⟨0, ?_, Or.inl rfl⟩
    unfold find_next_block_loop
    rw [if_neg (by omega)]
  | cons b l ih =>
    intro a fuel hlay hsz hend hlt hf
    obtain ⟨f, rfl⟩ : ∃ f, fuel = f + 1 := ⟨fuel - 1, by omega⟩
    have hsz2 := (isizes_cons _ _).1 hsz
    simp only [total] at hend
    have hg : GET_HEADER (a + 8) = a := by simp [GET_HEADER, HEADER_SIZE]
    have hgs : GET_SIZE s.mem a = b.1 :=
      Explicit.get_size_hdr _ _ _ hlay.1 hsz2.1.2 (by omega)
    have hfr : IS_FREE s.mem a = !b.2 := Explicit.is_free_hdr _ _ _ hlay.1 hsz2.1.2
    unfold find_next_block_loop
    by_cases hc : a + 8 + need ≤ s.segment_end
    · rw [if_pos hc, hg]
      by_cases hfit : IS_FREE s.mem a = true ∧ GET_SIZE s.mem a ≥ need
      · rw [if_pos hfit]
        refine ⟨a + 8, rfl, Or.inr ⟨[], b.1, l, ?_, by simp [total], ?_⟩⟩
        · have hb2 : b.2 = false := by
            have := hfit.1
            rw [hfr] at this
            simpa using this
          obtain ⟨S, u⟩ := b
          simp only at hb2
          simp [hb2]
        · rw [← hgs]
          exact hfit.2
      · rw [if_neg hfit]
        have hnb : NEXT_BLOCK s.mem (a + 8) = a + b.1 + 8 := by
          unfold NEXT_BLOCK
          rw [hg, hgs]
          omega
        rw [hnb]
        obtain ⟨r, hr, hcase⟩ := ih (a + b.1) f hlay.2 hsz2.2 (by omega) hlt
          (by simp only [List.length_cons] at hf; omega)
        refine ⟨r, hr, ?_⟩
        rcases hcase with h0 | ⟨l1, S, l2, rfl, hre, hS⟩
        · exact Or.inl h0
        · exact Or.inr ⟨b :: l1, S, l2, rfl, by simp only [total]; omega, hS⟩
    · rw [if_neg hc]
      exact ⟨0, rfl, Or.inl rfl⟩

theorem set_header_alloc (m : Nat → Nat) (hdr S need : Nat) (hm : m hdr = hdr_word (S, false))
    (hS8 : S % 8 = 0) (hSlt : S < WORD) (hn8 : need % 8 = 0) (hle : need ≤ S) :
    set_header_block m (hdr + 8) SET_HEADER need =
      if S - need > 0 then
        ASSIGN (ASSIGN m hdr (hdr_word (need, true))) (hdr + need) (hdr_word (S - need, false))
      else ASSIGN m hdr (hdr_word (need, true)) := by
  have hg : GET_HEADER (hdr + 8) = hdr := by simp [GET_HEADER, HEADER_SIZE]
  have hgs : GET_SIZE m hdr = S := Explicit.get_size_hdr _ _ _ hm hS8 hSlt
  have hleft : (S + WORD - need) % WORD = S - need := by
    have e : S + WORD - need = (S - need) + WORD := by omega
    rw [e, Nat.add_mod_right, Nat.mod_eq_of_lt (by omega)]
  have hw : SET_ALLOC need SET_HEADER = hdr_word (need, true) := rfl
  have hgs1 : GET_SIZE (ASSIGN m hdr (hdr_word (need, true))) hdr = need :=
    Explicit.get_size_hdr _ _ (need, true) (Explicit.assign_same _ _ _) hn8 (by omega)
  have hnb : GET_HEADER (NEXT_BLOCK (ASSIGN m hdr (hdr_word (need, true))) (hdr + 8)) =
      hdr + need := by
    unfold NEXT_BLOCK
    rw [hg, hgs1]
    simp only [GET_HEADER, HEADER_SIZE]
    omega
  unfold set_header_block
  simp only [hg, hgs, hleft, hw, hnb]
  by_cases h : S - need > 0
  · rw [if_pos ⟨rfl, h⟩, if_pos h]
    rfl
  · rw [if_neg (fun hc => h hc.2), if_neg h]

/-- Allocation in the implicit strategy returns and keeps the tiling. -/
theorem imymalloc_inv (fuel M : Nat) (s : Heap) (live : List Nat) (bs : List (Nat × Bool))
    (n : Nat) (hinv : Inv s live bs) (hM : M + 16 ≤ WORD) (hpos : 8 ≤ s.segment_size)
    (hf : s.segment_size ≤ fuel) :
    ∃ s1 q bs1, mymalloc fuel M s n = some (s1, q) ∧
      Inv s1 (if q = 0 then live else q :: live) bs1 ∧
      s1.segment_start = s.segment_start ∧ s1.segment_size = s.segment_size ∧
      (q = 0 → s1 = s) ∧
      (q ≠ 0 → ∃ k1 Sq k2, bs1 = k1 ++ (Sq, true) :: k2 ∧
        q = s1.segment_start + total k1 + 8 ∧ n + 8 ≤ Sq) := by
  by_cases h1 : n > M
  · refine ⟨s, 0, bs, ?_, by simpa using hinv, rfl, rfl, fun _ => rfl, fun h => absurd rfl h⟩
    unfold mymalloc
    rw [if_pos h1]
  obtain ⟨need, hneed⟩ : ∃ need, need = (roundup n ALIGNMENT + HEADER_SIZE) % WORD := ⟨_, rfl⟩
  by_cases h2 : (need + s.size_used) % WORD > s.segment_size
  · refine ⟨s, 0, bs, ?_, by simpa using hinv, rfl, rfl, fun _ => rfl, fun h => absurd rfl h⟩
    unfold mymalloc
    rw [if_neg h1]
    simp only
    rw [← hneed, if_pos h2]
  have hlen := ilength_le_total bs hinv.sizes
  have htot := hinv.htotal
  have hend := hinv.hend
  have hlt := hinv.hlt
  obtain ⟨r, hr, hcase⟩ := find_next_block_loop_spec s need bs s.segment_start fuel hinv.layout
    hinv.sizes (by omega) (by omega) (by omega)
  have hrun : mymalloc fuel M s n = some
      (if r ≠ 0 then
        ({ s with mem := set_header_block s.mem r SET_HEADER need
                  size_used := (s.size_used + need) % WORD }, r)
      else (s, 0)) := by
    unfold mymalloc
    rw [if_neg h1]
    simp only
    rw [← hneed, if_neg h2]
    unfold find_next_block
    have e : s.segment_start + HEADER_SIZE = s.segment_start + 8 := rfl
    rw [e, hr]
    rfl
  rcases hcase with rfl | ⟨l1, S, l2, rfl, hre, hS⟩
  · refine ⟨s, 0, bs, ?_, by simpa using hinv, rfl, rfl, fun _ => rfl, fun h => absurd rfl h⟩
    rw [hrun]
    simp
  have hr0 : r ≠ 0 := by omega
  rw [if_pos hr0] at hrun
  -- the size needed
  have hrs := Explicit.roundup_small n (by omega)
  have hrf := Explicit.roundup_facts n
  have hnv : need = roundup n ALIGNMENT + 8 := by
    rw [hneed]
    exact Nat.mod_eq_of_lt (by unfold HEADER_SIZE; omega)
  have hn8 : need % 8 = 0 := by omega
  obtain ⟨hhdr, -, -, hS8a, hS8, hSlt⟩ := iblock_header s live l1 l2 (S, false) hinv
  simp only at hS8 hSlt hS8a
  have hsz2 := (isizes_append _ _).1 hinv.sizes
  have hsz3 := (isizes_cons _ _).1 hsz2.2
  have hlay2 := (Explicit.layout_append _ _ _ _).1 hinv.layout
  rw [Explicit.total_append] at htot
  simp only [total] at htot
  -- the block list after the call
  obtain ⟨rest, hrest⟩ : ∃ rest : List (Nat × Bool),
      rest = if S - need > 0 then (S - need, false) :: l2 else l2 := ⟨_, rfl⟩
  have hm1 : set_header_block s.mem r SET_HEADER need =
      if S - need > 0 then
        ASSIGN (ASSIGN s.mem (s.segment_start + total l1) (hdr_word (need, true)))
          (s.segment_start + total l1 + need) (hdr_word (S - need, false))
      else ASSIGN s.mem (s.segment_start + total l1) (hdr_word (need, true)) := by
    rw [hre]
    exact set_header_alloc s.mem _ S need hhdr hS8 hSlt hn8 hS
  have hlow : ∀ x ∈ hdrs s.segment_start l1,
      set_header_block s.mem r SET_HEADER need x = s.mem x := by
    intro x hx
    have := ihdrs_bounds _ _ _ hsz2.1 hx
    rw [hm1]
    split
    · rw [Explicit.assign_other _ _ _ _ (by omega), Explicit.assign_other _ _ _ _ (by omega)]
    · rw [Explicit.assign_other _ _ _ _ (by omega)]
  have hhigh : ∀ x ∈ hdrs (s.segment_start + total l1 + S) l2,
      set_header_block s.mem r SET_HEADER need x = s.mem x := by
    intro x hx
    have := ihdrs_bounds _ _ _ hsz3.2 hx
    rw [hm1]
    split
    · rw [Explicit.assign_other _ _ _ _ (by omega), Explicit.assign_other _ _ _ _ (by omega)]
    · rw [Explicit.assign_other _ _ _ _ (by omega)]
  have hat : set_header_block s.mem r SET_HEADER need (s.segment_start + total l1) =
      hdr_word (need, true) := by
    rw [hm1]
    split
    · rw [Explicit.assign_other _ _ _ _ (by omega), Explicit.assign_same]
    · rw [Explicit.assign_same]
  have hlayrest : Layout (set_header_block s.mem r SET_HEADER need)
      (s.segment_start + total l1 + need) rest := by
    rw [hrest]
    by_cases hsp : S - need > 0
    · rw [if_pos hsp]
      refine ⟨?_, ?_⟩
      · rw [hm1, if_pos hsp, Explicit.assign_same]
      · have e : s.segment_start + total l1 + need + (S - need, false).1 =
            s.segment_start + total l1 + S := by
          simp only
          omega
        rw [e]
        exact Explicit.layout_frame _ _ _ _ hlay2.2.2 hhigh
    · rw [if_neg hsp]
      have e : s.segment_start + total l1 + need = s.segment_start + total l1 + S := by omega
      rw [e]
      exact Explicit.layout_frame _ _ _ _ hlay2.2.2 hhigh
  have htotrest : need + total rest = S + total l2 := by
    rw [hrest]
    split
    · simp only [total]
      omega
    · omega
  have hszrest : Sizes rest := by
    rw [hrest]
    split
    · rw [isizes_cons]
      exact ⟨⟨by simp only; omega, by simp only; omega⟩, hsz3.2⟩
    · exact hsz3.2
  have husrest : useds (s.segment_start + total l1 + need) rest =
      useds (s.segment_start + total l1 + S) l2 := by
    rw [hrest]
    split
    · simp only [useds, Bool.false_eq_true, if_false]
      congr 1
      omega
    · congr 1
      omega
  have hus0 : useds s.segment_start (l1 ++ (S, false) :: l2) =
      useds s.segment_start l1 ++ useds (s.segment_start + total l1 + S) l2 :=
    Explicit.useds_split_free _ _ _ _
  have hus1 : useds s.segment_start (l1 ++ (need, true) :: rest) =
      useds s.segment_start l1 ++ r :: useds (s.segment_start + total l1 + S) l2 := by
    rw [Explicit.useds_split_used, husrest, hre]
  have hnew : r ∉ live := by
    intro hmem
    have := hinv.hlive r hmem
    rw [hus0] at this
    rcases List.mem_append.1 this with h | h
    · have := iuseds_bounds _ _ _ hsz2.1 h
      omega
    · have := iuseds_bounds _ _ _ hsz3.2 h
      omega
  refine ⟨_, r, l1 ++ (need, true) :: rest, hrun, ?_, rfl, rfl, fun h => absurd h hr0,
    fun _ => ⟨l1, need, rest, rfl, hre, by omega⟩⟩
  rw [if_neg hr0]
  exact
    { hend := hend
      hlt := hlt
      sizes := by
        rw [isizes_append, isizes_cons]
        exact ⟨hsz2.1, ⟨by simp only; omega, hn8⟩, hszrest⟩
      layout := by
        rw [Explicit.layout_append]
        exact ⟨Explicit.layout_frame _ _ _ _ hlay2.1 hlow, hat, hlayrest⟩
      htotal := by
        rw [Explicit.total_append]
        simp only [total]
        omega
      hlive := by
        intro p hp
        rw [hus1]
        rcases List.mem_cons.1 hp with rfl | hp
        · simp
        · have := hinv.hlive p hp
          rw [hus0] at this
          rcases List.mem_append.1 this with h | h
          · exact List.mem_append_left _ h
          · exact List.mem_append_right _ (List.mem_cons_of_mem _ h)
      hnodup := List.nodup_cons.2 ⟨hnew, hinv.hnodup⟩
      used := by
        show (s.size_used + need) % WORD ≤ s.segment_size
        rw [Nat.add_comm]
        omega }

theorem find_next_block_loop_mono (s : Heap) (need : Nat) :
    ∀ (fuel fuel2 base r : Nat), find_next_block_loop s need fuel base = some r →
      fuel ≤ fuel2 → find_next_block_loop s need fuel2 base = some r := by
  intro fuel
  induction fuel with
  | zero =>
    intro fuel2 base r h _
    simp [find_next_block_loop] at h
  | succ f ih =>
    intro fuel2 base r h hle
    obtain ⟨g, rfl⟩ : ∃ g, fuel2 = g + 1 := ⟨fuel2 - 1, by omega⟩
    unfold find_next_block_loop at h ⊢
    split_ifs at h ⊢
    · exact h
    · exact ih g _ r h (by omega)
    · exact h

theorem imymalloc_mono (fuel fuel2 M : Nat) (s : Heap) (n : Nat) (r : Heap × Nat)
    (h : mymalloc fuel M s n = some r) (hle : fuel ≤ fuel2) :
    mymalloc fuel2 M s n = some r := by
  unfold mymalloc at h ⊢
  by_cases h1 : n > M
  · rw [if_pos h1] at h ⊢
    exact h
  rw [if_neg h1] at h ⊢
  simp only at h ⊢
  by_cases h2 : ((roundup n ALIGNMENT + HEADER_SIZE) % WORD + s.size_used) % WORD >
      s.segment_size
  · rw [if_pos h2] at h ⊢
    exact h
  rw [if_neg h2] at h ⊢
  cases hfind : find_next_block fuel s ((roundup n ALIGNMENT + HEADER_SIZE) % WORD) with
  | none => simp [hfind] at h
  | some x =>
    have := find_next_block_loop_mono s _ fuel fuel2 _ x hfind hle
    rw [hfind] at h
    unfold find_next_block
    rw [this]
    exact h

theorem imyrealloc_mono (fuel fuel2 M : Nat) (s : Heap) (p n : Nat) (r : Heap × Nat)
    (h : myrealloc fuel M s p n = some r) (hle : fuel ≤ fuel2) :
    myrealloc fuel2 M s p n = some r := by
  unfold myrealloc at h ⊢
  cases hm : mymalloc fuel M s n with
  | none => simp [hm] at h
  | some x =>
    rw [imymalloc_mono fuel fuel2 M s n x hm hle]
    rw [hm] at h
    exact h

/-- Releasing a live allocation in the implicit strategy clears its allocated bit and
keeps the tiling. -/
theorem imyfree_inv (s : Heap) (live : List Nat) (bs : List (Nat × Bool)) (p : Nat)
    (hinv : Inv s live bs) (hp : p ∈ live) :
    ∃ bs1, Inv (myfree s p) (live.erase p) bs1 ∧
      (myfree s p).segment_start = s.segment_start ∧
      (myfree s p).segment_size = s.segment_size := by
  obtain ⟨l1, S, l2, rfl, hpe⟩ := Explicit.mem_useds_split bs _ p (hinv.hlive p hp)
  have hg : GET_HEADER p = s.segment_start + total l1 := by
    rw [hpe]
    simp [GET_HEADER, HEADER_SIZE]
  obtain ⟨-, hgs, -, -, hS8, -⟩ := iblock_header s live l1 l2 (S, true) hinv
  simp only at hgs hS8
  have hsz2 := (isizes_append _ _).1 hinv.sizes
  have hsz3 := (isizes_cons _ _).1 hsz2.2
  have hlay2 := (Explicit.layout_append _ _ _ _).1 hinv.layout
  have hmem : (myfree s p).mem =
      ASSIGN s.mem (s.segment_start + total l1) (hdr_word (S, false)) := by
    unfold myfree
    simp only
    rw [set_header_free, hg, hgs]
  refine ⟨l1 ++ (S, false) :: l2, ?_, rfl, rfl⟩
  exact
    { hend := hinv.hend
      hlt := hinv.hlt
      sizes := by
        rw [isizes_append, isizes_cons]
        exact ⟨hsz2.1, hsz3.1, hsz3.2⟩
      layout := by
        show Layout (myfree s p).mem s.segment_start _
        rw [hmem, Explicit.layout_append]
        refine ⟨Explicit.layout_frame _ _ _ _ hlay2.1 ?_, Explicit.assign_same _ _ _,
          Explicit.layout_frame _ _ _ _ hlay2.2.2 ?_⟩
        · intro x hx
          have := ihdrs_bounds _ _ _ hsz2.1 hx
          exact Explicit.assign_other _ _ _ _ (by omega)
        · intro x hx
          have := ihdrs_bounds _ _ _ hsz3.2 hx
          simp only at this
          exact Explicit.assign_other _ _ _ _ (by omega)
      htotal := by
        have := hinv.htotal
        rw [Explicit.total_append] at this ⊢
        exact this
      hlive := by
        intro q hq
        have hq2 := (hinv.hnodup.mem_erase_iff).1 hq
        have := hinv.hlive q hq2.2
        rw [Explicit.useds_split_used] at this
        show q ∈ useds s.segment_start (l1 ++ (S, false) :: l2)
        rw [Explicit.useds_split_free]
        rcases List.mem_append.1 this with h | h
        · exact List.mem_append_left _ h
        · rcases List.mem_cons.1 h with h | h
          · exact absurd (h.trans hpe.symm) hq2.1
          · exact List.mem_append_right _ h
      hnodup := hinv.hnodup.erase p
      used := hinv.used }

theorem imemcpy_outside (m : Nat → Nat) (dst src n w : Nat) (h : w < dst ∨ dst + n ≤ w) :
    memcpy m dst src n w = m w := by
  unfold memcpy
  rw [if_neg (by omega)]

/-- Resizing a live allocation in the implicit strategy returns; when the inner allocation
succeeded, or nothing was to be copied, the tiling is kept. -/
theorem imyrealloc_inv (fuel M : Nat) (s : Heap) (live : List Nat) (bs : List (Nat × Bool))
    (p n : Nat) (hinv : Inv s live bs) (hp : p ∈ live) (hM : M + 16 ≤ WORD)
    (hpos : 8 ≤ s.segment_size) (hf : s.segment_size ≤ fuel) :
    ∃ s1 q, myrealloc fuel M s p n = some (s1, q) ∧
      ((q = 0 → n = 0) →
        ∃ bs1, Inv s1 (if q = 0 then live.erase p else q :: live.erase p) bs1 ∧
          s1.segment_start = s.segment_start ∧ s1.segment_size = s.segment_size) := by
  obtain ⟨s1, q, bs1, hrun, hinv1, hst1, hsi1, hnull, hblk⟩ :=
    imymalloc_inv fuel M s live bs n hinv hM hpos hf
  refine ⟨myfree { s1 with mem := memcpy s1.mem q p n } p, q, ?_, fun hq0 => ?_⟩
  · unfold myrealloc
    rw [hrun]
    rfl
  by_cases hq : q = 0
  · have hn := hq0 hq
    have hs1 := hnull hq
    subst hq
    subst hn
    subst hs1
    have hcopy : memcpy s1.mem 0 p 0 = s1.mem := by
      funext w
      exact imemcpy_outside _ _ _ _ _ (by omega)
    rw [hcopy, if_pos rfl]
    exact imyfree_inv s1 live bs p hinv hp
  · rw [if_neg hq] at hinv1 ⊢
    obtain ⟨k1, Sq, k2, rfl, hqe, hSq⟩ := hblk hq
    have hsz2 := (isizes_append _ _).1 hinv1.sizes
    have hsz3 := (isizes_cons _ _).1 hsz2.2
    have hinv2 := inv_mem s1 (q :: live) _ (memcpy s1.mem q p n) hinv1 (fun x hx => by
      apply imemcpy_outside
      rw [Explicit.hdrs_split] at hx
      rcases List.mem_append.1 hx with h | h
      · have := ihdrs_bounds _ _ _ hsz2.1 h
        omega
      · rcases List.mem_cons.1 h with h | h
        · omega
        · have := ihdrs_bounds _ _ _ hsz3.2 h
          simp only at this
          omega)
    obtain ⟨bs3, hinv3, hst3, hsi3⟩ := imyfree_inv _ (q :: live) _ p hinv2
      (List.mem_cons_of_mem _ hp)
    have hne : q ≠ p := by
      intro e
      have := (List.nodup_cons.1 hinv1.hnodup).1
      exact this (e ▸ hp)
    rw [List.erase_cons_tail (by simpa using hne)] at hinv3
    exact ⟨bs3, hinv3, hst3.trans hst1, hsi3.trans hsi1⟩

/-- Every reachable state of the implicit strategy satisfies the tiling invariant. -/
theorem ireach_inv (M start size : Nat) (s : Heap) (live : List Nat)
    (h8 : size % 8 = 0) (hpos : 8 ≤ size) (hlt : start + size < WORD) (hM : M + 16 ≤ WORD)
    (hr : Reach M start size s live) :
    ∃ bs, Inv s live bs ∧ s.segment_start = start ∧ s.segment_size = size := by
  induction hr with
  | init s0 s hrun =>
    obtain ⟨hinv, hst, hsi, -⟩ := imyinit_inv s0 start size h8 hpos hlt
    rw [hrun] at hinv hst hsi
    exact ⟨_, hinv, hst, hsi⟩
  | malloc fuel n s s1 live p _ hrun ih =>
    obtain ⟨bs, hinv, hst, hsi⟩ := ih
    obtain ⟨s2, q, bs2, hrun2, hinv2, hst2, hsi2, -, -⟩ :=
      imymalloc_inv (max fuel s.segment_size) M s live bs n hinv hM (by omega)
        (Nat.le_max_right _ _)
    have := imymalloc_mono _ _ _ _ _ _ hrun (Nat.le_max_left fuel s.segment_size)
    rw [hrun2] at this
    obtain ⟨rfl, rfl⟩ := Prod.mk.inj (Option.some.inj this)
    exact ⟨bs2, hinv2, hst2.trans hst, hsi2.trans hsi⟩
  | free s live p _ hp ih =>
    obtain ⟨bs, hinv, hst, hsi⟩ := ih
    obtain ⟨bs2, hinv2, hst2, hsi2⟩ := imyfree_inv s live bs p hinv hp
    exact ⟨bs2, hinv2, hst2.trans hst, hsi2.trans hsi⟩
  | realloc fuel n s s1 live p q _ hp hrun hq0 ih =>
    obtain ⟨bs, hinv, hst, hsi⟩ := ih
    obtain ⟨s2, q2, hrun2, hrest⟩ :=
      imyrealloc_inv (max fuel s.segment_size) M s live bs p n hinv hp hM (by omega)
        (Nat.le_max_right _ _)
    have := imyrealloc_mono _ _ _ _ _ _ _ hrun (Nat.le_max_left fuel s.segment_size)
    rw [hrun2] at this
    obtain ⟨rfl, rfl⟩ := Prod.mk.inj (Option.some.inj this)
    obtain ⟨bs2, hinv2, hst2, hsi2⟩ := hrest hq0
    exact ⟨bs2, hinv2, hst2.trans hst, hsi2.trans hsi⟩

theorem imymalloc_bound (fuel M : Nat) (s s1 : Heap) (n q : Nat)
    (h : mymalloc fuel M s n = some (s1, q)) (hb : s.size_used ≤ s.segment_size) :
    s1.size_used ≤ s1.segment_size := by
  unfold mymalloc at h
  by_cases h1 : n > M
  · rw [if_pos h1] at h
    obtain ⟨rfl, -⟩ := Prod.mk.inj (Option.some.inj h)
    exact hb
  rw [if_neg h1] at h
  simp only at h
  by_cases h2 : ((roundup n ALIGNMENT + HEADER_SIZE) % WORD + s.size_used) % WORD >
      s.segment_size
  · rw [if_pos h2] at h
    obtain ⟨rfl, -⟩ := Prod.mk.inj (Option.some.inj h)
    exact hb
  rw [if_neg h2] at h
  cases hfind : find_next_block fuel s ((roundup n ALIGNMENT + HEADER_SIZE) % WORD) with
  | none => simp [hfind] at h
  | some x =>
    rw [hfind] at h
    simp only [Option.map_some', Option.some.injEq] at h
    by_cases hx : x ≠ 0
    · rw [if_pos hx] at h
      obtain ⟨rfl, -⟩ := Prod.mk.inj h
      show (s.size_used + (roundup n ALIGNMENT + HEADER_SIZE) % WORD) % WORD ≤ s.segment_size
      rw [Nat.add_comm]
      omega
    · rw [if_neg hx] at h
      obtain ⟨rfl, -⟩ := Prod.mk.inj h
      exact hb

theorem imyrealloc_bound (fuel M : Nat) (s s1 : Heap) (p n q : Nat)
    (h : myrealloc fuel M s p n = some (s1, q)) (hb : s.size_used ≤ s.segment_size) :
    s1.size_used ≤ s1.segment_size := by
  unfold myrealloc at h
  cases hm : mymalloc fuel M s n with
  | none => simp [hm] at h
  | some r =>
    obtain ⟨s2, q2⟩ := r
    rw [hm] at h
    simp only [Option.map_some', Option.some.injEq, Prod.mk.injEq] at h
    rw [← h.1]
    exact imymalloc_bound fuel M s s2 n q2 hm hb

theorem validate_of_bound (s : Heap) (h : s.size_used ≤ s.segment_size) :
    validate_heap s = true := by
  unfold validate_heap
  rw [if_neg (by omega)]

theorem explicit_validate_of_bound (s : Explicit.Heap) (h : s.size_used ≤ s.segment_size) :
    Explicit.validate_heap s = true := by
  unfold Explicit.validate_heap
  rw [if_neg (by omega)]

/-- Used-byte bound on the calls that return (the part of C13 that the code satisfies):
in both strategies, in every state reached from `myinit` by `mymalloc`, `myfree`
and `myrealloc` calls on live allocations (whatever they return), `size_used` is at most
`segment_size` and `validate_heap` returns true; from such a state `mymalloc(n)` returns
for every `n` and `validate_heap` returns true right after it.  In the implicit strategy
the bound is moreover kept by each single call from any state that satisfies it, whatever
the arguments. -/
theorem used_bytes_bound (M start size : Nat) (h24 : 24 ≤ size) (h8 : size % 8 = 0)
    (hlt : start + size < WORD) (hM : M + 16 ≤ WORD) :
    (∀ (s : Explicit.Heap) (live : List Nat), Explicit.Reach M start size s live →
      s.size_used ≤ s.segment_size ∧ Explicit.validate_heap s = true ∧
      ∀ n fuel, s.segment_size ≤ fuel →
        ∃ s1 q, Explicit.mymalloc fuel M s n = some (s1, q) ∧
          s1.size_used ≤ s1.segment_size ∧ Explicit.validate_heap s1 = true) ∧
    (∀ (s : Heap) (live : List Nat), Reach M start size s live →
      s.size_used ≤ s.segment_size ∧ validate_heap s = true ∧
      ∀ n fuel, s.segment_size ≤ fuel →
        ∃ s1 q, mymalloc fuel M s n = some (s1, q) ∧
          s1.size_used ≤ s1.segment_size ∧ validate_heap s1 = true) ∧
    (∀ (s s1 : Heap) (fuel n p q : Nat), s.size_used ≤ s.segment_size →
      (mymalloc fuel M s n = some (s1, q) ∨ myrealloc fuel M s p n = some (s1, q) ∨
        s1 = myfree s p) →
      s1.size_used ≤ s1.segment_size ∧ validate_heap s1 = true) := by
  refine ⟨?_, ?_, ?_⟩
  · intro s live hr
    obtain ⟨bs, hinv, -, -⟩ := Explicit.reach_inv M start size s live h24 h8 hlt hM hr
    refine ⟨hinv.used, explicit_validate_of_bound s hinv.used, fun n fuel hf => ?_⟩
    obtain ⟨s1, q, bs1, hrun, hinv1, -, -, -⟩ := Explicit.mymalloc_inv fuel M s live bs n hinv hf
    exact ⟨s1, q, hrun, hinv1.used, explicit_validate_of_bound s1 hinv1.used⟩
  · intro s live hr
    obtain ⟨bs, hinv, -, hsi⟩ := ireach_inv M start size s live h8 (by omega) hlt hM hr
    refine ⟨hinv.used, validate_of_bound s hinv.used, fun n fuel hf => ?_⟩
    obtain ⟨s1, q, bs1, hrun, hinv1, -, -, -, -⟩ :=
      imymalloc_inv fuel M s live bs n hinv hM (by omega) hf
    exact ⟨s1, q, hrun, hinv1.used, validate_of_bound s1 hinv1.used⟩
  · intro s s1 fuel n p q hb hstep
    have hb1 : s1.size_used ≤ s1.segment_size := by
      rcases hstep with h | h | h
      · exact imymalloc_bound fuel M s s1 n q h hb
      · exact imyrealloc_bound fuel M s s1 p n q h hb
      · rw [h]
        exact hb
    exact ⟨hb1, validate_of_bound s1 hb1⟩

theorem used_bytes_bound_witness :
    (24 ≤ 1024 ∧ 1024 % 8 = 0 ∧ 4096 + 1024 < WORD ∧ MAX_REQ + 16 ≤ WORD) ∧
    (∀ (s : Explicit.Heap) (live : List Nat), Explicit.Reach MAX_REQ 4096 1024 s live →
      s.size_used ≤ s.segment_size ∧ Explicit.validate_heap s = true ∧
      ∀ n fuel, s.segment_size ≤ fuel →
        ∃ s1 q, Explicit.mymalloc fuel MAX_REQ s n = some (s1, q) ∧
          s1.size_used ≤ s1.segment_size ∧ Explicit.validate_heap s1 = true) ∧
    (∀ (s : Heap) (live : List Nat), Reach MAX_REQ 4096 1024 s live →
      s.size_used ≤ s.segment_size ∧ validate_heap s = true ∧
      ∀ n fuel, s.segment_size ≤ fuel →
        ∃ s1 q, mymalloc fuel MAX_REQ s n = some (s1, q) ∧
          s1.size_used ≤ s1.segment_size ∧ validate_heap s1 = true) ∧
    (∀ (s s1 : Heap) (fuel n p q : Nat), s.size_used ≤ s.segment_size →
      (mymalloc fuel MAX_REQ s n = some (s1, q) ∨ myrealloc fuel MAX_REQ s p n = some (s1, q) ∨
        s1 = myfree s p) →
      s1.size_used ≤ s1.segment_size ∧ validate_heap s1 = true) :=
  ⟨by decide, used_bytes_bound MAX_REQ 4096 1024 (by decide) (by decide) (by decide)
    (by decide)⟩

/-! ## Implicit strategy: failing inputs -/

theorem implicit_reach_one : Reach MAX_REQ 4096 24 (after_malloc (fresh 24) 8) [4104] :=
  Reach.malloc 256 8 (fresh 24) (after_malloc (fresh 24) 8) [] 4104
    (Reach.init heap0 (fresh 24) rfl) rfl

/-- C17 (failing input): after `myinit` on a 1024-byte segment the only block is free and
its header records 1024.  `mymalloc(1016)` has `size_needed = 1024` and passes both
up-front checks, yet it returns `NULL` and leaves the state as it was, for every value of
`MAX_REQUEST_SIZE` and every positive fuel: the loop test of `find_next_block` adds
`size_needed` to the payload address, not to the header address.  A request of 1008 bytes
is answered with the payload of that block. -/
theorem implicit_exact_fit_refused :
    GET_SIZE (fresh 1024).mem 4096 = 1024 ∧ IS_FREE (fresh 1024).mem 4096 = true ∧
    (roundup 1016 ALIGNMENT + HEADER_SIZE) % WORD = 1024 ∧
    (1024 + (fresh 1024).size_used) % WORD ≤ (fresh 1024).segment_size ∧
    (∀ fuel M, mymalloc (fuel + 1) M (fresh 1024) 1016 = some (fresh 1024, 0)) ∧
    find_next_block 256 (fresh 1024) 1024 = some 0 ∧
    (mymalloc 256 MAX_REQ (fresh 1024) 1008).map (fun r => r.2) = some 4104 := by
  refine ⟨by decide, by decide, by decide, by decide, ?_, by decide, by decide⟩
  intro fuel M
  have hn : (roundup 1016 ALIGNMENT + HEADER_SIZE) % WORD = 1024 := by decide
  have hf : find_next_block (fuel + 1) (fresh 1024) 1024 = some 0 := by
    unfold find_next_block find_next_block_loop
    rw [if_neg (by decide)]
  unfold mymalloc
  simp only [hn, hf]
  split_ifs <;> simp

/-- C20 (failing input): on a 24-byte segment `p = mymalloc(8)` is the block at 4096 with
header size 16 and the allocated bit set.  The inner `mymalloc(0)` of `myrealloc(p, 0)`
returns `NULL`; `myrealloc` returns `NULL` as well, but it has released the block: the
header of `p` now has the allocated bit clear. -/
theorem implicit_failed_resize_releases :
    Reach MAX_REQ 4096 24 (after_malloc (fresh 24) 8) [4104] ∧
    GET_ALLOC (after_malloc (fresh 24) 8).mem (GET_HEADER 4104) = 1 ∧
    GET_SIZE (after_malloc (fresh 24) 8).mem (GET_HEADER 4104) = 16 ∧
    mymalloc 256 MAX_REQ (after_malloc (fresh 24) 8) 0 = some (after_malloc (fresh 24) 8, 0) ∧
    myrealloc 256 MAX_REQ (after_malloc (fresh 24) 8) 4104 0 =
      some (after_realloc (after_malloc (fresh 24) 8) 4104 0, 0) ∧
    GET_ALLOC (after_realloc (after_malloc (fresh 24) 8) 4104 0).mem (GET_HEADER 4104) = 0 ∧
    IS_FREE (after_realloc (after_malloc (fresh 24) 8) 4104 0).mem (GET_HEADER 4104) = true := by
  refine ⟨implicit_reach_one, by decide, by decide, rfl, rfl, by decide, by decide⟩

end Implicit
